import Mathlib

/-!
# oss-upload-demo: multipart-upload handlers over the Aliyun OSS SDK

A shallow embedding of `oss/aliyun/oss.go` and `oss/aliyun/api.go`.

* Go strings are Lean `String`s, Go `int`/`int64` are `Int` (wrapped to 64 bits where
  the source can overflow), Go `error` values are their `Error()` text.
* The storage provider (the SDK's `oss.Bucket`), the clock (`time.Now`) and the
  standard-library method `time.Time.Format` are parameters of the model; every provider
  call is recorded, in order, in a call log.
* `sort.Slice` is the standard library's pattern-defeating quicksort (go1.19 and later),
  embedded from `sort/zsortfunc.go` and proved below to return a sorted rearrangement of
  every slice.
-/

namespace OssUpload

/-! ## Strings -/

/-- Go `strings.TrimLeft(s, cutset)` on the characters of `s`: drop the leading characters
that occur in `cutset`. -/
def TrimLeft (s cutset : List Char) : List Char :=
  s.dropWhile (fun c => cutset.contains c)

/-- Go `strings.TrimRight(s, cutset)` on the characters of `s`: drop the trailing characters
that occur in `cutset`. -/
def TrimRight (s cutset : List Char) : List Char :=
  s.rdropWhile (fun c => cutset.contains c)

/-- Go `strings.Trim(s, cutset)`: `s` with all leading and trailing characters contained in
`cutset` removed (`TrimLeft(TrimRight(s, cutset), cutset)`). -/
def Trim (s cutset : String) : String :=
  ⟨TrimLeft (TrimRight s.data cutset.data) cutset.data⟩

/-! ## Parts -/

namespace oss

/-- The SDK's `oss.UploadPart`: a part number and the ETag the provider returned for it. -/
structure UploadPart where
  PartNumber : Int
  ETag : String
  deriving DecidableEq, Repr, Inhabited

end oss

/-- The type `UploadPart` of the request body (api.go:118). -/
structure UploadPart where
  PartNumber : Int
  ETag : String
  deriving DecidableEq, Repr

/-- The comparison handed to `sort.Slice` (oss.go:132-134), on the two elements compared:
`parts[i].PartNumber < parts[j].PartNumber`. -/
def less (a b : oss.UploadPart) : Bool :=
  decide (a.PartNumber < b.PartNumber)

/-- The body of the conversion loop of `CompleteMultipartUpload` (oss.go:144-149): the part
keeps its part number and gets its ETag trimmed of double quotes. -/
def convertPart (part : oss.UploadPart) : oss.UploadPart :=
  { PartNumber := part.PartNumber, ETag := Trim part.ETag "\"" }

/-! ## Numbers and text -/

/-- The digit loop of Go's decimal formatting (`strconv.formatBits`, base 10): the digits of
`u` are produced from the least significant one and put in front of `acc`. `fuel` bounds
the number of digits so that the recursion is structural. -/
def formatBits : Nat → Nat → List Char → List Char
  | 0, _, acc => acc
  | fuel + 1, u, acc =>
    if 10 ≤ u then formatBits fuel (u / 10) (Char.ofNat (48 + u % 10) :: acc)
    else Char.ofNat (48 + u) :: acc

/-- Go's decimal text of an integer (`strconv.Itoa`, `strconv.FormatInt(i, 10)` and the verb
`%d` of `fmt.Sprintf`): a minus sign for a negative number, then the digits without
leading zeros. -/
def Itoa (i : Int) : String :=
  ⟨if i < 0 then '-' :: formatBits (i.natAbs + 1) i.natAbs []
   else formatBits (i.natAbs + 1) i.natAbs []⟩

/-- The value of a string of decimal digits, most significant first. -/
def digitsValue (ds : List Char) : Nat :=
  ds.foldl (fun acc c => acc * 10 + (c.toNat - 48)) 0

/-- Go `strconv.Atoi` on a 64-bit platform: an optional sign `+` or `-`, then one or more
decimal digits and nothing else; a value outside the range of `int` is an error. `none`
stands for the returned error (`ErrSyntax` or `ErrRange`). -/
def Atoi (s : String) : Option Int :=
  let signed : Bool × List Char :=
    match s.data with
    | '-' :: rest => (true, rest)
    | '+' :: rest => (false, rest)
    | rest => (false, rest)
  if signed.2 = [] ∨ signed.2.all Char.isDigit = false then none
  else
    let v : Int := if signed.1 then -(digitsValue signed.2 : Int) else (digitsValue signed.2 : Int)
    if -9223372036854775808 ≤ v ∧ v ≤ 9223372036854775807 then some v else none

/-- Conversion to Go `int64`: the value modulo `2^64`, in `[-2^63, 2^63)`. -/
def toInt64 (x : Int) : Int :=
  (x + 9223372036854775808) % 18446744073709551616 - 9223372036854775808

/-! ## Time -/

/-- Go `time.Duration`: a number of nanoseconds. -/
abbrev Duration := Int

/-- Go `time.Second`. -/
def Second : Duration := 1000000000

/-- Go `time.Hour`. -/
def Hour : Duration := 3600 * Second

/-- The number of binary digits of `x`, counted as far as `fuel` digits. -/
def bitLength : Nat → Nat → Nat
  | 0, _ => 0
  | fuel + 1, x => if x = 0 then 0 else bitLength fuel (x / 2) + 1

/-- The `float64` nearest to the quotient `num / den` of two naturals below `2^128`, for a
quotient below `2^53`: the pair `(m, k)` stands for the number `m / 2^k`, whose mantissa `m`
has 53 binary digits, and a quotient half-way between two such numbers goes to the one with
the even mantissa (the rounding of IEEE 754 arithmetic). -/
def float64Quot (num den : Nat) : Nat × Nat :=
  let k0 := 53 + bitLength 128 den - bitLength 128 num
  let k := if 9007199254740992 ≤ num * 2 ^ k0 / den then k0 - 1 else k0
  let m := num * 2 ^ k / den
  let r := num * 2 ^ k % den
  (if den < 2 * r ∨ (2 * r = den ∧ m % 2 = 1) then m + 1 else m, k)

/-- Go `Duration.Seconds()`, the `float64`
`float64(sec) + float64(nsec)/1e9` for `sec := d / Second` and `nsec := d % Second`: the
magnitude of the result, as a pair `(m, k)` standing for `m / 2^k`; its sign is the sign of
`d`. The two conversions are exact, the division and the addition round. -/
def Duration.Seconds (d : Duration) : Nat × Nat :=
  let sec := d.natAbs / 1000000000
  let nsec := d.natAbs % 1000000000
  let q := float64Quot nsec 1000000000
  float64Quot (sec * 2 ^ q.2 + q.1) (2 ^ q.2)

/-- The expression `int64(d.Seconds())` (oss.go:87): the seconds of the duration as a
`float64`, truncated toward zero. -/
def Duration.wholeSeconds (d : Duration) : Int :=
  let s := Duration.Seconds d
  let whole : Nat := s.1 / 2 ^ s.2
  if d < 0 then -(whole : Int) else (whole : Int)

/-- A Go `time.Time`, as the instant it denotes: nanoseconds since the Unix epoch. -/
structure Time where
  nanos : Int
  deriving DecidableEq, Repr

/-- Go `Time.Add`. -/
def Time.Add (t : Time) (d : Duration) : Time :=
  ⟨t.nanos + d⟩

/-- Go `Time.Unix`: seconds since the Unix epoch. -/
def Time.Unix (t : Time) : Int :=
  t.nanos / 1000000000

/-- Go `Time.UnixNano`: nanoseconds since the Unix epoch, as an `int64`. -/
def Time.UnixNano (t : Time) : Int :=
  toInt64 t.nanos

/-- Go `Time.Second`: the second offset within the minute of the wall-clock reading, in
`[0, 59]`. `zoneOffset` is the offset of the time's location (seconds east of UTC) in
effect at a given Unix time. -/
def Time.Second (zoneOffset : Int → Int) (t : Time) : Int :=
  (t.Unix + zoneOffset t.Unix) % 60

/-! ## The SDK surface the code uses -/

namespace oss

/-- The SDK's `oss.InitiateMultipartUploadResult`. -/
structure InitiateMultipartUploadResult where
  Bucket : String
  Key : String
  UploadID : String
  deriving DecidableEq, Repr

/-- The SDK's `oss.CompleteMultipartUploadResult`. -/
structure CompleteMultipartUploadResult where
  Location : String
  Bucket : String
  ETag : String
  Key : String
  deriving DecidableEq, Repr

/-- The SDK's `oss.HTTPMethod`, the two values the code passes. -/
inductive HTTPMethod where
  | HTTPGet
  | HTTPPut
  deriving DecidableEq, Repr

/-- The SDK's `oss.Option` values the code builds. -/
inductive Option where
  | AddParam (key value : String)
  | ACReqMethod (value : String)
  | Expires (t : Time)
  | ContentType (value : String)
  | Origin (value : String)
  | ResponseContentDisposition (value : String)
  deriving DecidableEq, Repr

/-- One call of a method of the SDK's `oss.Bucket`, with its arguments. -/
inductive Call where
  | InitiateMultipartUpload (objectKey : String)
  | SignURL (objectKey : String) (method : HTTPMethod) (expiredInSec : Int)
      (options : List Option)
  | CompleteMultipartUpload (imur : InitiateMultipartUploadResult) (parts : List UploadPart)
  deriving DecidableEq, Repr

/-- The SDK's `oss.Bucket`, as the answers it gives: each method returns a result or an
error text, and may depend on the calls made before it (`past`). -/
structure Bucket where
  InitiateMultipartUpload : (past : List Call) → (objectKey : String) →
    Except String InitiateMultipartUploadResult
  SignURL : (past : List Call) → (objectKey : String) → (method : HTTPMethod) →
    (expiredInSec : Int) → (options : List Option) → Except String String
  CompleteMultipartUpload : (past : List Call) → (imur : InitiateMultipartUploadResult) →
    (parts : List UploadPart) → Except String CompleteMultipartUploadResult

end oss

/-! ## The standard-library sort behind `sort.Slice`

`sort.Slice(x, less)` of the Go standard library (go1.19 and later) runs the
pattern-defeating quicksort `pdqsort_func` of `sort/zsortfunc.go` on the pair
`lessSwap{less, swap}`. The functions below follow that file; the slice is a list, loops
are recursions on a counter that bounds their iterations, and the step of the `xorshift`
generator that `breakPatterns_func` draws from is the parameter `next`. -/

namespace sort

variable {α : Type}

/-- The method `data.Less(i, j)` of the `lessSwap` pair that `sort.Slice` builds: the
caller's comparison on the elements at `i` and `j`. -/
def Less (less : α → α → Bool) (data : List α) (i j : Nat) : Bool :=
  match data[i]?, data[j]? with
  | some x, some y => less x y
  | _, _ => false

/-- The method `data.Swap(i, j)` of the `lessSwap` pair: exchange the elements at `i`, `j`. -/
def Swap (data : List α) (i j : Nat) : List α :=
  match data[i]?, data[j]? with
  | some x, some y => (data.set i y).set j x
  | _, _ => data

/-- The inner loop of `insertionSort_func`:
`for j := i; j > a && data.Less(j, j-1); j-- { data.Swap(j, j-1) }`. -/
def insertionShift (less : α → α → Bool) (a : Nat) : Nat → List α → List α
  | 0, data => data
  | j + 1, data =>
    if a < j + 1 && Less less data (j + 1) j then
      insertionShift less a j (Swap data (j + 1) j)
    else data

/-- The outer loop of `insertionSort_func`, `for i := a + 1; i < b; i++`, from index `i`
with at most `n` iterations left. -/
def insertionLoop (less : α → α → Bool) (a b : Nat) : Nat → Nat → List α → List α
  | 0, _, data => data
  | n + 1, i, data =>
    if i < b then insertionLoop less a b n (i + 1) (insertionShift less a i data) else data

/-- Go `insertionSort_func(data, a, b)`: sort `data[a:b]` by insertion. -/
def insertionSort_func (less : α → α → Bool) (data : List α) (a b : Nat) : List α :=
  insertionLoop less a b (b - a) (a + 1) data

/-- Go `siftDown_func(data, lo, hi, first)`, from the root `root` (`lo` at the call), with
at most `n` iterations left. -/
def siftDown_func (less : α → α → Bool) (hi first : Nat) : Nat → Nat → List α → List α
  | 0, _, data => data
  | n + 1, root, data =>
    let child := 2 * root + 1
    if hi ≤ child then data
    else
      let child :=
        if child + 1 < hi && Less less data (first + child) (first + child + 1) then child + 1
        else child
      if !Less less data (first + root) (first + child) then data
      else siftDown_func less hi first n child (Swap data (first + root) (first + child))

/-- The first loop of `heapSort_func`: `for i := (hi - 1) / 2; i >= 0; i--`. -/
def heapBuild (less : α → α → Bool) (hi first : Nat) : Nat → List α → List α
  | 0, data => siftDown_func less hi first hi 0 data
  | i + 1, data => heapBuild less hi first i (siftDown_func less hi first hi (i + 1) data)

/-- The second loop of `heapSort_func`: `for i := hi - 1; i >= 0; i--`. -/
def heapPop (less : α → α → Bool) (first : Nat) : Nat → List α → List α
  | 0, data => siftDown_func less 0 first 0 0 (Swap data first first)
  | i + 1, data =>
    heapPop less first i
      (siftDown_func less (i + 1) first (i + 1) 0 (Swap data first (first + (i + 1))))

/-- Go `heapSort_func(data, a, b)`. -/
def heapSort_func (less : α → α → Bool) (data : List α) (a b : Nat) : List α :=
  let hi := b - a
  if hi = 0 then data
  else heapPop less a (hi - 1) (heapBuild less hi a ((hi - 1) / 2) data)

/-- A loop `for i <= j && p(i) { i++ }`, with at most `n` iterations left; returns `i`. -/
def scanUp (p : Nat → Bool) (j : Nat) : Nat → Nat → Nat
  | 0, i => i
  | n + 1, i => if i ≤ j && p i then scanUp p j n (i + 1) else i

/-- A loop `for i <= j && p(j) { j-- }`; returns `j`. -/
def scanDown (p : Nat → Bool) (i : Nat) : Nat → Nat
  | 0 => 0
  | j + 1 => if i ≤ j + 1 && p (j + 1) then scanDown p i j else j + 1

/-- The `for { ... }` loop of `partition_func`, with at most `n` iterations left; returns
the data and the index `j`. -/
def partitionLoop (less : α → α → Bool) (a : Nat) : Nat → List α → Nat → Nat → List α × Nat
  | 0, data, _, j => (data, j)
  | n + 1, data, i, j =>
    let i := scanUp (fun i => Less less data i a) j (j + 1 - i) i
    let j := scanDown (fun j => !Less less data j a) i j
    if j < i then (data, j)
    else partitionLoop less a n (Swap data i j) (i + 1) (j - 1)

/-- Go `partition_func(data, a, b, pivot)`: one quicksort partition; returns the data, the
new index of the pivot and whether the range was already partitioned. -/
def partition_func (less : α → α → Bool) (data : List α) (a b pivot : Nat) :
    List α × Nat × Bool :=
  let data := Swap data a pivot
  let i := scanUp (fun i => Less less data i a) (b - 1) (b - a) (a + 1)
  let j := scanDown (fun j => !Less less data j a) i (b - 1)
  if j < i then (Swap data j a, j, true)
  else
    let r := partitionLoop less a (b - a) (Swap data i j) (i + 1) (j - 1)
    (Swap r.1 r.2 a, r.2, false)

/-- The `for { ... }` loop of `partitionEqual_func`; returns the data and the index `i`. -/
def partitionEqualLoop (less : α → α → Bool) (a : Nat) :
    Nat → List α → Nat → Nat → List α × Nat
  | 0, data, i, _ => (data, i)
  | n + 1, data, i, j =>
    let i := scanUp (fun i => !Less less data a i) j (j + 1 - i) i
    let j := scanDown (fun j => Less less data a j) i j
    if j < i then (data, i)
    else partitionEqualLoop less a n (Swap data i j) (i + 1) (j - 1)

/-- Go `partitionEqual_func(data, a, b, pivot)`: split `data[a:b]` into the elements equal
to the pivot and those greater; returns the data and the first index of the second group. -/
def partitionEqual_func (less : α → α → Bool) (data : List α) (a b pivot : Nat) :
    List α × Nat :=
  partitionEqualLoop less a (b - a) (Swap data a pivot) (a + 1) (b - 1)

/-- The loop `for j := i - 1; j >= 1; j-- { if !data.Less(j, j-1) { break }; data.Swap(j, j-1) }`
of `partialInsertionSort_func`, from index `j`. -/
def shiftSmaller (less : α → α → Bool) : Nat → List α → List α
  | 0, data => data
  | j + 1, data =>
    if !Less less data (j + 1) j then data else shiftSmaller less j (Swap data (j + 1) j)

/-- The loop `for j := i + 1; j < b; j++ { if !data.Less(j, j-1) { break }; data.Swap(j, j-1) }`
of `partialInsertionSort_func`, from index `j` with at most `n` iterations left. -/
def shiftGreater (less : α → α → Bool) (b : Nat) : Nat → Nat → List α → List α
  | 0, _, data => data
  | n + 1, j, data =>
    if j < b then
      if !Less less data j (j - 1) then data
      else shiftGreater less b n (j + 1) (Swap data j (j - 1))
    else data

/-- The loop `for j := 0; j < maxSteps; j++` of `partialInsertionSort_func`, with `steps`
iterations left, from index `i`. -/
def partialInsertionLoop (less : α → α → Bool) (a b : Nat) :
    Nat → Nat → List α → List α × Bool
  | 0, _, data => (data, false)
  | steps + 1, i, data =>
    let i := scanUp (fun i => !Less less data i (i - 1)) (b - 1) (b - i) i
    if i = b then (data, true)
    else if b - a < 50 then (data, false)
    else
      let data := Swap data i (i - 1)
      let data := if 2 ≤ i - a then shiftSmaller less (i - 1) data else data
      let data := if 2 ≤ b - i then shiftGreater less b (b - i) (i + 1) data else data
      partialInsertionLoop less a b steps i data

/-- Go `partialInsertionSort_func(data, a, b)` (`maxSteps = 5`, `shortestShifting = 50`):
returns the data and whether `data[a:b]` is sorted at the end. -/
def partialInsertionSort_func (less : α → α → Bool) (data : List α) (a b : Nat) :
    List α × Bool :=
  partialInsertionLoop less a b 5 (a + 1) data

/-- Go `bits.Len(x)`: the number of bits needed to write `x`, `0` for `x = 0`. -/
def bitsLen (x : Nat) : Nat :=
  if x = 0 then 0 else Nat.log2 x + 1

/-- The loop `for i := 0; i < 3; i++` of `breakPatterns_func`, from `i` with `n` iterations
left; `random` is the state of the `xorshift` generator and `next` its step, which gives the
new state and the value drawn. -/
def breakPatternsLoop (next : Nat → Nat) (a length idx : Nat) :
    Nat → Nat → Nat → List α → List α
  | 0, _, _, data => data
  | n + 1, i, random, data =>
    let random := next random
    let other := random &&& (2 ^ bitsLen length - 1)
    let other := if length ≤ other then other - length else other
    breakPatternsLoop next a length idx n (i + 1) random (Swap data (idx + i) (a + other))

/-- Go `breakPatterns_func(data, a, b)`: exchange the three elements next to the middle of
the range, at `idx`, `idx + 1` and `idx + 2` for `idx = a + (length/4)*2 - 1`, with elements
drawn by the generator, which starts from `xorshift(length)`; the modulus is
`1 << bits.Len(length)`. -/
def breakPatterns_func (next : Nat → Nat) (data : List α) (a b : Nat) : List α :=
  let length := b - a
  if 8 ≤ length then
    breakPatternsLoop next a length (a + (length / 4) * 2 - 1) 3 0 length data
  else data

/-- Go `sortedHint`. -/
inductive sortedHint where
  | unknownHint
  | increasingHint
  | decreasingHint
  deriving DecidableEq, Repr

/-- Go `order2_func(data, a, b, swaps)`: the two indices in order, and the new value of the
counter `*swaps`. -/
def order2_func (less : α → α → Bool) (data : List α) (a b swaps : Nat) : Nat × Nat × Nat :=
  if Less less data b a then (b, a, swaps + 1) else (a, b, swaps)

/-- Go `median_func(data, a, b, c, swaps)`: the index of the median of the three elements,
and the new value of `*swaps`. -/
def median_func (less : α → α → Bool) (data : List α) (a b c swaps : Nat) : Nat × Nat :=
  let r1 := order2_func less data a b swaps
  let r2 := order2_func less data r1.2.1 c r1.2.2
  let r3 := order2_func less data r1.1 r2.1 r2.2.2
  (r3.2.1, r3.2.2)

/-- Go `medianAdjacent_func(data, a, swaps)`. -/
def medianAdjacent_func (less : α → α → Bool) (data : List α) (a swaps : Nat) : Nat × Nat :=
  median_func less data (a - 1) a (a + 1) swaps

/-- The first part of Go `choosePivot_func(data, a, b)` (`shortestNinther = 50`): the index
`j` chosen and the value of the counter `swaps` at the `switch`. -/
def choosePivotMedian (less : α → α → Bool) (data : List α) (a b : Nat) : Nat × Nat :=
  let l := b - a
  let i := a + l / 4 * 1
  let j := a + l / 4 * 2
  let k := a + l / 4 * 3
  if 8 ≤ l then
    if 50 ≤ l then
      let ri := medianAdjacent_func less data i 0
      let rj := medianAdjacent_func less data j ri.2
      let rk := medianAdjacent_func less data k rj.2
      median_func less data ri.1 rj.1 rk.1 rk.2
    else median_func less data i j k 0
  else (j, 0)

/-- Go `choosePivot_func(data, a, b)` (`maxSwaps = 4 * 3`): the pivot and the hint that the
`switch` on `swaps` gives. -/
def choosePivot_func (less : α → α → Bool) (data : List α) (a b : Nat) : Nat × sortedHint :=
  let r := choosePivotMedian less data a b
  if r.2 = 0 then (r.1, sortedHint.increasingHint)
  else if r.2 = 12 then (r.1, sortedHint.decreasingHint)
  else (r.1, sortedHint.unknownHint)

/-- Go `reverseRange_func(data, a, b)`, as its loop from `i`, `j` with at most `n`
iterations left. -/
def reverseRangeLoop : Nat → Nat → Nat → List α → List α
  | 0, _, _, data => data
  | n + 1, i, j, data => if i < j then reverseRangeLoop n (i + 1) (j - 1) (Swap data i j) else data

/-- Go `reverseRange_func(data, a, b)`. -/
def reverseRange_func (data : List α) (a b : Nat) : List α :=
  reverseRangeLoop (b - a) a (b - 1) data

/-- Go `pdqsort_func(data, a, b, limit)` (`maxInsertion = 12`). One unit of `fuel` is
spent on every turn of the `for` loop and on every recursive call; `wasBalanced` and
`wasPartitioned` are the loop's two variables. `none` when the fuel runs out. -/
def pdqsort_func (next : Nat → Nat) (less : α → α → Bool) :
    Nat → List α → Nat → Nat → Nat → Bool → Bool → Option (List α)
  | 0, _, _, _, _, _, _ => none
  | fuel + 1, data, a, b, limit, wasBalanced, wasPartitioned =>
    let length := b - a
    if length ≤ 12 then some (insertionSort_func less data a b)
    else if limit = 0 then some (heapSort_func less data a b)
    else
      let data := if !wasBalanced then breakPatterns_func next data a b else data
      let limit := if !wasBalanced then limit - 1 else limit
      let ph := choosePivot_func less data a b
      let data :=
        if ph.2 = sortedHint.decreasingHint then reverseRange_func data a b else data
      let pivot := if ph.2 = sortedHint.decreasingHint then (b - 1) - (ph.1 - a) else ph.1
      let hint :=
        if ph.2 = sortedHint.decreasingHint then sortedHint.increasingHint else ph.2
      let tried : List α × Bool :=
        if wasBalanced && wasPartitioned && hint = sortedHint.increasingHint then
          partialInsertionSort_func less data a b
        else (data, false)
      if tried.2 then some tried.1
      else
        let data := tried.1
        if 0 < a && !Less less data (a - 1) pivot then
          let r := partitionEqual_func less data a b pivot
          pdqsort_func next less fuel r.1 r.2 b limit wasBalanced wasPartitioned
        else
          let r := partition_func less data a b pivot
          let mid := r.2.1
          let leftLen := mid - a
          let rightLen := b - mid
          let balanceThreshold := length / 8
          if leftLen < rightLen then
            match pdqsort_func next less fuel r.1 a mid limit true true with
            | none => none
            | some data =>
              pdqsort_func next less fuel data (mid + 1) b limit
                (decide (balanceThreshold ≤ leftLen)) r.2.2
          else
            match pdqsort_func next less fuel r.1 (mid + 1) b limit true true with
            | none => none
            | some data =>
              pdqsort_func next less fuel data a mid limit
                (decide (balanceThreshold ≤ rightLen)) r.2.2

/-- Go `sort.Slice(x, less)`: `pdqsort_func(lessSwap{less, swap}, 0, length, bits.Len(length))`.
Every turn of the loop and every recursive call works on a shorter range, so `length + 1`
units of fuel are never used up. -/
def Slice (next : Nat → Nat) (less : α → α → Bool) (x : List α) : Option (List α) :=
  pdqsort_func next less (x.length + 1) x 0 x.length (bitsLen x.length) true true

/-- The method `Next` of the `xorshift` generator, a `uint64`, with the shifts 13, 7 and 17
of the 64-bit generator: the new state, which is also the value returned. -/
def xorshiftNext (r : Nat) : Nat :=
  let r := r ^^^ ((r <<< 13) % 18446744073709551616)
  let r := r ^^^ (r >>> 7)
  r ^^^ ((r <<< 17) % 18446744073709551616)

/-! ### Notions for the correctness of the sort -/

/-- A comparison by an integer key, the shape of the `less` of `CompleteMultipartUpload`. -/
def keyLess (k : α → Int) (x y : α) : Bool :=
  decide (k x < k y)

/-- The key of the element at index `i`, and `0` past the end. -/
def keyAt (k : α → Int) (data : List α) (i : Nat) : Int :=
  match data[i]? with
  | some x => k x
  | none => 0

/-- The slice `data` can be turned into `data'` by exchanges of elements at indices of
the range `[a, b)`. -/
inductive Reach (a b : Nat) : List α → List α → Prop where
  | refl (d : List α) : Reach a b d d
  | step {d d' : List α} (i j : Nat) : a ≤ i → i < b → a ≤ j → j < b → Reach a b d d' →
      Reach a b d (Swap d' i j)

/-- The range `[a, b)` of the slice is in non-decreasing key order. -/
def SortedOn (k : α → Int) (a b : Nat) (data : List α) : Prop :=
  ∀ i j, a ≤ i → i < j → j < b → keyAt k data i ≤ keyAt k data j

/-- The node `i` of the heap laid out from index `first` dominates its children below `hi`. -/
def HeapAt (k : α → Int) (first hi : Nat) (d : List α) (i : Nat) : Prop :=
  ∀ c, (c = 2 * i + 1 ∨ c = 2 * i + 2) → c < hi → keyAt k d (first + c) ≤ keyAt k d (first + i)

/-- The element just before the range `[a, b)`, when there is one, is not above any element
of the range. -/
def LowerBound (k : α → Int) (a b : Nat) (d : List α) : Prop :=
  0 < a → ∀ m, a ≤ m → m < b → keyAt k d (a - 1) ≤ keyAt k d m

/-- The range `[a, b)` is partitioned at `mid` around the key `P`. -/
def PartitionedAt (k : α → Int) (a b mid : Nat) (P : Int) (d : List α) : Prop :=
  keyAt k d mid = P ∧ (∀ m, a ≤ m → m < mid → keyAt k d m < P) ∧
    (∀ m, mid < m → m < b → P ≤ keyAt k d m)

end sort

/-! ## Runtime and world -/

/-- The Go runtime and standard-library facilities the code relies on, as parameters. -/
structure Runtime where
  /-- Reading number `k` (from 0) of `time.Now()` while one request is served. -/
  now : Nat → Time
  /-- The location `time.Local`: offset east of UTC, in seconds, at a Unix time. -/
  zoneOffset : Int → Int
  /-- The method `Time.Format(layout)`. -/
  Format : Time → String → String
  /-- The step (`Next`) of the `xorshift` generator that `sort.Slice` draws from when it
  breaks patterns; no result below depends on it. -/
  xorshift : Nat → Nat

/-- What a request has done so far: how many times the clock was read and which provider
calls were made, oldest first. -/
structure World where
  ticks : Nat
  calls : List oss.Call
  deriving DecidableEq, Repr

/-- A fresh request: nothing read, nothing called. -/
def World.init : World :=
  ⟨0, []⟩

/-- The call `time.Now()`. -/
def Now (rt : Runtime) (w : World) : Time × World :=
  (rt.now w.ticks, { w with ticks := w.ticks + 1 })

/-- Record a provider call. -/
def World.record (w : World) (c : oss.Call) : World :=
  { w with calls := w.calls ++ [c] }

/-! ## The storage client adapter (oss.go) -/

/-- The type `OSSConfig` (oss.go:13). -/
structure OSSConfig where
  Endpoint : String
  AccessKeyID : String
  AccessKeySecret : String
  BucketName : String
  CallbackURL : String

/-- The type `OSSClient` (oss.go:21); the field `client` is never used after construction. -/
structure OSSClient where
  bucket : oss.Bucket
  config : OSSConfig

/-- The type `InitiateMultipartUploadResult` (oss.go:46). -/
structure InitiateMultipartUploadResult where
  UploadID : String
  BucketName : String
  ObjectKey : String
  deriving DecidableEq, Repr

/-- The type `UploadPartInfo` (oss.go:76). -/
structure UploadPartInfo where
  UploadID : String
  BucketName : String
  ObjectKey : String
  PartNumber : Int
  UploadURL : String
  ExpirationTime : Int
  deriving DecidableEq, Repr

/-- The type `CompleteMultipartUploadResult` (oss.go:119). -/
structure CompleteMultipartUploadResult where
  Location : String
  Bucket : String
  Key : String
  ETag : String
  PrivateURL : String
  PublicURL : String
  Expiration : Int
  deriving DecidableEq, Repr

/-- The function `generateObjectKey` (oss.go:71):
`fmt.Sprintf("uploads/%s/%d_%s", time.Now().Format("2006_01_02"), time.Now().UnixNano(), originalName)`.
The clock is read twice, left to right. -/
def generateObjectKey (rt : Runtime) (originalName : String) (w : World) : String × World :=
  let r1 := Now rt w
  let r2 := Now rt r1.2
  ("uploads/" ++ rt.Format r1.1 "2006_01_02" ++ "/" ++ Itoa r2.1.UnixNano ++ "_" ++ originalName,
    r2.2)

/-- The method `OSSClient.InitiateMultipartUpload` (oss.go:53). -/
def OSSClient.InitiateMultipartUpload (o : OSSClient) (rt : Runtime) (objectKey : String)
    (w : World) : Except String InitiateMultipartUploadResult × World :=
  let k := generateObjectKey rt objectKey w
  let uniqueKey := k.1
  let w1 := k.2
  let w2 := w1.record (oss.Call.InitiateMultipartUpload uniqueKey)
  match o.bucket.InitiateMultipartUpload w1.calls uniqueKey with
  | .error err => (.error err, w2)
  | .ok imur =>
    (.ok { UploadID := imur.UploadID, BucketName := imur.Bucket, ObjectKey := imur.Key }, w2)

/-- The option list built by `OSSClient.GenerateUploadPartURL` (oss.go:89-101); `expiresAt` is
the instant `time.Now().Add(time.Duration(sec) * time.Second)`. -/
def uploadPartOptions (uploadID : String) (partNumber : Int) (expiresAt : Time) :
    List oss.Option := [
  oss.Option.AddParam "uploadId" uploadID,
  oss.Option.AddParam "partNumber" (Itoa partNumber),
  oss.Option.ACReqMethod "PUT",
  oss.Option.Expires expiresAt,
  oss.Option.ContentType "application/octet-stream",
  oss.Option.Origin "http://localhost:8080",
  oss.Option.AddParam "response-content-type" "application/json",
  oss.Option.AddParam "response-expires" "0",
  oss.Option.AddParam "response-cache-control" "no-cache",
  oss.Option.AddParam "response-access-control-allow-headers" "*",
  oss.Option.AddParam "response-access-control-expose-headers" "ETag,x-oss-request-id"]

/-- The method `OSSClient.GenerateUploadPartURL` (oss.go:86). -/
def OSSClient.GenerateUploadPartURL (o : OSSClient) (rt : Runtime) (uploadID objectKey : String)
    (partNumber : Int) (expires : Duration) (w : World) :
    Except String UploadPartInfo × World :=
  let sec := toInt64 expires.wholeSeconds
  let r1 := Now rt w
  let options := uploadPartOptions uploadID partNumber (r1.1.Add (toInt64 (sec * Second)))
  let w1 := r1.2
  let w2 := w1.record (oss.Call.SignURL objectKey oss.HTTPMethod.HTTPPut sec options)
  match o.bucket.SignURL w1.calls objectKey oss.HTTPMethod.HTTPPut sec options with
  | .error err => (.error err, w2)
  | .ok signedURL =>
    let r2 := Now rt w2
    (.ok { UploadID := uploadID, BucketName := o.config.BucketName, ObjectKey := objectKey,
           PartNumber := partNumber, UploadURL := signedURL,
           ExpirationTime := (r2.1.Add (toInt64 (sec * Second))).Unix }, r2.2)

/-- The method `OSSClient.GeneratePublicURL` (oss.go:176). The expiry handed to `SignURL` is
`int64(expires.Second())`, the second-of-the-minute of the instant `time.Now().Add(exp)`. -/
def OSSClient.GeneratePublicURL (o : OSSClient) (rt : Runtime) (objectKey : String)
    (exp : Duration) (w : World) : Except String String × World :=
  let options : List oss.Option := [
    oss.Option.ResponseContentDisposition ("attachment; filename=\"" ++ objectKey ++ "\"")]
  let r1 := Now rt w
  let expires := r1.1.Add exp
  let w1 := r1.2
  let sec := Time.Second rt.zoneOffset expires
  let w2 := w1.record (oss.Call.SignURL objectKey oss.HTTPMethod.HTTPGet sec options)
  match o.bucket.SignURL w1.calls objectKey oss.HTTPMethod.HTTPGet sec options with
  | .error err => (.error err, w2)
  | .ok signedURL => (.ok signedURL, w2)

/-- The method `OSSClient.CompleteMultipartUpload` (oss.go:130). The call
`sort.Slice(parts, less)` is the standard library's sort, which always returns
(`sort.Slice_sorts`); `getD` only unwraps its result. -/
def OSSClient.CompleteMultipartUpload (o : OSSClient) (rt : Runtime) (uploadID objectKey : String)
    (parts : List oss.UploadPart) (w : World) :
    Except String CompleteMultipartUploadResult × World :=
  let sorted := (sort.Slice rt.xorshift less parts).getD parts
  let imur : oss.InitiateMultipartUploadResult :=
    { Bucket := o.config.BucketName, Key := objectKey, UploadID := uploadID }
  let uploadParts := sorted.map convertPart
  let w1 := w.record (oss.Call.CompleteMultipartUpload imur uploadParts)
  match o.bucket.CompleteMultipartUpload w.calls imur uploadParts with
  | .error err => (.error ("complete multipart upload failed: " ++ err), w1)
  | .ok cmur =>
    let url := "https://" ++ o.config.BucketName ++ "." ++ o.config.Endpoint ++ "/" ++ objectKey
    match o.GeneratePublicURL rt objectKey (Second * 10) w1 with
    | (.error err, w2) => (.error ("generate public URL failed: " ++ err), w2)
    | (.ok publicURL, w2) =>
      (.ok { Location := cmur.Location, Bucket := cmur.Bucket, Key := cmur.Key,
             ETag := cmur.ETag, PrivateURL := url, PublicURL := publicURL,
             Expiration := 0 }, w2)

/-! ## The HTTP handlers (api.go) -/

/-- The type `CompleteUploadRequest` (api.go:112). -/
structure CompleteUploadRequest where
  UploadID : String
  ObjectKey : String
  Parts : List UploadPart
  deriving DecidableEq, Repr

/-- What a handler reads from its `*gin.Context`: the decoded query pairs in order, and the
outcome of `c.ShouldBindJSON(&req)` on the body (the decoded request or an error text). -/
structure Context where
  query : List (String × String)
  bindJSON : Except String CompleteUploadRequest

/-- The method `c.Query(key)` of gin: the first value of the key, or the empty string when
the key is absent. -/
def Context.Query (c : Context) (key : String) : String :=
  (c.query.lookup key).getD ""

/-- The JSON value a handler writes with `c.JSON`: the map `gin.H{"error": message}` or one
of the result records. -/
inductive Body where
  | error (message : String)
  | initiated (result : InitiateMultipartUploadResult)
  | partInfo (result : UploadPartInfo)
  | completed (result : CompleteMultipartUploadResult)
  deriving DecidableEq, Repr

/-- The response written by `c.JSON(status, body)`. -/
structure Response where
  status : Nat
  body : Body
  deriving DecidableEq, Repr

/-- Go `http.StatusOK`. -/
def StatusOK : Nat := 200

/-- Go `http.StatusBadRequest`. -/
def StatusBadRequest : Nat := 400

/-- Go `http.StatusInternalServerError`. -/
def StatusInternalServerError : Nat := 500

/-- The type `UploadHandler` (api.go:12). -/
structure UploadHandler where
  ossClient : OSSClient

/-- The handler `UploadHandler.InitUpload` (api.go:30). -/
def UploadHandler.InitUpload (h : UploadHandler) (rt : Runtime) (c : Context) (w : World) :
    Response × World :=
  let filename := c.Query "filename"
  if filename = "" then
    (⟨StatusBadRequest, Body.error "filename is required"⟩, w)
  else
    match h.ossClient.InitiateMultipartUpload rt filename w with
    | (.error err, w1) => (⟨StatusInternalServerError, Body.error err⟩, w1)
    | (.ok result, w1) => (⟨StatusOK, Body.initiated result⟩, w1)

/-- The handler `UploadHandler.GenerateUploadPartURL` (api.go:58). -/
def UploadHandler.GenerateUploadPartURL (h : UploadHandler) (rt : Runtime) (c : Context)
    (w : World) : Response × World :=
  let uploadID := c.Query "uploadId"
  let objectKey := c.Query "objectKey"
  match Atoi (c.Query "partNumber") with
  | none => (⟨StatusBadRequest, Body.error "invalid partNumber"⟩, w)
  | some partNumber =>
    match h.ossClient.GenerateUploadPartURL rt uploadID objectKey partNumber Hour w with
    | (.error err, w1) => (⟨StatusInternalServerError, Body.error err⟩, w1)
    | (.ok result, w1) => (⟨StatusOK, Body.partInfo result⟩, w1)

/-- The handler `UploadHandler.CompleteUpload` (api.go:87). -/
def UploadHandler.CompleteUpload (h : UploadHandler) (rt : Runtime) (c : Context) (w : World) :
    Response × World :=
  match c.bindJSON with
  | .error err => (⟨StatusBadRequest, Body.error err⟩, w)
  | .ok req =>
    let parts : List oss.UploadPart :=
      req.Parts.map (fun p => { PartNumber := p.PartNumber, ETag := p.ETag })
    match h.ossClient.CompleteMultipartUpload rt req.UploadID req.ObjectKey parts w with
    | (.error err, w1) => (⟨StatusInternalServerError, Body.error err⟩, w1)
    | (.ok result, w1) => (⟨StatusOK, Body.completed result⟩, w1)

/-! ## Reading the call log -/

/-- The part list of a commit call (`Bucket.CompleteMultipartUpload`), `none` for the other
calls. -/
def commitParts : oss.Call → Option (List oss.UploadPart)
  | .CompleteMultipartUpload _ parts => some parts
  | _ => none

/-- The part lists handed to the provider's commit call in a call log, oldest first. -/
def committed (calls : List oss.Call) : List (List oss.UploadPart) :=
  calls.filterMap commitParts

/-- The expiry values handed to the signer (`Bucket.SignURL`) in a call log, oldest first. -/
def signedExpiries (calls : List oss.Call) : List Int :=
  calls.filterMap (fun c =>
    match c with
    | .SignURL _ _ expiredInSec _ => some expiredInSec
    | _ => none)

/-! ## The promise of `sort.Slice` and concrete instances -/

/-- What `sort.Slice(x, less)` promises about its result `out` (package documentation: it
sorts the slice given the less function, and the sort is not guaranteed to be stable): `out`
is a rearrangement of `x` in which no element is less than an earlier one. -/
def SortSlicePost (less : oss.UploadPart → oss.UploadPart → Bool)
    (x out : List oss.UploadPart) : Prop :=
  out.Perm x ∧ out.Pairwise (fun p q => less q p = false)

instance (less : oss.UploadPart → oss.UploadPart → Bool) (x out : List oss.UploadPart) :
    Decidable (SortSlicePost less x out) := by
  unfold SortSlicePost
  infer_instance

/-- The civil date (year, month, day) of a day number counted from 1970-01-01, in the
proleptic Gregorian calendar. -/
def civilFromDays (days : Int) : Int × Int × Int :=
  let z := days + 719468
  let era := z / 146097
  let doe := z - era * 146097
  let yoe := (doe - doe / 1460 + doe / 36524 - doe / 146096) / 365
  let doy := doe - (365 * yoe + yoe / 4 - yoe / 100)
  let mp := (5 * doy + 2) / 153
  let d := doy - (153 * mp + 2) / 5 + 1
  let m := if mp < 10 then mp + 3 else mp - 9
  (if m ≤ 2 then yoe + era * 400 + 1 else yoe + era * 400, m, d)

/-- A non-negative number in decimal, padded with zeros on the left to `width` digits. -/
def zeroPad (width : Nat) (n : Int) : String :=
  ⟨List.replicate (width - (Itoa n).length) '0' ++ (Itoa n).data⟩

/-- The method `Time.Format` in the location UTC, for the one layout the code uses,
`"2006_01_02"` (years 0 to 9999). -/
def formatUTC (t : Time) (layout : String) : String :=
  if layout = "2006_01_02" then
    let date := civilFromDays (t.Unix / 86400)
    zeroPad 4 date.1 ++ "_" ++ zeroPad 2 date.2.1 ++ "_" ++ zeroPad 2 date.2.2
  else layout

/-- A runtime in the location UTC whose clock shows `start` nanoseconds since the epoch at the
first reading and one microsecond more at each further reading, with a 64-bit `xorshift`
generator. -/
def utcRuntime (start : Int) : Runtime where
  now := fun k => ⟨start + 1000 * k⟩
  zoneOffset := fun _ => 0
  Format := formatUTC
  xorshift := sort.xorshiftNext

/-- A provider that accepts every call. -/
def okBucket : oss.Bucket where
  InitiateMultipartUpload := fun _ objectKey =>
    .ok { Bucket := "demo", Key := objectKey, UploadID := "upload-1" }
  SignURL := fun _ objectKey _ _ _ => .ok ("https://demo.oss.example.com/" ++ objectKey)
  CompleteMultipartUpload := fun _ imur _ =>
    .ok { Location := "https://demo.oss.example.com/" ++ imur.Key, Bucket := imur.Bucket,
          ETag := "etag", Key := imur.Key }

/-- A provider that fails every call with the error text `e`. -/
def failingBucket (e : String) : oss.Bucket where
  InitiateMultipartUpload := fun _ _ => .error e
  SignURL := fun _ _ _ _ _ => .error e
  CompleteMultipartUpload := fun _ _ _ => .error e

/-- A configuration for the examples. -/
def demoConfig : OSSConfig where
  Endpoint := "oss.example.com"
  AccessKeyID := "id"
  AccessKeySecret := "secret"
  BucketName := "demo"
  CallbackURL := ""

/-- A client over the provider that accepts every call. -/
def okClient : OSSClient :=
  ⟨okBucket, demoConfig⟩

/-- Thirteen parts with repeated part numbers: six parts numbered 1, one numbered 2, five
numbered 3 and one numbered 0, the ETags `a` to `m` in the order of arrival. -/
def repeatedParts : List oss.UploadPart :=
  [⟨1, "a"⟩, ⟨1, "b"⟩, ⟨1, "c"⟩, ⟨1, "d"⟩, ⟨1, "e"⟩, ⟨1, "f"⟩, ⟨2, "g"⟩,
   ⟨3, "h"⟩, ⟨3, "i"⟩, ⟨3, "j"⟩, ⟨3, "k"⟩, ⟨3, "l"⟩, ⟨0, "m"⟩]

/-- A handler over the provider that accepts every call. -/
def okHandler : UploadHandler :=
  ⟨⟨okBucket, demoConfig⟩⟩

/-- A handler over the provider that fails every call with `e`. -/
def failingHandler (e : String) : UploadHandler :=
  ⟨⟨failingBucket e, demoConfig⟩⟩

namespace sort

variable {α : Type}

theorem Less_keyLess (k : α → Int) (data : List α) (i j : Nat) (hi : i < data.length)
    (hj : j < data.length) :
    Less (keyLess k) data i j = decide (keyAt k data i < keyAt k data j) := by
  simp [Less, keyAt, keyLess, List.getElem?_eq_getElem hi, List.getElem?_eq_getElem hj]

theorem Swap_length (data : List α) (i j : Nat) : (Swap data i j).length = data.length := by
  unfold Swap
  split <;> simp

theorem Swap_getElem? (data : List α) (i j m : Nat) (hi : i < data.length)
    (hj : j < data.length) :
    (Swap data i j)[m]? = if m = j then data[i]? else if m = i then data[j]? else data[m]? := by
  simp only [Swap, List.getElem?_eq_getElem hi, List.getElem?_eq_getElem hj]
  rw [List.getElem?_set]
  by_cases hmj : m = j
  · subst hmj
    simp [hi, hj]
  · have hjm : ¬ j = m := fun h => hmj h.symm
    simp only [hjm, if_false, hmj]
    rw [List.getElem?_set]
    by_cases hmi : m = i
    · subst hmi
      simp [hi]
    · have him : ¬ i = m := fun h => hmi h.symm
      simp [him, hmi]

theorem keyAt_Swap_right (k : α → Int) (data : List α) (i j : Nat) (hi : i < data.length)
    (hj : j < data.length) : keyAt k (Swap data i j) j = keyAt k data i := by
  simp [keyAt, Swap_getElem? data i j j hi hj]

theorem keyAt_Swap_left (k : α → Int) (data : List α) (i j : Nat) (hi : i < data.length)
    (hj : j < data.length) : keyAt k (Swap data i j) i = keyAt k data j := by
  by_cases h : i = j
  · subst h
    simp [keyAt, Swap_getElem? data i i i hi hj]
  · simp [keyAt, Swap_getElem? data i j i hi hj, h]

theorem keyAt_Swap_ne (k : α → Int) (data : List α) (i j m : Nat) (hmi : m ≠ i) (hmj : m ≠ j) :
    keyAt k (Swap data i j) m = keyAt k data m := by
  by_cases hi : i < data.length
  · by_cases hj : j < data.length
    · simp [keyAt, Swap_getElem? data i j m hi hj, hmi, hmj]
    · have : data[j]? = none := List.getElem?_eq_none (by omega)
      simp [Swap, this]
  · have : data[i]? = none := List.getElem?_eq_none (by omega)
    simp [Swap, this]

theorem Swap_perm (data : List α) (i j : Nat) : (Swap data i j).Perm data := by
  by_cases hi : i < data.length
  · by_cases hj : j < data.length
    · classical
      rw [List.perm_iff_count]
      intro c
      simp only [Swap, List.getElem?_eq_getElem hi, List.getElem?_eq_getElem hj]
      have hj' : j < (data.set i data[j]).length := by simpa using hj
      rw [List.count_set _ _ _ _ hj', List.count_set _ _ _ _ hi]
      have hget : (data.set i data[j])[j] = data[j] := by
        rw [List.getElem_set]
        split <;> rfl
      rw [hget]
      have hle : (if data[i] == c then 1 else 0) ≤ data.count c := by
        split
        · rename_i h
          have hc : data[i] = c := by simpa using h
          rw [← hc]
          exact List.count_pos_iff.2 (List.getElem_mem hi)
        · exact Nat.zero_le _
      omega
    · have : data[j]? = none := List.getElem?_eq_none (by omega)
      simp [Swap, this]
  · have : data[i]? = none := List.getElem?_eq_none (by omega)
    simp [Swap, this]

end sort

namespace sort

variable {α : Type}

theorem Swap_of_not_lt (data : List α) (i j : Nat)
    (h : ¬ (i < data.length ∧ j < data.length)) : Swap data i j = data := by
  by_cases hi : i < data.length
  · have hj : ¬ j < data.length := fun hj => h ⟨hi, hj⟩
    have : data[j]? = none := List.getElem?_eq_none (by omega)
    simp [Swap, this]
  · have : data[i]? = none := List.getElem?_eq_none (by omega)
    simp [Swap, this]

theorem Reach.length_eq {a b : Nat} {d d' : List α} (h : Reach a b d d') :
    d'.length = d.length := by
  induction h with
  | refl => rfl
  | step i j _ _ _ _ _ ih => rw [Swap_length, ih]

theorem Reach.perm {a b : Nat} {d d' : List α} (h : Reach a b d d') : d'.Perm d := by
  induction h with
  | refl => exact List.Perm.refl _
  | step i j _ _ _ _ _ ih => exact (Swap_perm _ i j).trans ih

theorem Reach.keyAt_outside (k : α → Int) {a b : Nat} {d d' : List α} (h : Reach a b d d')
    (m : Nat) (hm : m < a ∨ b ≤ m) : keyAt k d' m = keyAt k d m := by
  induction h with
  | refl => rfl
  | step i j hai hib haj hjb _ ih =>
    rw [keyAt_Swap_ne k _ i j m (by omega) (by omega), ih]

theorem Reach.forall_range (k : α → Int) {a b : Nat} {d d' : List α} (h : Reach a b d d')
    (Q : Int → Prop) (hQ : ∀ m, a ≤ m → m < b → Q (keyAt k d m)) :
    ∀ m, a ≤ m → m < b → Q (keyAt k d' m) := by
  induction h with
  | refl => exact hQ
  | @step d1 i j hai hib haj hjb _ ih =>
    intro m ham hmb
    by_cases hb : i < d1.length ∧ j < d1.length
    · by_cases hmj : m = j
      · subst hmj
        rw [keyAt_Swap_right k _ i m hb.1 hb.2]
        exact ih i hai hib
      · by_cases hmi : m = i
        · subst hmi
          rw [keyAt_Swap_left k _ m j hb.1 hb.2]
          exact ih j haj hjb
        · rw [keyAt_Swap_ne k _ i j m hmi hmj]
          exact ih m ham hmb
    · rw [Swap_of_not_lt _ i j hb]
      exact ih m ham hmb

theorem Reach.trans {a b : Nat} {d d' d'' : List α} (h1 : Reach a b d d')
    (h2 : Reach a b d' d'') : Reach a b d d'' := by
  induction h2 with
  | refl => exact h1
  | step i j hai hib haj hjb _ ih => exact Reach.step i j hai hib haj hjb ih

theorem Reach.mono {a b a' b' : Nat} {d d' : List α} (h : Reach a b d d') (ha : a' ≤ a)
    (hb : b ≤ b') : Reach a' b' d d' := by
  induction h with
  | refl => exact Reach.refl _
  | step i j hai hib haj hjb _ ih =>
    exact Reach.step i j (by omega) (by omega) (by omega) (by omega) ih

theorem Reach.swap {a b : Nat} (d : List α) (i j : Nat) (hai : a ≤ i) (hib : i < b)
    (haj : a ≤ j) (hjb : j < b) : Reach a b d (Swap d i j) :=
  Reach.step i j hai hib haj hjb (Reach.refl d)

/-- Sortedness of a range in which every element is at most its right neighbour. -/
theorem SortedOn_of_adjacent (k : α → Int) (a b : Nat) (d : List α)
    (h : ∀ m, a ≤ m → m + 1 < b → keyAt k d m ≤ keyAt k d (m + 1)) : SortedOn k a b d := by
  intro i j hai hij hjb
  induction j with
  | zero => omega
  | succ n ih =>
    by_cases hin : i = n
    · subst hin
      exact h i hai hjb
    · have h1 := ih (by omega) (by omega)
      have h2 := h n (by omega) hjb
      omega

/-- A sorted range stays sorted when the slice changes outside it only. -/
theorem SortedOn.congr (k : α → Int) {a b : Nat} {d d' : List α} (h : SortedOn k a b d)
    (heq : ∀ m, a ≤ m → m < b → keyAt k d' m = keyAt k d m) : SortedOn k a b d' := by
  intro i j hai hij hjb
  rw [heq i hai (by omega), heq j (by omega) hjb]
  exact h i j hai hij hjb

end sort

namespace sort

variable {α : Type}

/-- The keys after an exchange, in a form fit for linear arithmetic. -/
theorem keyAt_Swap (k : α → Int) (data : List α) (i j m : Nat) (hi : i < data.length)
    (hj : j < data.length) :
    (m = j → keyAt k (Swap data i j) m = keyAt k data i) ∧
    (m = i → keyAt k (Swap data i j) m = keyAt k data j) ∧
    (m ≠ i → m ≠ j → keyAt k (Swap data i j) m = keyAt k data m) := by
  refine ⟨?_, ?_, ?_⟩
  · intro h
    subst h
    exact keyAt_Swap_right k data i m hi hj
  · intro h
    subst h
    exact keyAt_Swap_left k data m j hi hj
  · intro h1 h2
    exact keyAt_Swap_ne k data i j m h1 h2

/-- The comparison `data.Less(i, j)` in terms of keys. -/
theorem Less_iff (k : α → Int) (data : List α) (i j : Nat) (hi : i < data.length)
    (hj : j < data.length) :
    (Less (keyLess k) data i j = true ↔ keyAt k data i < keyAt k data j) := by
  rw [Less_keyLess k data i j hi hj]
  simp

/-- The inner loop of insertion sort puts the element at `j` in its place among the sorted
`[a, j)`, given that the rest of `[a, t]` is sorted around it. -/
theorem insertionShift_spec (k : α → Int) (a t : Nat) : ∀ (j : Nat) (d : List α),
    a ≤ j → j ≤ t → t < d.length → SortedOn k a j d → SortedOn k j (t + 1) d →
    (∀ i m, a ≤ i → i < j → j < m → m ≤ t → keyAt k d i ≤ keyAt k d m) →
    Reach a (t + 1) d (insertionShift (keyLess k) a j d) ∧
      SortedOn k a (t + 1) (insertionShift (keyLess k) a j d) := by
  intro j
  induction j with
  | zero =>
    intro d ha _ _ _ hs2 _
    have : a = 0 := by omega
    subst this
    exact ⟨Reach.refl d, hs2⟩
  | succ j ih =>
    intro d ha ht hlen hs1 hs2 hcross
    have hL := Less_iff k d (j + 1) j (by omega) (by omega)
    by_cases hc : (decide (a < j + 1) && Less (keyLess k) d (j + 1) j) = true
    · have hc' := hc
      simp only [Bool.and_eq_true, decide_eq_true_eq] at hc'
      have hlt : keyAt k d (j + 1) < keyAt k d j := hL.1 hc'.2
      have hstep : insertionShift (keyLess k) a (j + 1) d
          = insertionShift (keyLess k) a j (Swap d (j + 1) j) := by
        rw [insertionShift]
        simp only [hc, if_true]
      rw [hstep]
      have hK := fun m => keyAt_Swap k d (j + 1) j m (by omega) (by omega)
      have hlen' : t < (Swap d (j + 1) j).length := by rw [Swap_length]; exact hlen
      have r := ih (Swap d (j + 1) j) (by omega) (by omega) hlen' ?_ ?_ ?_
      · exact ⟨(Reach.swap d (j + 1) j (by omega) (by omega) (by omega) (by omega)).trans r.1,
          r.2⟩
      · intro i m hai him hmj
        have c1 := hK i
        have c2 := hK m
        have h1 := hs1 i m hai him (by omega)
        omega
      · intro i m hji him hmt
        have c1 := hK i
        have c2 := hK m
        have h1 := hs2 i m
        have h2 := hs2 (j + 1) m
        have h3 := hcross j m
        omega
      · intro i m hai hij hjm hmt
        have c1 := hK i
        have c2 := hK m
        have h1 := hcross i m
        have h2 := hs1 i j
        omega
    · have hstep : insertionShift (keyLess k) a (j + 1) d = d := by
        rw [insertionShift]
        simp only [hc, if_false]
        simp
      rw [hstep]
      refine ⟨Reach.refl d, ?_⟩
      have hnot : a < j + 1 → keyAt k d j ≤ keyAt k d (j + 1) := by
        intro haj
        have : ¬ Less (keyLess k) d (j + 1) j = true := by
          intro hl
          apply hc
          simp [haj, hl]
        by_contra hcon
        exact this (hL.2 (by omega))
      intro i m hai him hmt
      by_cases hm : m = j + 1
      · subst hm
        by_cases hi : i = j
        · subst hi
          exact hnot (by omega)
        · have h4 := hs1 i j
          have h6 := hnot
          omega
      · have h1 := hs1 i m
        have h2 := hs2 i m
        have h3 := hcross i m
        omega

end sort

namespace sort

variable {α : Type}

/-- The outer loop of insertion sort extends the sorted part from `[a, i)` to `[a, b)`. -/
theorem insertionLoop_spec (k : α → Int) (a b : Nat) : ∀ (n i : Nat) (d : List α),
    a < i → i ≤ b → b ≤ d.length → b - i ≤ n → SortedOn k a i d →
    Reach a b d (insertionLoop (keyLess k) a b n i d) ∧
      SortedOn k a b (insertionLoop (keyLess k) a b n i d) := by
  intro n
  induction n with
  | zero =>
    intro i d _ hib _ hn hs
    have : i = b := by omega
    subst this
    exact ⟨Reach.refl d, hs⟩
  | succ n ih =>
    intro i d hai hib hlen hn hs
    by_cases hlt : i < b
    · have hstep : insertionLoop (keyLess k) a b (n + 1) i d
          = insertionLoop (keyLess k) a b n (i + 1) (insertionShift (keyLess k) a i d) := by
        rw [insertionLoop]
        simp only [hlt, if_true]
      rw [hstep]
      have hshift := insertionShift_spec k a i i d (by omega) (by omega) (by omega) hs
        (by intro x y _ _ _; omega) (by intro x y _ _ _ _; omega)
      have hlen1 : b ≤ (insertionShift (keyLess k) a i d).length := by
        rw [hshift.1.length_eq]
        exact hlen
      have r := ih (i + 1) (insertionShift (keyLess k) a i d) (by omega) (by omega) hlen1
        (by omega) hshift.2
      exact ⟨(hshift.1.mono (Nat.le_refl a) (by omega)).trans r.1, r.2⟩
    · have hstep : insertionLoop (keyLess k) a b (n + 1) i d = d := by
        rw [insertionLoop]
        simp only [hlt, if_false]
      rw [hstep]
      have : i = b := by omega
      subst this
      exact ⟨Reach.refl d, hs⟩

/-- Go's `insertionSort_func` sorts the range `[a, b)` by exchanges inside the range. -/
theorem insertionSort_func_spec (k : α → Int) (a b : Nat) (d : List α) (hlen : b ≤ d.length) :
    Reach a b d (insertionSort_func (keyLess k) d a b) ∧
      SortedOn k a b (insertionSort_func (keyLess k) d a b) := by
  unfold insertionSort_func
  by_cases hab : a < b
  · exact insertionLoop_spec k a b (b - a) (a + 1) d (by omega) (by omega) hlen (by omega)
      (by intro x y _ _ _; omega)
  · have h0 : b - a = 0 := by omega
    rw [h0]
    exact ⟨Reach.refl d, by intro x y _ _ _; omega⟩

end sort

namespace sort

variable {α : Type}

/-- The value of `data.Less(i, j)` when the key at `i` is not below the key at `j`. -/
theorem Less_eq_false (k : α → Int) (data : List α) (i j : Nat) (hi : i < data.length)
    (hj : j < data.length) (h : ¬ keyAt k data i < keyAt k data j) :
    Less (keyLess k) data i j = false := by
  cases hx : Less (keyLess k) data i j
  · rfl
  · exact absurd ((Less_iff k data i j hi hj).1 hx) h

/-- The value of `data.Less(i, j)` when the key at `i` is below the key at `j`. -/
theorem Less_eq_true (k : α → Int) (data : List α) (i j : Nat) (hi : i < data.length)
    (hj : j < data.length) (h : keyAt k data i < keyAt k data j) :
    Less (keyLess k) data i j = true :=
  (Less_iff k data i j hi hj).2 h

/-- One turn of the loop of `siftDown_func` when the root has a child, with the larger child
named `c`. -/
theorem siftDown_func_step (k : α → Int) (hi first n root : Nat) (d : List α)
    (hlen : first + hi ≤ d.length) (hchild : 2 * root + 1 < hi) :
    ∃ c, (c = 2 * root + 1 ∨ c = 2 * root + 2) ∧ c < hi ∧
      (∀ c2, (c2 = 2 * root + 1 ∨ c2 = 2 * root + 2) → c2 < hi →
        keyAt k d (first + c2) ≤ keyAt k d (first + c)) ∧
      (keyAt k d (first + root) < keyAt k d (first + c) →
        siftDown_func (keyLess k) hi first (n + 1) root d
          = siftDown_func (keyLess k) hi first n c (Swap d (first + root) (first + c))) ∧
      (¬ keyAt k d (first + root) < keyAt k d (first + c) →
        siftDown_func (keyLess k) hi first (n + 1) root d = d) := by
  have hnot : ¬ hi ≤ 2 * root + 1 := by omega
  by_cases hsib : 2 * root + 1 + 1 < hi
  · by_cases hless : keyAt k d (first + (2 * root + 1)) < keyAt k d (first + (2 * root + 1) + 1)
    · have hb := Less_eq_true k d (first + (2 * root + 1)) (first + (2 * root + 1) + 1)
        (by omega) (by omega) hless
      have e : first + (2 * root + 1) + 1 = first + (2 * root + 1 + 1) := by omega
      refine ⟨2 * root + 1 + 1, Or.inr (by omega), hsib, ?_, ?_, ?_⟩
      · intro c2 hc2 _
        rw [e] at hless
        rcases hc2 with h | h
        · subst h
          omega
        · have e2 : c2 = 2 * root + 1 + 1 := by omega
          subst e2
          exact le_refl _
      · intro hlt
        have hb2 := Less_eq_true k d (first + root) (first + (2 * root + 1 + 1))
          (by omega) (by omega) hlt
        rw [siftDown_func]
        simp [hnot, hsib, hb, hb2]
      · intro hlt
        have hb2 := Less_eq_false k d (first + root) (first + (2 * root + 1 + 1))
          (by omega) (by omega) hlt
        rw [siftDown_func]
        simp [hnot, hsib, hb, hb2]
    · have hb := Less_eq_false k d (first + (2 * root + 1)) (first + (2 * root + 1) + 1)
        (by omega) (by omega) hless
      have e : first + (2 * root + 1) + 1 = first + (2 * root + 2) := by omega
      refine ⟨2 * root + 1, Or.inl rfl, hchild, ?_, ?_, ?_⟩
      · intro c2 hc2 _
        rw [e] at hless
        rcases hc2 with h | h
        · subst h
          exact le_refl _
        · subst h
          omega
      · intro hlt
        have hb2 := Less_eq_true k d (first + root) (first + (2 * root + 1))
          (by omega) (by omega) hlt
        rw [siftDown_func]
        simp [hnot, hsib, hb, hb2]
      · intro hlt
        have hb2 := Less_eq_false k d (first + root) (first + (2 * root + 1))
          (by omega) (by omega) hlt
        rw [siftDown_func]
        simp [hnot, hsib, hb, hb2]
  · refine ⟨2 * root + 1, Or.inl rfl, hchild, ?_, ?_, ?_⟩
    · intro c2 hc2 hc2hi
      have e : c2 = 2 * root + 1 := by omega
      subst e
      exact le_refl _
    · intro hlt
      have hb2 := Less_eq_true k d (first + root) (first + (2 * root + 1))
        (by omega) (by omega) hlt
      rw [siftDown_func]
      simp [hnot, hsib, hb2]
    · intro hlt
      have hb2 := Less_eq_false k d (first + root) (first + (2 * root + 1))
        (by omega) (by omega) hlt
      rw [siftDown_func]
      simp [hnot, hsib, hb2]

end sort

namespace sort

variable {α : Type}

/-- Go's `siftDown_func`: when every node from `lo` on except `root` dominates its children,
and the parent of `root` dominates the children of `root`, sifting down from `root` makes
every node from `lo` on dominate its children. -/
theorem siftDown_func_spec (k : α → Int) (lo hi first : Nat) : ∀ (n root : Nat) (d : List α),
    lo ≤ root → first + hi ≤ d.length → hi ≤ root + n →
    (∀ i, lo ≤ i → i ≠ root → HeapAt k first hi d i) →
    (∀ p c, lo ≤ p → (root = 2 * p + 1 ∨ root = 2 * p + 2) →
      (c = 2 * root + 1 ∨ c = 2 * root + 2) → c < hi →
      keyAt k d (first + c) ≤ keyAt k d (first + p)) →
    Reach first (first + hi) d (siftDown_func (keyLess k) hi first n root d) ∧
      ∀ i, lo ≤ i → HeapAt k first hi (siftDown_func (keyLess k) hi first n root d) i := by
  intro n
  induction n with
  | zero =>
    intro root d _ _ hfuel hI1 _
    rw [siftDown_func]
    refine ⟨Reach.refl d, ?_⟩
    intro i hi1
    by_cases hir : i = root
    · subst hir
      intro c hc hchi
      omega
    · exact hI1 i hi1 hir
  | succ n ih =>
    intro root d hlo hlen hfuel hI1 hI2
    by_cases hchild : 2 * root + 1 < hi
    · obtain ⟨c, hc, hchi, hmax, hswap, hstop⟩ := siftDown_func_step k hi first n root d hlen hchild
      by_cases hlt : keyAt k d (first + root) < keyAt k d (first + c)
      · rw [hswap hlt]
        have hlen' : first + hi ≤ (Swap d (first + root) (first + c)).length := by
          rw [Swap_length]
          exact hlen
        have r := ih c (Swap d (first + root) (first + c)) (by omega) hlen' (by omega) ?_ ?_
        · exact ⟨(Reach.swap d (first + root) (first + c) (by omega) (by omega) (by omega)
            (by omega)).trans r.1, r.2⟩
        · intro i hi1 hi2 c2 hc2 hc2hi
          by_cases hir : i = root
          · subst hir
            rw [keyAt_Swap_left k d (first + i) (first + c) (by omega) (by omega)]
            by_cases hcc : c2 = c
            · subst hcc
              rw [keyAt_Swap_right k d (first + i) (first + c2) (by omega) (by omega)]
              omega
            · rw [keyAt_Swap_ne k d (first + i) (first + c) (first + c2) (by omega) (by omega)]
              exact hmax c2 hc2 hc2hi
          · rw [keyAt_Swap_ne k d (first + root) (first + c) (first + i) (by omega) (by omega)]
            by_cases hcr : c2 = root
            · subst hcr
              rw [keyAt_Swap_left k d (first + c2) (first + c) (by omega) (by omega)]
              exact hI2 i c hi1 (by omega) hc hchi
            · rw [keyAt_Swap_ne k d (first + root) (first + c) (first + c2) (by omega)
                (by omega)]
              exact hI1 i hi1 hir c2 hc2 hc2hi
        · intro p c' hp hpc hc' hc'hi
          have hpr : p = root := by omega
          subst hpr
          rw [keyAt_Swap_left k d (first + p) (first + c) (by omega) (by omega),
            keyAt_Swap_ne k d (first + p) (first + c) (first + c') (by omega) (by omega)]
          exact hI1 c (by omega) (by omega) c' hc' hc'hi
      · rw [hstop hlt]
        refine ⟨Reach.refl d, ?_⟩
        intro i hi1
        by_cases hir : i = root
        · subst hir
          intro c2 hc2 hc2hi
          have h1 := hmax c2 hc2 hc2hi
          omega
        · exact hI1 i hi1 hir
    · have hstep : siftDown_func (keyLess k) hi first (n + 1) root d = d := by
        rw [siftDown_func]
        simp [show hi ≤ 2 * root + 1 by omega]
      rw [hstep]
      refine ⟨Reach.refl d, ?_⟩
      intro i hi1
      by_cases hir : i = root
      · subst hir
        intro c hc hchi
        omega
      · exact hI1 i hi1 hir

/-- In a heap every node is dominated by the root. -/
theorem heap_root_max (k : α → Int) (first hi : Nat) (d : List α)
    (h : ∀ i, HeapAt k first hi d i) :
    ∀ m, m < hi → keyAt k d (first + m) ≤ keyAt k d (first + 0) := by
  intro m
  induction m using Nat.strong_induction_on with
  | _ m ih =>
    intro hm
    by_cases h0 : m = 0
    · subst h0
      exact le_refl _
    · have hp := ih ((m - 1) / 2) (by omega) (by omega)
      have hc := h ((m - 1) / 2) m (by omega) hm
      omega

end sort

namespace sort

variable {α : Type}

/-- The first loop of `heapSort_func` builds a heap: from a slice in which every node after
`i` dominates its children to one in which every node does. -/
theorem heapBuild_spec (k : α → Int) (hi first : Nat) : ∀ (i : Nat) (d : List α),
    first + hi ≤ d.length → (∀ m, i < m → HeapAt k first hi d m) →
    Reach first (first + hi) d (heapBuild (keyLess k) hi first i d) ∧
      ∀ m, HeapAt k first hi (heapBuild (keyLess k) hi first i d) m := by
  intro i
  induction i with
  | zero =>
    intro d hlen hheap
    rw [heapBuild]
    have r := siftDown_func_spec k 0 hi first hi 0 d (Nat.le_refl 0) hlen (by omega)
      (fun m _ hm => hheap m (by omega)) (by intro p c _ hp; omega)
    exact ⟨r.1, fun m => r.2 m (Nat.zero_le m)⟩
  | succ i ih =>
    intro d hlen hheap
    rw [heapBuild]
    have r := siftDown_func_spec k (i + 1) hi first hi (i + 1) d (Nat.le_refl _) hlen (by omega)
      (fun m hm1 hm2 => hheap m (by omega)) (by intro p c _ hp; omega)
    have hlen1 : first + hi ≤ (siftDown_func (keyLess k) hi first hi (i + 1) d).length := by
      rw [r.1.length_eq]
      exact hlen
    have r2 := ih (siftDown_func (keyLess k) hi first hi (i + 1) d) hlen1 (by
      intro m hm
      exact r.2 m (by omega))
    exact ⟨r.1.trans r2.1, r2.2⟩

/-- The second loop of `heapSort_func` from the index `i`: the heap over the first `i + 1`
elements is emptied, largest first, into the sorted tail. -/
theorem heapPop_spec (k : α → Int) (hi first : Nat) : ∀ (i : Nat) (d : List α),
    i < hi → first + hi ≤ d.length → (∀ m, HeapAt k first (i + 1) d m) →
    SortedOn k (first + i + 1) (first + hi) d →
    (∀ x y, x ≤ i → i < y → y < hi → keyAt k d (first + x) ≤ keyAt k d (first + y)) →
    Reach first (first + hi) d (heapPop (keyLess k) first i d) ∧
      SortedOn k first (first + hi) (heapPop (keyLess k) first i d) := by
  intro i
  induction i with
  | zero =>
    intro d hihi hlen _ hsorted hbound
    rw [heapPop, siftDown_func]
    refine ⟨Reach.swap d first first (by omega) (by omega) (by omega) (by omega), ?_⟩
    have hsame : ∀ m, keyAt k (Swap d first first) m = keyAt k d m := by
      intro m
      by_cases hm : m = first
      · subst hm
        exact keyAt_Swap_left k d m m (by omega) (by omega)
      · exact keyAt_Swap_ne k d first first m hm hm
    intro x y hx hxy hy
    rw [hsame x, hsame y]
    by_cases hx0 : x = first
    · subst hx0
      have e : y = x + (y - x) := by omega
      have h1 := hbound 0 (y - x) (Nat.le_refl 0) (by omega) (by omega)
      rw [← e] at h1
      exact h1
    · exact hsorted x y (by omega) hxy hy
  | succ i ih =>
    intro d hihi hlen hheap hsorted hbound
    rw [heapPop]
    have hmax := heap_root_max k first (i + 1 + 1) d hheap
    have hmax0 : ∀ m, m < i + 1 + 1 → keyAt k d (first + m) ≤ keyAt k d first := hmax
    have hlen1 : first + hi ≤ (Swap d first (first + (i + 1))).length := by
      rw [Swap_length]
      exact hlen
    have hsift := siftDown_func_spec k 0 (i + 1) first (i + 1) 0
      (Swap d first (first + (i + 1))) (Nat.le_refl 0) (by omega) (by omega) (by
        intro m _ hm0 c hc hci
        rw [keyAt_Swap_ne k d first (first + (i + 1)) (first + c) (by omega) (by omega),
          keyAt_Swap_ne k d first (first + (i + 1)) (first + m) (by omega) (by omega)]
        exact hheap m c hc (by omega)) (by intro p c _ hp; omega)
    have hlen2 : first + hi ≤ (siftDown_func (keyLess k) (i + 1) first (i + 1) 0
        (Swap d first (first + (i + 1)))).length := by
      rw [hsift.1.length_eq]
      exact hlen1
    have hout : ∀ y, i + 1 ≤ y → keyAt k (siftDown_func (keyLess k) (i + 1) first (i + 1) 0
        (Swap d first (first + (i + 1)))) (first + y)
          = keyAt k (Swap d first (first + (i + 1))) (first + y) := by
      intro y hy
      exact hsift.1.keyAt_outside k (first + y) (Or.inr (by omega))
    have htop : keyAt k (Swap d first (first + (i + 1))) (first + (i + 1)) = keyAt k d first :=
      keyAt_Swap_right k d first (first + (i + 1)) (by omega) (by omega)
    have hrest : ∀ y, i + 1 < y → keyAt k (Swap d first (first + (i + 1))) (first + y)
        = keyAt k d (first + y) := by
      intro y hy
      exact keyAt_Swap_ne k d first (first + (i + 1)) (first + y) (by omega) (by omega)
    have r := ih (siftDown_func (keyLess k) (i + 1) first (i + 1) 0
      (Swap d first (first + (i + 1)))) (by omega) hlen2 (fun m => hsift.2 m (Nat.zero_le m))
      ?_ ?_
    · exact ⟨((Reach.swap d first (first + (i + 1)) (by omega) (by omega) (by omega)
        (by omega)).trans (hsift.1.mono (Nat.le_refl _) (by omega))).trans r.1, r.2⟩
    · intro x y hx hxy hy
      have ex : x = first + (x - first) := by omega
      have ey : y = first + (y - first) := by omega
      rw [ex, ey, hout (x - first) (by omega), hout (y - first) (by omega)]
      by_cases hx1 : x - first = i + 1
      · rw [hx1, htop, hrest (y - first) (by omega)]
        have h1 := hbound 0 (y - first) (Nat.zero_le _) (by omega) (by omega)
        exact h1
      · rw [hrest (x - first) (by omega), hrest (y - first) (by omega), ← ex, ← ey]
        exact hsorted x y (by omega) hxy hy
    · intro x y hx hxy hy
      rw [hout y (by omega)]
      have hall : ∀ m, first ≤ m → m < first + (i + 1) →
          keyAt k (Swap d first (first + (i + 1))) m
            ≤ keyAt k (Swap d first (first + (i + 1))) (first + y) := by
        intro m hm1 hm2
        by_cases hm0 : m = first
        · subst hm0
          rw [keyAt_Swap_left k d m (m + (i + 1)) (by omega) (by omega)]
          by_cases hy1 : y = i + 1
          · subst hy1
            rw [htop]
            exact hmax0 (i + 1) (by omega)
          · rw [hrest y (by omega)]
            exact hbound (i + 1) y (Nat.le_refl _) (by omega) hy
        · rw [keyAt_Swap_ne k d first (first + (i + 1)) m hm0 (by omega)]
          have em : m = first + (m - first) := by omega
          by_cases hy1 : y = i + 1
          · subst hy1
            rw [htop, em]
            exact hmax0 (m - first) (by omega)
          · rw [hrest y (by omega), em]
            exact hbound (m - first) y (by omega) (by omega) hy
      exact hsift.1.forall_range k
        (fun v => v ≤ keyAt k (Swap d first (first + (i + 1))) (first + y)) hall (first + x)
        (by omega) (by omega)

/-- Go's `heapSort_func` sorts the range `[a, b)` by exchanges inside the range. -/
theorem heapSort_func_spec (k : α → Int) (a b : Nat) (d : List α) (hlen : b ≤ d.length) :
    Reach a b d (heapSort_func (keyLess k) d a b) ∧
      SortedOn k a b (heapSort_func (keyLess k) d a b) := by
  unfold heapSort_func
  by_cases h0 : b - a = 0
  · simp only [h0, if_true]
    exact ⟨Reach.refl d, by intro x y _ _ _; omega⟩
  · simp only [h0, if_false]
    have hab : a + (b - a) = b := by omega
    have hb := heapBuild_spec k (b - a) a ((b - a - 1) / 2) d (by omega) (by
      intro m hm c hc hchi
      omega)
    have hlen1 : a + (b - a) ≤ (heapBuild (keyLess k) (b - a) a ((b - a - 1) / 2) d).length := by
      rw [hb.1.length_eq]
      omega
    have hp := heapPop_spec k (b - a) a (b - a - 1)
      (heapBuild (keyLess k) (b - a) a ((b - a - 1) / 2) d) (by omega) hlen1 (by
        have e : b - a - 1 + 1 = b - a := by omega
        rw [e]
        exact hb.2) (by intro x y _ _ _; omega) (by intro x y _ _ _; omega)
    rw [hab] at hb hp
    exact ⟨hb.1.trans hp.1, hp.2⟩

end sort

namespace sort

variable {α : Type}

/-- The upward scan stops at the first index past `j` or failing `p`. -/
theorem scanUp_spec (p : Nat → Bool) (j : Nat) : ∀ (n i : Nat), i ≤ j + 1 → j + 1 - i ≤ n →
    i ≤ scanUp p j n i ∧ scanUp p j n i ≤ j + 1 ∧
      (∀ m, i ≤ m → m < scanUp p j n i → p m = true) ∧
      (scanUp p j n i ≤ j → p (scanUp p j n i) = false) := by
  intro n
  induction n with
  | zero =>
    intro i hij hn
    rw [scanUp]
    exact ⟨Nat.le_refl i, hij, by intro m h1 h2; omega, by intro h; omega⟩
  | succ n ih =>
    intro i hij hn
    by_cases hc : (decide (i ≤ j) && p i) = true
    · have hc' := hc
      simp only [Bool.and_eq_true, decide_eq_true_eq] at hc'
      have hstep : scanUp p j (n + 1) i = scanUp p j n (i + 1) := by
        rw [scanUp]
        simp only [hc, if_true]
      rw [hstep]
      obtain ⟨h1, h2, h3, h4⟩ := ih (i + 1) (by omega) (by omega)
      refine ⟨by omega, h2, ?_, h4⟩
      intro m hm1 hm2
      by_cases hmi : m = i
      · subst hmi
        exact hc'.2
      · exact h3 m (by omega) hm2
    · have hstep : scanUp p j (n + 1) i = i := by
        rw [scanUp]
        simp only [hc, if_false]
        simp
      rw [hstep]
      refine ⟨Nat.le_refl i, hij, by intro m h1 h2; omega, ?_⟩
      intro hle
      cases hp : p i
      · rfl
      · exact absurd (by simp [hle, hp]) hc

/-- The downward scan stops at the first index below `i` or failing `p`. -/
theorem scanDown_spec (p : Nat → Bool) (i : Nat) (hi : 1 ≤ i) : ∀ (j : Nat), i ≤ j + 1 →
    scanDown p i j ≤ j ∧ i ≤ scanDown p i j + 1 ∧
      (∀ m, scanDown p i j < m → m ≤ j → p m = true) ∧
      (i ≤ scanDown p i j → p (scanDown p i j) = false) := by
  intro j
  induction j with
  | zero =>
    intro hij
    rw [scanDown]
    exact ⟨Nat.le_refl 0, by omega, by intro m h1 h2; omega, by intro h; omega⟩
  | succ j ih =>
    intro hij
    by_cases hc : (decide (i ≤ j + 1) && p (j + 1)) = true
    · have hc' := hc
      simp only [Bool.and_eq_true, decide_eq_true_eq] at hc'
      have hstep : scanDown p i (j + 1) = scanDown p i j := by
        rw [scanDown]
        simp only [hc, if_true]
      rw [hstep]
      obtain ⟨h1, h2, h3, h4⟩ := ih (by omega)
      refine ⟨by omega, h2, ?_, h4⟩
      intro m hm1 hm2
      by_cases hmj : m = j + 1
      · subst hmj
        exact hc'.2
      · exact h3 m hm1 (by omega)
    · have hstep : scanDown p i (j + 1) = j + 1 := by
        rw [scanDown]
        simp only [hc, if_false]
        simp
      rw [hstep]
      refine ⟨Nat.le_refl _, by omega, by intro m h1 h2; omega, ?_⟩
      intro hle
      cases hp : p (j + 1)
      · rfl
      · exact absurd (by simp [hle, hp]) hc

end sort

namespace sort

variable {α : Type}

/-- The main loop of `partition_func`: from a state in which `[a+1, i)` is below the pivot
key `P` (kept at `a`) and `(j, b)` is not, to one in which `[a+1, j]` is below and `(j, b)`
is not. -/
theorem partitionLoop_spec (k : α → Int) (a b : Nat) (P : Int) : ∀ (n : Nat) (d : List α)
    (i j : Nat), b ≤ d.length → a + 1 ≤ i → i ≤ j + 1 → j < b → j + 1 - i ≤ n →
    keyAt k d a = P →
    (∀ m, a + 1 ≤ m → m < i → keyAt k d m < P) →
    (∀ m, j < m → m < b → P ≤ keyAt k d m) →
    Reach (a + 1) b d (partitionLoop (keyLess k) a n d i j).1 ∧
      a ≤ (partitionLoop (keyLess k) a n d i j).2 ∧
      (partitionLoop (keyLess k) a n d i j).2 < b ∧
      keyAt k (partitionLoop (keyLess k) a n d i j).1 a = P ∧
      (∀ m, a + 1 ≤ m → m ≤ (partitionLoop (keyLess k) a n d i j).2 →
        keyAt k (partitionLoop (keyLess k) a n d i j).1 m < P) ∧
      (∀ m, (partitionLoop (keyLess k) a n d i j).2 < m → m < b →
        P ≤ keyAt k (partitionLoop (keyLess k) a n d i j).1 m) := by
  intro n
  induction n with
  | zero =>
    intro d i j _ hai hij hjb hn hP hlow hhigh
    rw [partitionLoop]
    exact ⟨Reach.refl d, by omega, hjb, hP, fun m h1 h2 => hlow m h1 (by omega), hhigh⟩
  | succ n ih =>
    intro d i j hlen hai hij hjb hn hP hlow hhigh
    obtain ⟨u1, u2, u3, u4⟩ := scanUp_spec (fun i => Less (keyLess k) d i a) j (j + 1 - i) i
      hij (Nat.le_refl _)
    generalize hi' : scanUp (fun i => Less (keyLess k) d i a) j (j + 1 - i) i = i' at u1 u2 u3 u4
    obtain ⟨v1, v2, v3, v4⟩ := scanDown_spec (fun j => !Less (keyLess k) d j a) i' (by omega) j u2
    generalize hj' : scanDown (fun j => !Less (keyLess k) d j a) i' j = j' at v1 v2 v3 v4
    have hlow' : ∀ m, a + 1 ≤ m → m < i' → keyAt k d m < P := by
      intro m h1 h2
      by_cases hmi : m < i
      · exact hlow m h1 hmi
      · have := u3 m (by omega) h2
        have := (Less_iff k d m a (by omega) (by omega)).1 this
        omega
    have hhigh' : ∀ m, j' < m → m < b → P ≤ keyAt k d m := by
      intro m h1 h2
      by_cases hmj : j < m
      · exact hhigh m hmj h2
      · have h3 := v3 m h1 (by omega)
        simp only [Bool.not_eq_true'] at h3
        have h4 : ¬ keyAt k d m < keyAt k d a := by
          intro hlt
          rw [Less_eq_true k d m a (by omega) (by omega) hlt] at h3
          exact Bool.noConfusion h3
        omega
    by_cases hc : j' < i'
    · have hstep : partitionLoop (keyLess k) a (n + 1) d i j = (d, j') := by
        rw [partitionLoop]
        simp only [hi', hj', hc, if_true]
      rw [hstep]
      exact ⟨Reach.refl d, by omega, by omega, hP, fun m h1 h2 => hlow' m h1 (by omega), hhigh'⟩
    · have hstep : partitionLoop (keyLess k) a (n + 1) d i j
          = partitionLoop (keyLess k) a n (Swap d i' j') (i' + 1) (j' - 1) := by
        rw [partitionLoop]
        simp only [hi', hj', hc, if_false]
      rw [hstep]
      clear hstep hi' hj'
      have hi'lt : ¬ keyAt k d i' < P := by
        have h3 := u4 (by omega)
        intro hlt
        rw [← hP] at hlt
        rw [Less_eq_true k d i' a (by omega) (by omega) hlt] at h3
        exact Bool.noConfusion h3
      have hj'lt : keyAt k d j' < P := by
        have h3 := v4 (by omega)
        simp only [Bool.not_eq_false'] at h3
        have := (Less_iff k d j' a (by omega) (by omega)).1 h3
        omega
      have hne : i' ≠ j' := by
        intro h
        subst h
        exact hi'lt hj'lt
      have hlen' : b ≤ (Swap d i' j').length := by
        rw [Swap_length]
        exact hlen
      have r := ih (Swap d i' j') (i' + 1) (j' - 1) hlen' (by omega) (by omega) (by omega)
        (by omega) (by
          rw [keyAt_Swap_ne k d i' j' a (by omega) (by omega)]
          exact hP) (by
          intro m h1 h2
          by_cases hmi : m = i'
          · subst hmi
            rw [keyAt_Swap_left k d m j' (by omega) (by omega)]
            exact hj'lt
          · rw [keyAt_Swap_ne k d i' j' m hmi (by omega)]
            exact hlow' m h1 (by omega)) (by
          intro m h1 h2
          by_cases hmj : m = j'
          · subst hmj
            rw [keyAt_Swap_right k d i' m (by omega) (by omega)]
            omega
          · rw [keyAt_Swap_ne k d i' j' m (by omega) hmj]
            exact hhigh' m (by omega) h2)
      exact ⟨(Reach.swap d i' j' (by omega) (by omega) (by omega) (by omega)).trans r.1, r.2⟩

end sort

namespace sort

variable {α : Type}

/-- Putting the pivot, kept at `a`, between the elements below it and the others. -/
theorem pivot_swap_spec (k : α → Int) (a b j : Nat) (P : Int) (d : List α) (hlen : b ≤ d.length)
    (haj : a ≤ j) (hjb : j < b) (hP : keyAt k d a = P)
    (hlow : ∀ m, a + 1 ≤ m → m ≤ j → keyAt k d m < P)
    (hhigh : ∀ m, j < m → m < b → P ≤ keyAt k d m) :
    Reach a b d (Swap d j a) ∧ keyAt k (Swap d j a) j = P ∧
      (∀ m, a ≤ m → m < j → keyAt k (Swap d j a) m < P) ∧
      (∀ m, j < m → m < b → P ≤ keyAt k (Swap d j a) m) := by
  refine ⟨Reach.swap d j a (by omega) (by omega) (by omega) (by omega), ?_, ?_, ?_⟩
  · rw [keyAt_Swap_left k d j a (by omega) (by omega)]
    exact hP
  · intro m h1 h2
    by_cases hma : m = a
    · subst hma
      rw [keyAt_Swap_right k d j m (by omega) (by omega)]
      exact hlow j (by omega) (Nat.le_refl j)
    · rw [keyAt_Swap_ne k d j a m (by omega) hma]
      exact hlow m (by omega) (by omega)
  · intro m h1 h2
    rw [keyAt_Swap_ne k d j a m (by omega) (by omega)]
    exact hhigh m h1 h2

/-- Go's `partition_func`: the range is split around the pivot, which ends at the returned
index; the elements before it have smaller keys, the elements after it do not. -/
theorem partition_func_spec (k : α → Int) (a b pivot : Nat) (d : List α) (hab : a < b)
    (hlen : b ≤ d.length) (hap : a ≤ pivot) (hpb : pivot < b) :
    Reach a b d (partition_func (keyLess k) d a b pivot).1 ∧
      a ≤ (partition_func (keyLess k) d a b pivot).2.1 ∧
      (partition_func (keyLess k) d a b pivot).2.1 < b ∧
      keyAt k (partition_func (keyLess k) d a b pivot).1
        (partition_func (keyLess k) d a b pivot).2.1 = keyAt k d pivot ∧
      (∀ m, a ≤ m → m < (partition_func (keyLess k) d a b pivot).2.1 →
        keyAt k (partition_func (keyLess k) d a b pivot).1 m < keyAt k d pivot) ∧
      (∀ m, (partition_func (keyLess k) d a b pivot).2.1 < m → m < b →
        keyAt k d pivot ≤ keyAt k (partition_func (keyLess k) d a b pivot).1 m) := by
  have hP0 : keyAt k (Swap d a pivot) a = keyAt k d pivot :=
    keyAt_Swap_left k d a pivot (by omega) (by omega)
  have hlen0 : b ≤ (Swap d a pivot).length := by
    rw [Swap_length]
    exact hlen
  have hr0 : Reach a b d (Swap d a pivot) :=
    Reach.swap d a pivot (by omega) (by omega) (by omega) (by omega)
  generalize hd0 : Swap d a pivot = d0 at hP0 hlen0 hr0
  generalize keyAt k d pivot = P at hP0
  obtain ⟨u1, u2, u3, u4⟩ := scanUp_spec (fun i => Less (keyLess k) d0 i a) (b - 1) (b - a)
    (a + 1) (by omega) (by omega)
  generalize hi' : scanUp (fun i => Less (keyLess k) d0 i a) (b - 1) (b - a) (a + 1) = i'
    at u1 u2 u3 u4
  obtain ⟨v1, v2, v3, v4⟩ := scanDown_spec (fun j => !Less (keyLess k) d0 j a) i' (by omega)
    (b - 1) u2
  generalize hj' : scanDown (fun j => !Less (keyLess k) d0 j a) i' (b - 1) = j' at v1 v2 v3 v4
  have hlow : ∀ m, a + 1 ≤ m → m < i' → keyAt k d0 m < P := by
    intro m h1 h2
    have := (Less_iff k d0 m a (by omega) (by omega)).1 (u3 m h1 h2)
    omega
  have hhigh : ∀ m, j' < m → m < b → P ≤ keyAt k d0 m := by
    intro m h1 h2
    have h3 := v3 m h1 (by omega)
    simp only [Bool.not_eq_true'] at h3
    have h4 : ¬ keyAt k d0 m < keyAt k d0 a := by
      intro hlt
      rw [Less_eq_true k d0 m a (by omega) (by omega) hlt] at h3
      exact Bool.noConfusion h3
    omega
  by_cases hc : j' < i'
  · have hval : partition_func (keyLess k) d a b pivot = (Swap d0 j' a, j', true) := by
      unfold partition_func
      simp only [hd0, hi', hj', hc, if_true]
    rw [hval]
    clear hval hi' hj' hd0
    obtain ⟨s1, s2, s3, s4⟩ := pivot_swap_spec k a b j' P d0 hlen0 (by omega) (by omega) hP0
      (fun m h1 h2 => hlow m h1 (by omega)) hhigh
    exact ⟨hr0.trans s1, (by show a ≤ j'; omega), (by show j' < b; omega), s2, s3, s4⟩
  · have hval : partition_func (keyLess k) d a b pivot
        = (Swap (partitionLoop (keyLess k) a (b - a) (Swap d0 i' j') (i' + 1) (j' - 1)).1
            (partitionLoop (keyLess k) a (b - a) (Swap d0 i' j') (i' + 1) (j' - 1)).2 a,
          (partitionLoop (keyLess k) a (b - a) (Swap d0 i' j') (i' + 1) (j' - 1)).2, false) := by
      unfold partition_func
      simp only [hd0, hi', hj', hc, if_false]
    rw [hval]
    clear hval hi' hj' hd0
    have hi'lt : ¬ keyAt k d0 i' < P := by
      have h3 := u4 (by omega)
      intro hlt
      rw [← hP0] at hlt
      rw [Less_eq_true k d0 i' a (by omega) (by omega) hlt] at h3
      exact Bool.noConfusion h3
    have hj'lt : keyAt k d0 j' < P := by
      have h3 := v4 (by omega)
      simp only [Bool.not_eq_false'] at h3
      have := (Less_iff k d0 j' a (by omega) (by omega)).1 h3
      omega
    have hne : i' ≠ j' := by
      intro h
      subst h
      exact hi'lt hj'lt
    have hlen' : b ≤ (Swap d0 i' j').length := by
      rw [Swap_length]
      exact hlen0
    obtain ⟨r1, r2, r3, r4, r5, r6⟩ := partitionLoop_spec k a b P (b - a) (Swap d0 i' j')
      (i' + 1) (j' - 1) hlen' (by omega) (by omega) (by omega) (by omega) (by
        rw [keyAt_Swap_ne k d0 i' j' a (by omega) (by omega)]
        exact hP0) (by
        intro m h1 h2
        by_cases hmi : m = i'
        · subst hmi
          rw [keyAt_Swap_left k d0 m j' (by omega) (by omega)]
          exact hj'lt
        · rw [keyAt_Swap_ne k d0 i' j' m hmi (by omega)]
          exact hlow m h1 (by omega)) (by
        intro m h1 h2
        by_cases hmj : m = j'
        · subst hmj
          rw [keyAt_Swap_right k d0 i' m (by omega) (by omega)]
          omega
        · rw [keyAt_Swap_ne k d0 i' j' m (by omega) hmj]
          exact hhigh m (by omega) h2)
    generalize (partitionLoop (keyLess k) a (b - a) (Swap d0 i' j') (i' + 1) (j' - 1)).1 = d2
      at r1 r4 r5 r6
    generalize (partitionLoop (keyLess k) a (b - a) (Swap d0 i' j') (i' + 1) (j' - 1)).2 = j2
      at r2 r3 r5 r6
    have hlen2 : b ≤ d2.length := by
      rw [r1.length_eq]
      exact hlen'
    obtain ⟨s1, s2, s3, s4⟩ := pivot_swap_spec k a b j2 P d2 hlen2 r2 r3 r4 r5 r6
    exact ⟨(hr0.trans ((Reach.swap d0 i' j' (by omega) (by omega) (by omega) (by omega)).trans
      (r1.mono (by omega) (Nat.le_refl b)))).trans s1, r2, r3, s2, s3, s4⟩

end sort

namespace sort

variable {α : Type}

/-- The loop of `partitionEqual_func`: from a state in which `[a+1, i)` is not above the
pivot key `P` (kept at `a`) and `(j, b)` is, to a split of `[a+1, b)` at the returned index. -/
theorem partitionEqualLoop_spec (k : α → Int) (a b : Nat) (P : Int) : ∀ (n : Nat)
    (d : List α) (i j : Nat), b ≤ d.length → a + 1 ≤ i → i ≤ j + 1 → j < b → j + 1 - i ≤ n →
    keyAt k d a = P →
    (∀ m, a + 1 ≤ m → m < i → keyAt k d m ≤ P) →
    (∀ m, j < m → m < b → P < keyAt k d m) →
    Reach (a + 1) b d (partitionEqualLoop (keyLess k) a n d i j).1 ∧
      a + 1 ≤ (partitionEqualLoop (keyLess k) a n d i j).2 ∧
      (partitionEqualLoop (keyLess k) a n d i j).2 ≤ b ∧
      keyAt k (partitionEqualLoop (keyLess k) a n d i j).1 a = P ∧
      (∀ m, a + 1 ≤ m → m < (partitionEqualLoop (keyLess k) a n d i j).2 →
        keyAt k (partitionEqualLoop (keyLess k) a n d i j).1 m ≤ P) ∧
      (∀ m, (partitionEqualLoop (keyLess k) a n d i j).2 ≤ m → m < b →
        P < keyAt k (partitionEqualLoop (keyLess k) a n d i j).1 m) := by
  intro n
  induction n with
  | zero =>
    intro d i j _ hai hij hjb hn hP hlow hhigh
    rw [partitionEqualLoop]
    exact ⟨Reach.refl d, hai, by show i ≤ b; omega, hP, hlow,
      fun m h1 h2 => hhigh m (by have : i ≤ m := h1; omega) h2⟩
  | succ n ih =>
    intro d i j hlen hai hij hjb hn hP hlow hhigh
    obtain ⟨u1, u2, u3, u4⟩ := scanUp_spec (fun i => !Less (keyLess k) d a i) j (j + 1 - i) i
      hij (Nat.le_refl _)
    generalize hi' : scanUp (fun i => !Less (keyLess k) d a i) j (j + 1 - i) i = i'
      at u1 u2 u3 u4
    obtain ⟨v1, v2, v3, v4⟩ := scanDown_spec (fun j => Less (keyLess k) d a j) i' (by omega) j u2
    generalize hj' : scanDown (fun j => Less (keyLess k) d a j) i' j = j' at v1 v2 v3 v4
    have hlow' : ∀ m, a + 1 ≤ m → m < i' → keyAt k d m ≤ P := by
      intro m h1 h2
      by_cases hmi : m < i
      · exact hlow m h1 hmi
      · have h3 := u3 m (by omega) h2
        simp only [Bool.not_eq_true'] at h3
        have h4 : ¬ keyAt k d a < keyAt k d m := by
          intro hlt
          rw [Less_eq_true k d a m (by omega) (by omega) hlt] at h3
          exact Bool.noConfusion h3
        omega
    have hhigh' : ∀ m, j' < m → m < b → P < keyAt k d m := by
      intro m h1 h2
      by_cases hmj : j < m
      · exact hhigh m hmj h2
      · have := (Less_iff k d a m (by omega) (by omega)).1 (v3 m h1 (by omega))
        omega
    by_cases hc : j' < i'
    · have hstep : partitionEqualLoop (keyLess k) a (n + 1) d i j = (d, i') := by
        rw [partitionEqualLoop]
        simp only [hi', hj', hc, if_true]
      rw [hstep]
      clear hstep hi' hj'
      exact ⟨Reach.refl d, by show a + 1 ≤ i'; omega, by show i' ≤ b; omega, hP, hlow',
        fun m h1 h2 => hhigh' m (by have : i' ≤ m := h1; omega) h2⟩
    · have hstep : partitionEqualLoop (keyLess k) a (n + 1) d i j
          = partitionEqualLoop (keyLess k) a n (Swap d i' j') (i' + 1) (j' - 1) := by
        rw [partitionEqualLoop]
        simp only [hi', hj', hc, if_false]
      rw [hstep]
      clear hstep hi' hj'
      have hi'gt : P < keyAt k d i' := by
        have h3 := u4 (by omega)
        simp only [Bool.not_eq_false'] at h3
        have := (Less_iff k d a i' (by omega) (by omega)).1 h3
        omega
      have hj'le : keyAt k d j' ≤ P := by
        have h3 := v4 (by omega)
        have h4 : ¬ keyAt k d a < keyAt k d j' := by
          intro hlt
          rw [Less_eq_true k d a j' (by omega) (by omega) hlt] at h3
          exact Bool.noConfusion h3
        omega
      have hne : i' ≠ j' := by
        intro h
        subst h
        omega
      have hlen' : b ≤ (Swap d i' j').length := by
        rw [Swap_length]
        exact hlen
      have r := ih (Swap d i' j') (i' + 1) (j' - 1) hlen' (by omega) (by omega) (by omega)
        (by omega) (by
          rw [keyAt_Swap_ne k d i' j' a (by omega) (by omega)]
          exact hP) (by
          intro m h1 h2
          by_cases hmi : m = i'
          · subst hmi
            rw [keyAt_Swap_left k d m j' (by omega) (by omega)]
            exact hj'le
          · rw [keyAt_Swap_ne k d i' j' m hmi (by omega)]
            exact hlow' m h1 (by omega)) (by
          intro m h1 h2
          by_cases hmj : m = j'
          · subst hmj
            rw [keyAt_Swap_right k d i' m (by omega) (by omega)]
            exact hi'gt
          · rw [keyAt_Swap_ne k d i' j' m (by omega) hmj]
            exact hhigh' m (by omega) h2)
      exact ⟨(Reach.swap d i' j' (by omega) (by omega) (by omega) (by omega)).trans r.1, r.2⟩

/-- Go's `partitionEqual_func`: the range is split at the returned index into the elements
whose keys are not above the pivot's and those whose keys are. -/
theorem partitionEqual_func_spec (k : α → Int) (a b pivot : Nat) (d : List α) (hab : a < b)
    (hlen : b ≤ d.length) (hap : a ≤ pivot) (hpb : pivot < b) :
    Reach a b d (partitionEqual_func (keyLess k) d a b pivot).1 ∧
      a + 1 ≤ (partitionEqual_func (keyLess k) d a b pivot).2 ∧
      (partitionEqual_func (keyLess k) d a b pivot).2 ≤ b ∧
      (∀ m, a ≤ m → m < (partitionEqual_func (keyLess k) d a b pivot).2 →
        keyAt k (partitionEqual_func (keyLess k) d a b pivot).1 m ≤ keyAt k d pivot) ∧
      (∀ m, (partitionEqual_func (keyLess k) d a b pivot).2 ≤ m → m < b →
        keyAt k d pivot < keyAt k (partitionEqual_func (keyLess k) d a b pivot).1 m) := by
  have hP0 : keyAt k (Swap d a pivot) a = keyAt k d pivot :=
    keyAt_Swap_left k d a pivot (by omega) (by omega)
  have hlen0 : b ≤ (Swap d a pivot).length := by
    rw [Swap_length]
    exact hlen
  have hr0 : Reach a b d (Swap d a pivot) :=
    Reach.swap d a pivot (by omega) (by omega) (by omega) (by omega)
  unfold partitionEqual_func
  obtain ⟨r1, r2, r3, r4, r5, r6⟩ := partitionEqualLoop_spec k a b (keyAt k d pivot) (b - a)
    (Swap d a pivot) (a + 1) (b - 1) hlen0 (Nat.le_refl _) (by omega) (by omega) (by omega) hP0
    (by intro m h1 h2; omega) (by intro m h1 h2; omega)
  refine ⟨hr0.trans (r1.mono (by omega) (Nat.le_refl b)), r2, r3, ?_, r6⟩
  intro m h1 h2
  by_cases hma : m = a
  · subst hma
    rw [r4]
  · exact r5 m (by omega) h2

end sort

namespace sort

variable {α : Type}

/-- Exchanges inside the range keep the element before it a lower bound. -/
theorem LowerBound.reach (k : α → Int) {a b : Nat} {d d' : List α} (h : LowerBound k a b d)
    (hr : Reach a b d d') : LowerBound k a b d' := by
  intro ha m h1 h2
  rw [hr.keyAt_outside k (a - 1) (Or.inl (by omega))]
  exact hr.forall_range k (fun v => keyAt k d (a - 1) ≤ v) (h ha) m h1 h2

/-- Go's `reverseRange_func` works by exchanges inside the range. -/
theorem reverseRangeLoop_reach (a b : Nat) : ∀ (n i j : Nat) (d : List α), a ≤ i → j < b →
    Reach a b d (reverseRangeLoop n i j d) := by
  intro n
  induction n with
  | zero =>
    intro i j d _ _
    rw [reverseRangeLoop]
    exact Reach.refl d
  | succ n ih =>
    intro i j d hai hjb
    rw [reverseRangeLoop]
    by_cases hij : i < j
    · simp only [hij, if_true]
      exact (Reach.swap d i j hai (by omega) (by omega) hjb).trans
        (ih (i + 1) (j - 1) (Swap d i j) (by omega) (by omega))
    · simp only [hij, if_false]
      exact Reach.refl d

theorem reverseRange_func_reach (a b : Nat) (d : List α) (hab : a < b) :
    Reach a b d (reverseRange_func d a b) := by
  unfold reverseRange_func
  exact reverseRangeLoop_reach a b (b - a) a (b - 1) d (Nat.le_refl a) (by omega)

/-- Go's `bits.Len`: twice the length bounds `1 << bits.Len(length)`. -/
theorem two_pow_bitsLen_le (n : Nat) (hn : 0 < n) : 2 ^ bitsLen n ≤ 2 * n := by
  unfold bitsLen
  have h0 : n ≠ 0 := by omega
  simp only [h0, if_false]
  have := Nat.log2_self_le h0
  rw [pow_succ]
  omega

/-- Go's `breakPatterns_func` works by exchanges inside the range, whatever the generator. -/
theorem breakPatternsLoop_reach (next : Nat → Nat) (a length idx : Nat) (hlen : 0 < length)
    (hidx1 : a ≤ idx) (hidx2 : idx + 2 < a + length) : ∀ (n i random : Nat) (d : List α),
    i + n ≤ 3 → Reach a (a + length) d (breakPatternsLoop next a length idx n i random d) := by
  intro n
  induction n with
  | zero =>
    intro i random d _
    rw [breakPatternsLoop]
    exact Reach.refl d
  | succ n ih =>
    intro i random d hin
    rw [breakPatternsLoop]
    have hand : next random &&& (2 ^ bitsLen length - 1) ≤ 2 ^ bitsLen length - 1 :=
      Nat.and_le_right
    have hpow := two_pow_bitsLen_le length hlen
    have hother : (if length ≤ next random &&& (2 ^ bitsLen length - 1) then
        (next random &&& (2 ^ bitsLen length - 1)) - length
        else next random &&& (2 ^ bitsLen length - 1)) < length := by
      split <;> omega
    exact (Reach.swap d (idx + i) _ (by omega) (by omega) (by omega) (by omega)).trans
      (ih (i + 1) (next random) _ (by omega))

theorem breakPatterns_func_reach (next : Nat → Nat) (a b : Nat) (d : List α) (hab : a ≤ b) :
    Reach a b d (breakPatterns_func next d a b) := by
  unfold breakPatterns_func
  by_cases h8 : 8 ≤ b - a
  · simp only [h8, if_true]
    have e : a + (b - a) = b := by omega
    have r := breakPatternsLoop_reach next a (b - a) (a + (b - a) / 4 * 2 - 1) (by omega)
      (by omega) (by omega) 3 0 (b - a) d (by omega)
    rw [e] at r
    exact r
  · simp only [h8, if_false]
    exact Reach.refl d

/-- Go's `order2_func` returns its two indices, in one order or the other. -/
theorem order2_func_cases (less : α → α → Bool) (d : List α) (a b s : Nat) :
    ((order2_func less d a b s).1 = a ∧ (order2_func less d a b s).2.1 = b) ∨
      ((order2_func less d a b s).1 = b ∧ (order2_func less d a b s).2.1 = a) := by
  unfold order2_func
  split
  · exact Or.inr ⟨rfl, rfl⟩
  · exact Or.inl ⟨rfl, rfl⟩

/-- Go's `median_func` returns one of its three indices. -/
theorem median_func_mem (less : α → α → Bool) (d : List α) (a b c s : Nat) :
    (median_func less d a b c s).1 = a ∨ (median_func less d a b c s).1 = b ∨
      (median_func less d a b c s).1 = c := by
  unfold median_func
  simp only
  have h1 := order2_func_cases less d a b s
  generalize order2_func less d a b s = r1 at h1
  have h2 := order2_func_cases less d r1.2.1 c r1.2.2
  generalize order2_func less d r1.2.1 c r1.2.2 = r2 at h2
  have h3 := order2_func_cases less d r1.1 r2.1 r2.2.2
  generalize order2_func less d r1.1 r2.1 r2.2.2 = r3 at h3
  omega

/-- Go's `median_func` keeps an index between bounds that hold for its three indices. -/
theorem median_func_bounds (less : α → α → Bool) (d : List α) (a b c s lo hi : Nat)
    (ha : lo ≤ a ∧ a < hi) (hb : lo ≤ b ∧ b < hi) (hc : lo ≤ c ∧ c < hi) :
    lo ≤ (median_func less d a b c s).1 ∧ (median_func less d a b c s).1 < hi := by
  rcases median_func_mem less d a b c s with h | h | h <;> rw [h] <;> assumption

/-- Go's `choosePivot_func` returns an index of the range, for a range of 8 elements or
more. -/
theorem choosePivot_func_mem (less : α → α → Bool) (d : List α) (a b : Nat) (h8 : 8 ≤ b - a) :
    a ≤ (choosePivot_func less d a b).1 ∧ (choosePivot_func less d a b).1 < b := by
  have hfst : (choosePivot_func less d a b).1 = (choosePivotMedian less d a b).1 := by
    unfold choosePivot_func
    simp only
    split
    · rfl
    · split <;> rfl
  rw [hfst]
  have hq1 : 4 * ((b - a) / 4) ≤ b - a := Nat.mul_div_le (b - a) 4
  have hq2 : 2 ≤ (b - a) / 4 := by omega
  have hq3 : 50 ≤ b - a → 12 ≤ (b - a) / 4 := by omega
  unfold choosePivotMedian medianAdjacent_func
  simp only [h8, if_true]
  generalize (b - a) / 4 = q at hq1 hq2 hq3 ⊢
  split
  · rename_i h50
    have hq := hq3 h50
    exact median_func_bounds less d _ _ _ _ a b
      (median_func_bounds less d _ _ _ _ a b (by omega) (by omega) (by omega))
      (median_func_bounds less d _ _ _ _ a b (by omega) (by omega) (by omega))
      (median_func_bounds less d _ _ _ _ a b (by omega) (by omega) (by omega))
  · exact median_func_bounds less d _ _ _ _ a b (by omega) (by omega) (by omega)

end sort

namespace sort

variable {α : Type}

/-- Below a lower bound the shifting loop of `partialInsertionSort_func`, which runs down to
index 1, stops where the inner loop of insertion sort on `[a, b)` stops. -/
theorem shiftSmaller_eq_insertionShift (k : α → Int) (a b : Nat) : ∀ (j : Nat) (d : List α),
    a ≤ j → j < b → b ≤ d.length → LowerBound k a b d →
    shiftSmaller (keyLess k) j d = insertionShift (keyLess k) a j d := by
  intro j
  induction j with
  | zero =>
    intro d _ _ _ _
    rw [shiftSmaller, insertionShift]
  | succ j ih =>
    intro d haj hjb hlen hlb
    rw [shiftSmaller, insertionShift]
    by_cases ha : a < j + 1
    · by_cases hl : Less (keyLess k) d (j + 1) j = true
      · have hlb' : LowerBound k a b (Swap d (j + 1) j) :=
          hlb.reach k (Reach.swap d (j + 1) j (by omega) (by omega) (by omega) (by omega))
        have hlen' : b ≤ (Swap d (j + 1) j).length := by
          rw [Swap_length]
          exact hlen
        simp only [hl, ha, Bool.not_true, decide_True, Bool.and_self, if_true]
        simp only [Bool.false_eq_true, if_false]
        exact ih (Swap d (j + 1) j) (by omega) (by omega) hlen' hlb'
      · have hl' : Less (keyLess k) d (j + 1) j = false := by
          cases hx : Less (keyLess k) d (j + 1) j
          · rfl
          · exact absurd hx hl
        simp [hl']
    · have haj' : a = j + 1 := by omega
      have h1 := hlb (by omega) a (Nat.le_refl a) (by omega)
      have e : a - 1 = j := by omega
      rw [e] at h1
      have hl' : Less (keyLess k) d (j + 1) j = false := by
        apply Less_eq_false k d (j + 1) j (by omega) (by omega)
        rw [← haj']
        omega
      simp [hl', ha]

/-- The loop of `partialInsertionSort_func` that shifts the greater element to the right
works by exchanges at indices from `lo` on. -/
theorem shiftGreater_reach (less : α → α → Bool) (lo b : Nat) : ∀ (n j : Nat) (d : List α),
    lo + 1 ≤ j → Reach lo b d (shiftGreater less b n j d) := by
  intro n
  induction n with
  | zero =>
    intro j d _
    rw [shiftGreater]
    exact Reach.refl d
  | succ n ih =>
    intro j d hj
    rw [shiftGreater]
    by_cases hjb : j < b
    · simp only [hjb, if_true]
      split
      · exact Reach.refl d
      · exact (Reach.swap d j (j - 1) (by omega) hjb (by omega) (by omega)).trans
          (ih (j + 1) (Swap d j (j - 1)) (by omega))
    · simp only [hjb, if_false]
      exact Reach.refl d

/-- A sorted prefix extended over a stretch in which no element is below its left
neighbour. -/
theorem SortedOn_extend (k : α → Int) (a i i' : Nat) (d : List α)
    (hs : SortedOn k a i d)
    (hadj : ∀ m, i ≤ m → m < i' → keyAt k d (m - 1) ≤ keyAt k d m) : SortedOn k a i' d := by
  apply SortedOn_of_adjacent
  intro m h1 h2
  by_cases hm : m + 1 < i
  · exact hs m (m + 1) h1 (by omega) hm
  · have := hadj (m + 1) (by omega) h2
    simpa using this

end sort

namespace sort

variable {α : Type}

/-- The repair step of `partialInsertionSort_func` at an element `x + 1` that is below its
left neighbour: after the exchange and the shift of the smaller element, the range up to
`x + 1` is sorted again. -/
theorem partialInsertion_repair (k : α → Int) (a b x : Nat) (d : List α) (hax : a ≤ x)
    (hxb : x + 1 < b) (hlen : b ≤ d.length) (hs : SortedOn k a (x + 1) d)
    (hlt : keyAt k d (x + 1) < keyAt k d x) (hlb : LowerBound k a b d) :
    Reach a b d (if 2 ≤ x + 1 - a then shiftSmaller (keyLess k) x (Swap d (x + 1) x)
      else Swap d (x + 1) x) ∧
    SortedOn k a (x + 1) (if 2 ≤ x + 1 - a then shiftSmaller (keyLess k) x (Swap d (x + 1) x)
      else Swap d (x + 1) x) := by
  have hr1 : Reach a b d (Swap d (x + 1) x) :=
    Reach.swap d (x + 1) x (by omega) (by omega) (by omega) (by omega)
  have hlen1 : b ≤ (Swap d (x + 1) x).length := by
    rw [Swap_length]
    exact hlen
  have k1 : keyAt k (Swap d (x + 1) x) (x + 1) = keyAt k d x :=
    keyAt_Swap_left k d (x + 1) x (by omega) (by omega)
  have k2 : keyAt k (Swap d (x + 1) x) x = keyAt k d (x + 1) :=
    keyAt_Swap_right k d (x + 1) x (by omega) (by omega)
  have k3 : ∀ m, m < x → keyAt k (Swap d (x + 1) x) m = keyAt k d m := by
    intro m hm
    exact keyAt_Swap_ne k d (x + 1) x m (by omega) (by omega)
  by_cases h2 : 2 ≤ x + 1 - a
  · simp only [h2, if_true]
    rw [shiftSmaller_eq_insertionShift k a b x (Swap d (x + 1) x) hax (by omega) hlen1
      (hlb.reach k hr1)]
    have r := insertionShift_spec k a (x + 1) x (Swap d (x + 1) x) hax (by omega) (by omega)
      (by
        intro i j h1 h2 h3
        rw [k3 i (by omega), k3 j h3]
        exact hs i j h1 h2 (by omega))
      (by
        intro i j h1 h2 h3
        have hi : i = x := by omega
        have hj : j = x + 1 := by omega
        subst hi
        subst hj
        rw [k1, k2]
        omega)
      (by
        intro i m h1 h2 h3 h4
        have hm : m = x + 1 := by omega
        subst hm
        rw [k1, k3 i h2]
        exact hs i x h1 h2 (by omega))
    exact ⟨hr1.trans (r.1.mono (Nat.le_refl a) (by omega)),
      fun i j h1 h2 h3 => r.2 i j h1 h2 (by omega)⟩
  · simp only [h2, if_false]
    refine ⟨hr1, ?_⟩
    intro i j h1 h2 h3
    omega

/-- The loop of `partialInsertionSort_func`: it works by exchanges inside the range, and when
it reports success the range is sorted. -/
theorem partialInsertionLoop_spec (k : α → Int) (a b : Nat) (hab : a < b) : ∀ (steps i : Nat)
    (d : List α), b ≤ d.length → a + 1 ≤ i → i ≤ b → SortedOn k a i d → LowerBound k a b d →
    Reach a b d (partialInsertionLoop (keyLess k) a b steps i d).1 ∧
      ((partialInsertionLoop (keyLess k) a b steps i d).2 = true →
        SortedOn k a b (partialInsertionLoop (keyLess k) a b steps i d).1) := by
  intro steps
  induction steps with
  | zero =>
    intro i d _ _ _ _ _
    rw [partialInsertionLoop]
    exact ⟨Reach.refl d, fun h => Bool.noConfusion h⟩
  | succ steps ih =>
    intro i d hlen hai hib hs hlb
    obtain ⟨u1, u2, u3, u4⟩ := scanUp_spec (fun i => !Less (keyLess k) d i (i - 1)) (b - 1)
      (b - i) i (by omega) (by omega)
    generalize hi' : scanUp (fun i => !Less (keyLess k) d i (i - 1)) (b - 1) (b - i) i = i'
      at u1 u2 u3 u4
    have hs' : SortedOn k a i' d := by
      apply SortedOn_extend k a i i' d hs
      intro m h1 h2
      have h3 := u3 m h1 h2
      simp only [Bool.not_eq_true'] at h3
      by_contra hcon
      rw [Less_eq_true k d m (m - 1) (by omega) (by omega) (by omega)] at h3
      exact Bool.noConfusion h3
    by_cases hend : i' = b
    · have hstep : partialInsertionLoop (keyLess k) a b (steps + 1) i d = (d, true) := by
        rw [partialInsertionLoop]
        simp only [hi', hend, if_true]
      rw [hstep]
      subst hend
      exact ⟨Reach.refl d, fun _ => hs'⟩
    · by_cases hshort : b - a < 50
      · have hstep : partialInsertionLoop (keyLess k) a b (steps + 1) i d = (d, false) := by
          rw [partialInsertionLoop]
          simp only [hi', hend, if_false, hshort, if_true]
        rw [hstep]
        exact ⟨Reach.refl d, fun h => Bool.noConfusion h⟩
      · have hstep : partialInsertionLoop (keyLess k) a b (steps + 1) i d
            = partialInsertionLoop (keyLess k) a b steps i'
              (if 2 ≤ b - i' then
                shiftGreater (keyLess k) b (b - i') (i' + 1)
                  (if 2 ≤ i' - a then shiftSmaller (keyLess k) (i' - 1) (Swap d i' (i' - 1))
                    else Swap d i' (i' - 1))
              else (if 2 ≤ i' - a then shiftSmaller (keyLess k) (i' - 1) (Swap d i' (i' - 1))
                    else Swap d i' (i' - 1))) := by
          rw [partialInsertionLoop]
          simp only [hi', hend, if_false, hshort]
        rw [hstep]
        clear hstep hi'
        have hlt : keyAt k d i' < keyAt k d (i' - 1) := by
          have h3 := u4 (by omega)
          simp only [Bool.not_eq_false'] at h3
          exact (Less_iff k d i' (i' - 1) (by omega) (by omega)).1 h3
        obtain ⟨x, hx⟩ : ∃ x, i' = x + 1 := ⟨i' - 1, by omega⟩
        subst hx
        simp only [Nat.add_sub_cancel] at hlt ⊢
        obtain ⟨q1, q2⟩ := partialInsertion_repair k a b x d (by omega) (by omega) hlen hs' hlt hlb
        generalize (if 2 ≤ x + 1 - a then shiftSmaller (keyLess k) x (Swap d (x + 1) x)
          else Swap d (x + 1) x) = d2 at q1 q2
        have q3 : Reach (x + 1) b d2 (if 2 ≤ b - (x + 1) then
            shiftGreater (keyLess k) b (b - (x + 1)) (x + 1 + 1) d2 else d2) := by
          split
          · exact shiftGreater_reach (keyLess k) (x + 1) b _ _ d2 (by omega)
          · exact Reach.refl d2
        generalize (if 2 ≤ b - (x + 1) then
            shiftGreater (keyLess k) b (b - (x + 1)) (x + 1 + 1) d2 else d2) = d3 at q3
        have q4 : Reach a b d d3 := q1.trans (q3.mono (by omega) (Nat.le_refl b))
        have hlen3 : b ≤ d3.length := by
          rw [q4.length_eq]
          exact hlen
        have hs3 : SortedOn k a (x + 1) d3 :=
          q2.congr k (fun m _ h2 => q3.keyAt_outside k m (Or.inl h2))
        have r := ih (x + 1) d3 hlen3 (by omega) (by omega) hs3 (hlb.reach k q4)
        exact ⟨q4.trans r.1, r.2⟩

/-- Go's `partialInsertionSort_func`: exchanges inside the range, and a sorted range when it
returns `true`. -/
theorem partialInsertionSort_func_spec (k : α → Int) (a b : Nat) (d : List α) (hab : a < b)
    (hlen : b ≤ d.length) (hlb : LowerBound k a b d) :
    Reach a b d (partialInsertionSort_func (keyLess k) d a b).1 ∧
      ((partialInsertionSort_func (keyLess k) d a b).2 = true →
        SortedOn k a b (partialInsertionSort_func (keyLess k) d a b).1) := by
  unfold partialInsertionSort_func
  exact partialInsertionLoop_spec k a b hab 5 (a + 1) d hlen (Nat.le_refl _) (by omega)
    (by intro i j _ _ _; omega) hlb

end sort

namespace sort

variable {α : Type}

/-- A range is sorted when it is sorted on both sides of an index `mid` that is not below
the elements before it nor above the elements after it. -/
theorem SortedOn_of_split (k : α → Int) (a b mid : Nat) (o : List α)
    (hl : SortedOn k a mid o) (hr : SortedOn k (mid + 1) b o)
    (hlow : ∀ m, a ≤ m → m < mid → keyAt k o m ≤ keyAt k o mid)
    (hhigh : ∀ m, mid < m → m < b → keyAt k o mid ≤ keyAt k o m) : SortedOn k a b o := by
  intro i j h1 h2 h3
  by_cases hj : j < mid
  · exact hl i j h1 h2 hj
  · by_cases hi : mid < i
    · exact hr i j (by omega) h2 h3
    · by_cases hjm : j = mid
      · subst hjm
        exact hlow i h1 h2
      · by_cases him : i = mid
        · subst him
          exact hhigh j (by omega) h3
        · have e1 := hlow i h1 (by omega)
          have e2 := hhigh j (by omega) h3
          omega

/-- The result of sorting the two sides of a partition, one after the other, in either
order. -/
theorem pdqsort_sides (k : α → Int) (a b mid : Nat) (P : Int) (d o1 o2 : List α)
    (a1 b1 a2 b2 : Nat)
    (hside : (a1 = a ∧ b1 = mid ∧ a2 = mid + 1 ∧ b2 = b) ∨
      (a1 = mid + 1 ∧ b1 = b ∧ a2 = a ∧ b2 = mid))
    (hmid : a ≤ mid ∧ mid < b)
    (hP : keyAt k d mid = P)
    (hlow : ∀ m, a ≤ m → m < mid → keyAt k d m < P)
    (hhigh : ∀ m, mid < m → m < b → P ≤ keyAt k d m)
    (hr1 : Reach a1 b1 d o1) (hs1 : SortedOn k a1 b1 o1)
    (hr2 : Reach a2 b2 o1 o2) (hs2 : SortedOn k a2 b2 o2) :
    Reach a b d o2 ∧ SortedOn k a b o2 := by
  have hreach : Reach a b d o2 := by
    rcases hside with ⟨e1, e2, e3, e4⟩ | ⟨e1, e2, e3, e4⟩
    · subst e1 e2 e3 e4
      exact (hr1.mono (Nat.le_refl _) (by omega)).trans (hr2.mono (by omega) (Nat.le_refl _))
    · subst e1 e2 e3 e4
      exact (hr1.mono (by omega) (Nat.le_refl _)).trans (hr2.mono (Nat.le_refl _) (by omega))
  refine ⟨hreach, ?_⟩
  have hmid1 : keyAt k o1 mid = P := by
    rw [hr1.keyAt_outside k mid (by omega)]
    exact hP
  have hmid2 : keyAt k o2 mid = P := by
    rw [hr2.keyAt_outside k mid (by omega)]
    exact hmid1
  have hlow1 : ∀ m, a ≤ m → m < mid → keyAt k o1 m < P := by
    rcases hside with ⟨e1, e2, e3, e4⟩ | ⟨e1, e2, e3, e4⟩
    · subst e1 e2 e3 e4
      exact hr1.forall_range k (fun v => v < P) hlow
    · subst e1 e2 e3 e4
      intro m h1 h2
      rw [hr1.keyAt_outside k m (Or.inl (by omega))]
      exact hlow m h1 h2
  have hhigh1 : ∀ m, mid < m → m < b → P ≤ keyAt k o1 m := by
    rcases hside with ⟨e1, e2, e3, e4⟩ | ⟨e1, e2, e3, e4⟩
    · subst e1 e2 e3 e4
      intro m h1 h2
      rw [hr1.keyAt_outside k m (Or.inr (by omega))]
      exact hhigh m h1 h2
    · subst e1 e2 e3 e4
      intro m h1 h2
      exact hr1.forall_range k (fun v => P ≤ v) (fun m h1 h2 => hhigh m (by omega) h2) m
        (by omega) h2
  have hlow2 : ∀ m, a ≤ m → m < mid → keyAt k o2 m < P := by
    rcases hside with ⟨e1, e2, e3, e4⟩ | ⟨e1, e2, e3, e4⟩
    · subst e1 e2 e3 e4
      intro m h1 h2
      rw [hr2.keyAt_outside k m (Or.inl (by omega))]
      exact hlow1 m h1 h2
    · subst e1 e2 e3 e4
      exact hr2.forall_range k (fun v => v < P) hlow1
  have hhigh2 : ∀ m, mid < m → m < b → P ≤ keyAt k o2 m := by
    rcases hside with ⟨e1, e2, e3, e4⟩ | ⟨e1, e2, e3, e4⟩
    · subst e1 e2 e3 e4
      intro m h1 h2
      exact hr2.forall_range k (fun v => P ≤ v) (fun m h1 h2 => hhigh1 m (by omega) h2) m
        (by omega) h2
    · subst e1 e2 e3 e4
      intro m h1 h2
      rw [hr2.keyAt_outside k m (Or.inr (by omega))]
      exact hhigh1 m h1 h2
  have hsl : SortedOn k a mid o2 := by
    rcases hside with ⟨e1, e2, e3, e4⟩ | ⟨e1, e2, e3, e4⟩
    · subst e1 e2 e3 e4
      exact hs1.congr k (fun m _ h2 => hr2.keyAt_outside k m (Or.inl (by omega)))
    · subst e1 e2 e3 e4
      exact hs2
  have hsr : SortedOn k (mid + 1) b o2 := by
    rcases hside with ⟨e1, e2, e3, e4⟩ | ⟨e1, e2, e3, e4⟩
    · subst e1 e2 e3 e4
      exact hs2
    · subst e1 e2 e3 e4
      exact hs1.congr k (fun m h1 _ => hr2.keyAt_outside k m (Or.inr (by omega)))
  apply SortedOn_of_split k a b mid o2 hsl hsr
  · intro m h1 h2
    rw [hmid2]
    exact le_of_lt (hlow2 m h1 h2)
  · intro m h1 h2
    rw [hmid2]
    exact hhigh2 m h1 h2

end sort

namespace sort

variable {α : Type}

/-- The branch of `pdqsort_func` for many equal elements: after `partitionEqual_func` the
elements equal to the pivot are in place and the rest is sorted by the next turn. -/
theorem pdqsort_equal_branch (k : α → Int) (a b pivot mid : Nat) (d r1 out : List α)
    (ha0 : 0 < a) (hlb : LowerBound k a b d)
    (hnl : ¬ keyAt k d (a - 1) < keyAt k d pivot)
    (hr : Reach a b d r1) (hmid : a + 1 ≤ mid ∧ mid ≤ b)
    (hlow : ∀ m, a ≤ m → m < mid → keyAt k r1 m ≤ keyAt k d pivot)
    (hhigh : ∀ m, mid ≤ m → m < b → keyAt k d pivot < keyAt k r1 m)
    (hro : Reach mid b r1 out) (hso : SortedOn k mid b out) :
    Reach a b d out ∧ SortedOn k a b out := by
  refine ⟨hr.trans (hro.mono (by omega) (Nat.le_refl b)), ?_⟩
  have hlb1 := hlb.reach k hr
  have hbase : keyAt k r1 (a - 1) = keyAt k d (a - 1) :=
    hr.keyAt_outside k (a - 1) (Or.inl (by omega))
  have heq : ∀ m, a ≤ m → m < mid → keyAt k out m = keyAt k d pivot := by
    intro m h1 h2
    rw [hro.keyAt_outside k m (Or.inl h2)]
    have e1 := hlow m h1 h2
    have e2 := hlb1 ha0 m h1 (by omega)
    omega
  have hgt : ∀ m, mid ≤ m → m < b → keyAt k d pivot < keyAt k out m :=
    hro.forall_range k (fun v => keyAt k d pivot < v) hhigh
  intro i j h1 h2 h3
  by_cases hi : mid ≤ i
  · exact hso i j hi h2 h3
  · by_cases hj : mid ≤ j
    · have e1 := heq i h1 (by omega)
      have e2 := hgt j hj h3
      omega
    · have e1 := heq i h1 (by omega)
      have e2 := heq j (by omega) (by omega)
      omega

/-- The lower bound that the next turn of `pdqsort_func` needs after `partitionEqual_func`. -/
theorem LowerBound_after_equal (k : α → Int) (a b mid : Nat) (P : Int) (r1 : List α)
    (hmid : a + 1 ≤ mid)
    (hlow : ∀ m, a ≤ m → m < mid → keyAt k r1 m ≤ P)
    (hhigh : ∀ m, mid ≤ m → m < b → P < keyAt k r1 m) : LowerBound k mid b r1 := by
  intro _ m h1 h2
  have e1 := hlow (mid - 1) (by omega) (by omega)
  have e2 := hhigh m h1 h2
  omega

/-- The lower bounds that the recursive calls of `pdqsort_func` need on the two sides of a
partition. -/
theorem LowerBound_sides (k : α → Int) (a b mid : Nat) (P : Int) (r1 : List α)
    (hlb : LowerBound k a b r1) (hmid : a ≤ mid ∧ mid < b) (hP : keyAt k r1 mid = P)
    (hhigh : ∀ m, mid < m → m < b → P ≤ keyAt k r1 m) :
    LowerBound k a mid r1 ∧ LowerBound k (mid + 1) b r1 := by
  constructor
  · intro ha m h1 h2
    exact hlb ha m h1 (by omega)
  · intro _ m h1 h2
    have e : mid + 1 - 1 = mid := by omega
    rw [e, hP]
    exact hhigh m (by omega) h2

end sort

namespace sort

variable {α : Type}

/-- Exchanges on the left of `mid` keep the partition. -/
theorem PartitionedAt.reach_left (k : α → Int) {a b mid : Nat} {P : Int} {d o : List α}
    (h : PartitionedAt k a b mid P d) (hr : Reach a mid d o) : PartitionedAt k a b mid P o := by
  refine ⟨?_, ?_, ?_⟩
  · rw [hr.keyAt_outside k mid (Or.inr (Nat.le_refl _))]
    exact h.1
  · exact hr.forall_range k (fun v => v < P) h.2.1
  · intro m h1 h2
    rw [hr.keyAt_outside k m (Or.inr (by omega))]
    exact h.2.2 m h1 h2

/-- Exchanges on the right of `mid` keep the partition. -/
theorem PartitionedAt.reach_right (k : α → Int) {a b mid : Nat} {P : Int} {d o : List α}
    (h : PartitionedAt k a b mid P d) (hr : Reach (mid + 1) b d o) :
    PartitionedAt k a b mid P o := by
  refine ⟨?_, ?_, ?_⟩
  · rw [hr.keyAt_outside k mid (Or.inl (by omega))]
    exact h.1
  · intro m h1 h2
    rw [hr.keyAt_outside k m (Or.inl (by omega))]
    exact h.2.1 m h1 h2
  · intro m h1 h2
    exact hr.forall_range k (fun v => P ≤ v) (fun m h1 h2 => h.2.2 m (by omega) h2) m
      (by omega) h2

/-- Go's `pdqsort_func` on the range `[a, b)`, with more fuel than the range is long and the
element before the range a lower bound of it: it returns, having sorted the range by
exchanges inside it. -/
theorem pdqsort_func_spec (next : Nat → Nat) (k : α → Int) : ∀ (fuel : Nat) (d : List α)
    (a b limit : Nat) (wb wp : Bool), b ≤ d.length → b - a < fuel → LowerBound k a b d →
    ∃ out, pdqsort_func next (keyLess k) fuel d a b limit wb wp = some out ∧
      Reach a b d out ∧ SortedOn k a b out := by
  intro fuel
  induction fuel with
  | zero =>
    intro d a b limit wb wp _ hfuel _
    omega
  | succ fuel ih =>
    intro d a b limit wb wp hlen hfuel hlb
    rw [pdqsort_func]
    by_cases h12 : b - a ≤ 12
    · simp only [h12, if_true]
      exact ⟨_, rfl, insertionSort_func_spec k a b d hlen⟩
    · by_cases hlim : limit = 0
      · simp only [h12, if_false, hlim, if_true]
        exact ⟨_, rfl, heapSort_func_spec k a b d hlen⟩
      · simp only [h12, if_false, hlim]
        have hr1 : Reach a b d (if (!wb) = true then breakPatterns_func next d a b else d) := by
          split
          · exact breakPatterns_func_reach next a b d (by omega)
          · exact Reach.refl d
        generalize (if (!wb) = true then breakPatterns_func next d a b else d) = d1 at hr1 ⊢
        generalize (if (!wb) = true then limit - 1 else limit) = limit1
        have hp := choosePivot_func_mem (keyLess k) d1 a b (by omega)
        generalize choosePivot_func (keyLess k) d1 a b = ph at hp ⊢
        have hr2 : Reach a b d1 (if ph.2 = sortedHint.decreasingHint then
            reverseRange_func d1 a b else d1) := by
          split
          · exact reverseRange_func_reach a b d1 (by omega)
          · exact Reach.refl d1
        generalize (if ph.2 = sortedHint.decreasingHint then
            reverseRange_func d1 a b else d1) = d2 at hr2 ⊢
        have hpiv : a ≤ (if ph.2 = sortedHint.decreasingHint then b - 1 - (ph.1 - a) else ph.1) ∧
            (if ph.2 = sortedHint.decreasingHint then b - 1 - (ph.1 - a) else ph.1) < b := by
          split <;> omega
        generalize (if ph.2 = sortedHint.decreasingHint then b - 1 - (ph.1 - a) else ph.1)
          = pivot at hpiv ⊢
        generalize (if ph.2 = sortedHint.decreasingHint then sortedHint.increasingHint
          else ph.2) = hint
        have hr12 : Reach a b d d2 := hr1.trans hr2
        have hlen2 : b ≤ d2.length := by
          rw [hr12.length_eq]
          exact hlen
        have hlb2 : LowerBound k a b d2 := hlb.reach k hr12
        have htried : Reach a b d2
            (if (wb && wp && decide (hint = sortedHint.increasingHint)) = true then
              partialInsertionSort_func (keyLess k) d2 a b else (d2, false)).1 ∧
            ((if (wb && wp && decide (hint = sortedHint.increasingHint)) = true then
              partialInsertionSort_func (keyLess k) d2 a b else (d2, false)).2 = true →
              SortedOn k a b
                (if (wb && wp && decide (hint = sortedHint.increasingHint)) = true then
                  partialInsertionSort_func (keyLess k) d2 a b else (d2, false)).1) := by
          split
          · exact partialInsertionSort_func_spec k a b d2 (by omega) hlen2 hlb2
          · exact ⟨Reach.refl d2, fun h => Bool.noConfusion h⟩
        generalize (if (wb && wp && decide (hint = sortedHint.increasingHint)) = true then
          partialInsertionSort_func (keyLess k) d2 a b else (d2, false)) = tried at htried ⊢
        obtain ⟨d3, sorted⟩ := tried
        simp only at htried ⊢
        have hr3 : Reach a b d d3 := hr12.trans htried.1
        have hlen3 : b ≤ d3.length := by
          rw [hr3.length_eq]
          exact hlen
        have hlb3 : LowerBound k a b d3 := hlb.reach k hr3
        by_cases hsorted : sorted = true
        · simp only [hsorted, if_true]
          exact ⟨d3, rfl, hr3, htried.2 hsorted⟩
        · simp only [hsorted, if_false]
          by_cases heq : (decide (0 < a) && !Less (keyLess k) d3 (a - 1) pivot) = true
          · simp only [heq, if_true]
            have heq' := heq
            simp only [Bool.and_eq_true, decide_eq_true_eq, Bool.not_eq_true'] at heq'
            have hnl : ¬ keyAt k d3 (a - 1) < keyAt k d3 pivot := by
              intro hlt
              have := Less_eq_true k d3 (a - 1) pivot (by omega) (by omega) hlt
              rw [this] at heq'
              exact Bool.noConfusion heq'.2
            obtain ⟨q1, q2, q3, q4, q5⟩ := partitionEqual_func_spec k a b pivot d3 (by omega)
              hlen3 hpiv.1 hpiv.2
            generalize partitionEqual_func (keyLess k) d3 a b pivot = r at q1 q2 q3 q4 q5 ⊢
            have hlenr : b ≤ r.1.length := by
              rw [q1.length_eq]
              exact hlen3
            obtain ⟨out, e1, e2, e3⟩ := ih r.1 r.2 b limit1 wb wp hlenr (by omega)
              (LowerBound_after_equal k a b r.2 (keyAt k d3 pivot) r.1 q2 q4 q5)
            obtain ⟨f1, f2⟩ := pdqsort_equal_branch k a b pivot r.2 d3 r.1 out heq'.1 hlb3 hnl
              q1 ⟨q2, q3⟩ q4 q5 e2 e3
            exact ⟨out, e1, hr3.trans f1, f2⟩
          · simp only [heq, if_false]
            obtain ⟨q1, q2, q3, q4, q5, q6⟩ := partition_func_spec k a b pivot d3 (by omega)
              hlen3 hpiv.1 hpiv.2
            have hpart : PartitionedAt k a b (partition_func (keyLess k) d3 a b pivot).2.1
                (keyAt k d3 pivot) (partition_func (keyLess k) d3 a b pivot).1 := ⟨q4, q5, q6⟩
            generalize keyAt k d3 pivot = P at hpart
            clear q4 q5 q6
            generalize partition_func (keyLess k) d3 a b pivot = r at q1 q2 q3 hpart ⊢
            obtain ⟨r1, mid, flag⟩ := r
            simp only at q1 q2 q3 hpart ⊢
            have hlenr : b ≤ r1.length := by
              rw [q1.length_eq]
              exact hlen3
            have hlbr : LowerBound k a b r1 := hlb3.reach k q1
            by_cases hside : mid - a < b - mid
            · simp only [hside, if_true]
              obtain ⟨o1, e1, e2, e3⟩ := ih r1 a mid limit1 true true (by omega) (by omega)
                (LowerBound_sides k a b mid P r1 hlbr ⟨q2, q3⟩ hpart.1 hpart.2.2).1
              rw [e1]
              simp only
              have hpart1 := hpart.reach_left k e2
              have hlb1 : LowerBound k a b o1 :=
                hlbr.reach k (e2.mono (Nat.le_refl a) (by omega))
              have hleno : b ≤ o1.length := by
                rw [e2.length_eq]
                exact hlenr
              obtain ⟨o2, g1, g2, g3⟩ := ih o1 (mid + 1) b limit1
                (decide ((b - a) / 8 ≤ mid - a)) flag hleno (by omega)
                (LowerBound_sides k a b mid P o1 hlb1 ⟨q2, q3⟩ hpart1.1 hpart1.2.2).2
              obtain ⟨f1, f2⟩ := pdqsort_sides k a b mid P r1 o1 o2 a mid (mid + 1) b
                (Or.inl ⟨rfl, rfl, rfl, rfl⟩) ⟨q2, q3⟩ hpart.1 hpart.2.1 hpart.2.2 e2 e3 g2 g3
              exact ⟨o2, g1, hr3.trans (q1.trans f1), f2⟩
            · simp only [hside, if_false]
              obtain ⟨o1, e1, e2, e3⟩ := ih r1 (mid + 1) b limit1 true true hlenr (by omega)
                (LowerBound_sides k a b mid P r1 hlbr ⟨q2, q3⟩ hpart.1 hpart.2.2).2
              rw [e1]
              simp only
              have hpart1 := hpart.reach_right k e2
              have hlb1 : LowerBound k a b o1 :=
                hlbr.reach k (e2.mono (by omega) (Nat.le_refl b))
              have hleno : b ≤ o1.length := by
                rw [e2.length_eq]
                exact hlenr
              obtain ⟨o2, g1, g2, g3⟩ := ih o1 a mid limit1
                (decide ((b - a) / 8 ≤ b - mid)) flag (by omega) (by omega)
                (LowerBound_sides k a b mid P o1 hlb1 ⟨q2, q3⟩ hpart1.1 hpart1.2.2).1
              obtain ⟨f1, f2⟩ := pdqsort_sides k a b mid P r1 o1 o2 (mid + 1) b a mid
                (Or.inr ⟨rfl, rfl, rfl, rfl⟩) ⟨q2, q3⟩ hpart.1 hpart.2.1 hpart.2.2 e2 e3 g2 g3
              exact ⟨o2, g1, hr3.trans (q1.trans f1), f2⟩

end sort

namespace sort

variable {α : Type}

/-- The key at an index of the slice. -/
theorem keyAt_eq (k : α → Int) (d : List α) (i : Nat) (hi : i < d.length) :
    keyAt k d i = k (d.get ⟨i, hi⟩) := by
  simp [keyAt, List.getElem?_eq_getElem hi]

/-- Go's `sort.Slice` with a comparison by key: it returns, whatever the generator of
`breakPatterns_func`, and its result is a rearrangement of the slice in which no element is
less than an earlier one. -/
theorem Slice_sorts (next : Nat → Nat) (k : α → Int) (x : List α) :
    ∃ out, Slice next (keyLess k) x = some out ∧ out.Perm x ∧
      out.Pairwise (fun p q => keyLess k q p = false) := by
  obtain ⟨out, h1, h2, h3⟩ := pdqsort_func_spec next k (x.length + 1) x 0 x.length
    (bitsLen x.length) true true (Nat.le_refl _) (by omega) (by intro h; omega)
  refine ⟨out, h1, h2.perm, ?_⟩
  rw [List.pairwise_iff_get]
  intro i j hij
  have hlen := h2.length_eq
  have hs := h3 i.1 j.1 (Nat.zero_le _) hij (by rw [← hlen]; exact j.2)
  rw [keyAt_eq k out i.1 i.2, keyAt_eq k out j.1 j.2] at hs
  simp only [keyLess, decide_eq_false_iff_not, not_lt]
  exact hs

/-- A range of at most twelve elements is sorted by insertion, whatever the other arguments. -/
theorem pdqsort_func_short (next : Nat → Nat) (less : α → α → Bool) (fuel : Nat)
    (d : List α) (a b limit : Nat) (wb wp : Bool) (h : b - a ≤ 12) :
    pdqsort_func next less (fuel + 1) d a b limit wb wp
      = some (insertionSort_func less d a b) := by
  rw [pdqsort_func]
  simp only [h, if_true]

end sort

namespace sort

variable {α : Type}

/-- An exchange of two neighbours that `Less` tells apart leaves the elements of any one key
in their order. -/
theorem filter_Swap_of_Less (k : α → Int) (n : Int) : ∀ (d : List α) (j : Nat),
    Less (keyLess k) d (j + 1) j = true →
    (Swap d (j + 1) j).filter (fun x => decide (k x = n))
      = d.filter (fun x => decide (k x = n)) := by
  intro d
  induction d with
  | nil =>
    intro j _
    simp [Swap]
  | cons x t ih =>
    intro j h
    cases j with
    | zero =>
      cases t with
      | nil => simp [Less] at h
      | cons y r =>
        have hlt : k y < k x := by
          simpa [Less, keyLess] using h
        have hswap : Swap (x :: y :: r) (0 + 1) 0 = y :: x :: r := by
          simp [Swap]
        rw [hswap]
        by_cases hx : k x = n
        · have hy : ¬ k y = n := by omega
          simp [List.filter_cons, hx, hy]
        · by_cases hy : k y = n
          · simp [List.filter_cons, hx, hy]
          · simp [List.filter_cons, hx, hy]
    | succ j =>
      have hless : Less (keyLess k) t (j + 1) j = true := by
        simpa [Less] using h
      have hswap : Swap (x :: t) (j + 1 + 1) (j + 1) = x :: Swap t (j + 1) j := by
        simp only [Swap, List.getElem?_cons_succ]
        cases t[j + 1]? with
        | none => rfl
        | some u =>
          cases t[j]? with
          | none => rfl
          | some v => simp [List.set_cons_succ]
      rw [hswap, List.filter_cons, List.filter_cons, ih j hless]

/-- The inner loop of `insertionSort_func` leaves the elements of any one key in their
order. -/
theorem insertionShift_filter (k : α → Int) (a : Nat) (n : Int) : ∀ (j : Nat) (d : List α),
    (insertionShift (keyLess k) a j d).filter (fun x => decide (k x = n))
      = d.filter (fun x => decide (k x = n)) := by
  intro j
  induction j with
  | zero =>
    intro d
    rw [insertionShift]
  | succ j ih =>
    intro d
    rw [insertionShift]
    by_cases hc : (decide (a < j + 1) && Less (keyLess k) d (j + 1) j) = true
    · rw [if_pos hc, ih]
      have hless : Less (keyLess k) d (j + 1) j = true := by
        simp only [Bool.and_eq_true] at hc
        exact hc.2
      exact filter_Swap_of_Less k n d j hless
    · rw [if_neg hc]

/-- The outer loop of `insertionSort_func` leaves the elements of any one key in their
order. -/
theorem insertionLoop_filter (k : α → Int) (a b : Nat) (n : Int) :
    ∀ (m i : Nat) (d : List α),
    (insertionLoop (keyLess k) a b m i d).filter (fun x => decide (k x = n))
      = d.filter (fun x => decide (k x = n)) := by
  intro m
  induction m with
  | zero =>
    intro i d
    rw [insertionLoop]
  | succ m ih =>
    intro i d
    rw [insertionLoop]
    by_cases hc : i < b
    · rw [if_pos hc, ih, insertionShift_filter]
    · rw [if_neg hc]

/-- Go's `insertionSort_func` is stable: the elements of any one key keep their order. -/
theorem insertionSort_func_filter (k : α → Int) (d : List α) (a b : Nat) (n : Int) :
    (insertionSort_func (keyLess k) d a b).filter (fun x => decide (k x = n))
      = d.filter (fun x => decide (k x = n)) := by
  unfold insertionSort_func
  exact insertionLoop_filter k a b n _ _ d

/-- On a slice of at most twelve elements `sort.Slice` is one insertion sort. -/
theorem Slice_short (next : Nat → Nat) (less : α → α → Bool) (x : List α)
    (h : x.length ≤ 12) :
    Slice next less x = some (insertionSort_func less x 0 x.length) := by
  unfold Slice
  exact pdqsort_func_short next less x.length x 0 x.length _ true true (by omega)

end sort

/-! ## Trimming -/

/-- Trimming on the right does not undo a trim on the left that followed a trim on the
right: the last character is already outside the cutset. -/
theorem rdropWhile_dropWhile_rdropWhile {α : Type} (p : α → Bool) (l : List α) :
    List.rdropWhile p (List.dropWhile p (List.rdropWhile p l))
      = List.dropWhile p (List.rdropWhile p l) := by
  rw [List.rdropWhile_eq_self_iff]
  intro hne
  have hsuf : List.dropWhile p (List.rdropWhile p l) <:+ List.rdropWhile p l :=
    List.dropWhile_suffix p
  have hne2 : List.rdropWhile p l ≠ [] := by
    intro h
    rw [h] at hne
    exact hne rfl
  have hlast := List.rdropWhile_last_not p l hne2
  rwa [← hsuf.getLast hne] at hlast

/-- `strings.Trim` is idempotent in its first argument. -/
theorem Trim_Trim (s cutset : String) : Trim (Trim s cutset) cutset = Trim s cutset := by
  simp only [Trim, TrimLeft, TrimRight]
  rw [rdropWhile_dropWhile_rdropWhile, List.dropWhile_idempotent]

/-- A string that neither starts nor ends with the character `c` is left alone by
`strings.Trim(s, c)`. -/
theorem Trim_eq_self (s : String) (c : Char) (hfirst : s.data.head? ≠ some c)
    (hlast : s.data.getLast? ≠ some c) : Trim s (String.singleton c) = s := by
  obtain ⟨l⟩ := s
  simp only [Trim, TrimLeft, TrimRight]
  congr 1
  have e1 : List.rdropWhile (fun x => (String.singleton c).data.contains x) l = l := by
    rw [List.rdropWhile_eq_self_iff]
    intro hl
    simp [String.singleton] at *
    intro h
    apply hlast
    rw [List.getLast?_eq_getLast _ hl, h]
  rw [e1, List.dropWhile_eq_self_iff]
  intro hl
  cases l with
  | nil => simp at hl
  | cons a t =>
    simp [String.singleton] at *
    exact hfirst

/-- C3. ETag normalization, the `strings.Trim(part.ETag, "\"")` of the conversion loop, is
idempotent; it leaves every ETag that neither starts nor ends with a double quote unchanged;
and both the quoted `"abc"` and the bare `abc` normalize to `abc`. -/
theorem convertPart_idempotent :
    (∀ part : oss.UploadPart, convertPart (convertPart part) = convertPart part) ∧
    (∀ part : oss.UploadPart, part.ETag.data.head? ≠ some '"' →
      part.ETag.data.getLast? ≠ some '"' → convertPart part = part) ∧
    (∀ n : Int, convertPart ⟨n, "\"abc\""⟩ = ⟨n, "abc"⟩ ∧ convertPart ⟨n, "abc"⟩ = ⟨n, "abc"⟩) := by
  refine ⟨?_, ?_, ?_⟩
  · intro part
    simp only [convertPart, Trim_Trim]
  · intro part h1 h2
    obtain ⟨n, e⟩ := part
    simp only [convertPart]
    congr 1
    exact Trim_eq_self e '"' h1 h2
  · intro n
    constructor <;> simp only [convertPart] <;> congr 1

/-- C3 at concrete ETags: an unquoted ETag with a quote inside is a fixed point, and a doubly
quoted one is normalized in one step. -/
theorem convertPart_idempotent_witness :
    convertPart ⟨7, "a\"b"⟩ = ⟨7, "a\"b"⟩ ∧
      convertPart (convertPart ⟨7, "\"\"abc\"\""⟩) = convertPart ⟨7, "\"\"abc\"\""⟩ ∧
      convertPart ⟨7, "\"\"abc\"\""⟩ = ⟨7, "abc"⟩ :=
  ⟨convertPart_idempotent.2.1 ⟨7, "a\"b"⟩ (by decide) (by decide),
    convertPart_idempotent.1 ⟨7, "\"\"abc\"\""⟩, by decide⟩

/-! ## Decimal text -/

/-- The character of a decimal digit is a digit and carries the digit's value. -/
theorem digit_char (d : Nat) (hd : d < 10) :
    (Char.ofNat (48 + d)).isDigit = true ∧ (Char.ofNat (48 + d)).toNat - 48 = d ∧
      Char.ofNat (48 + d) ≠ '-' ∧ Char.ofNat (48 + d) ≠ '_' := by
  interval_cases d <;> decide

/-- Appending one digit to a string of digits. -/
theorem digitsValue_append_singleton (ds : List Char) (c : Char) :
    digitsValue (ds ++ [c]) = digitsValue ds * 10 + (c.toNat - 48) := by
  simp [digitsValue, List.foldl_append]

/-- With enough fuel, the digit loop puts in front of `acc` a non-empty string of digits
whose value is `u`. -/
theorem formatBits_spec (fuel : Nat) : ∀ (u : Nat) (acc : List Char), u < 10 ^ (fuel + 1) →
    ∃ ds : List Char, formatBits (fuel + 1) u acc = ds ++ acc ∧ ds ≠ [] ∧
      (∀ c ∈ ds, c.isDigit = true ∧ c ≠ '-' ∧ c ≠ '_') ∧ digitsValue ds = u := by
  induction fuel with
  | zero =>
    intro u acc h
    have hu : u < 10 := by simpa using h
    have h10 : ¬ 10 ≤ u := by omega
    obtain ⟨c1, c2, c3, c4⟩ := digit_char u hu
    refine ⟨[Char.ofNat (48 + u)], ?_, ?_, ?_, ?_⟩
    · simp only [formatBits, h10, if_false, List.singleton_append]
    · simp
    · intro c hc
      rw [List.mem_singleton] at hc
      subst hc
      exact ⟨c1, c3, c4⟩
    · simp [digitsValue, c2]
  | succ n ih =>
    intro u acc h
    by_cases h10 : 10 ≤ u
    · have hq : u / 10 < 10 ^ (n + 1) := by
        rw [Nat.div_lt_iff_lt_mul (by norm_num)]
        rw [pow_succ] at h
        exact h
      obtain ⟨ds, hds, hne, hdig, hval⟩ := ih (u / 10) (Char.ofNat (48 + u % 10) :: acc) hq
      have hm : u % 10 < 10 := Nat.mod_lt _ (by norm_num)
      obtain ⟨c1, c2, c3, c4⟩ := digit_char (u % 10) hm
      refine ⟨ds ++ [Char.ofNat (48 + u % 10)], ?_, ?_, ?_, ?_⟩
      · rw [formatBits]
        simp only [h10, if_true, hds, List.append_assoc, List.singleton_append]
      · simp
      · intro c hc
        rcases List.mem_append.1 hc with hc | hc
        · exact hdig c hc
        · rw [List.mem_singleton] at hc
          subst hc
          exact ⟨c1, c3, c4⟩
      · rw [digitsValue_append_singleton, hval, c2]
        omega
    · have hu : u < 10 := by omega
      obtain ⟨c1, c2, c3, c4⟩ := digit_char u hu
      refine ⟨[Char.ofNat (48 + u)], ?_, ?_, ?_, ?_⟩
      · rw [formatBits]
        simp only [h10, if_false, List.singleton_append]
      · simp
      · intro c hc
        rw [List.mem_singleton] at hc
        subst hc
        exact ⟨c1, c3, c4⟩
      · simp [digitsValue, c2]

/-- The digits of a natural number, as `Itoa` writes them. -/
theorem formatBits_natAbs (u : Nat) :
    ∃ ds : List Char, formatBits (u + 1) u [] = ds ∧ ds ≠ [] ∧
      (∀ c ∈ ds, c.isDigit = true ∧ c ≠ '-' ∧ c ≠ '_') ∧ digitsValue ds = u := by
  have hlt : u < 10 ^ (u + 1) :=
    lt_of_lt_of_le (Nat.lt_pow_self (by norm_num : 1 < 10) u) (Nat.pow_le_pow_right (by norm_num) (Nat.le_succ u))
  obtain ⟨ds, h1, h2, h3, h4⟩ := formatBits_spec u u [] hlt
  exact ⟨ds, by simpa using h1, h2, h3, h4⟩

/-- The decimal text of an integer contains no underscore. -/
theorem Itoa_no_underscore (i : Int) : '_' ∉ (Itoa i).data := by
  obtain ⟨ds, h1, _, h3, _⟩ := formatBits_natAbs i.natAbs
  unfold Itoa
  by_cases hneg : i < 0
  · simp only [hneg, if_true, h1]
    intro hmem
    rcases List.mem_cons.1 hmem with h | h
    · exact absurd h (by decide)
    · exact (h3 _ h).2.2 rfl
  · simp only [hneg, if_false, h1]
    intro hmem
    exact (h3 _ hmem).2.2 rfl

/-- Distinct integers have distinct decimal texts. -/
theorem Itoa_injective (i j : Int) (h : Itoa i = Itoa j) : i = j := by
  obtain ⟨ds, h1, hne, h3, h4⟩ := formatBits_natAbs i.natAbs
  obtain ⟨es, k1, kne, k3, k4⟩ := formatBits_natAbs j.natAbs
  unfold Itoa at h
  rw [h1, k1] at h
  have hd := congrArg String.data h
  simp only at hd
  by_cases hi : i < 0 <;> by_cases hj : j < 0
  · simp only [hi, hj, if_true] at hd
    have hde : ds = es := by simpa using hd
    have hn : i.natAbs = j.natAbs := by rw [← h4, ← k4, hde]
    omega
  · simp only [hi, hj, if_true, if_false] at hd
    cases es with
    | nil => exact absurd rfl kne
    | cons e es =>
      have he : '-' = e := by
        injection hd
      exact absurd he.symm (k3 e (List.mem_cons_self _ _)).2.1
  · simp only [hi, hj, if_true, if_false] at hd
    cases ds with
    | nil => exact absurd rfl hne
    | cons d ds =>
      have he : d = '-' := by
        injection hd
      exact absurd he (h3 d (List.mem_cons_self _ _)).2.1
  · simp only [hi, hj, if_false] at hd
    subst hd
    omega

/-- Splitting at a separator that occurs in neither left part is unambiguous. -/
theorem append_sep_inj {α : Type} (c : α) (l1 l2 r1 r2 : List α) (h1 : c ∉ l1) (h2 : c ∉ l2)
    (h : l1 ++ c :: r1 = l2 ++ c :: r2) : l1 = l2 ∧ r1 = r2 := by
  induction l1 generalizing l2 with
  | nil =>
    cases l2 with
    | nil => simpa using h
    | cons b l2 =>
      simp only [List.nil_append, List.cons_append, List.cons.injEq] at h
      exact absurd (h.1 ▸ List.mem_cons_self b l2) h2
  | cons a l1 ih =>
    cases l2 with
    | nil =>
      simp only [List.nil_append, List.cons_append, List.cons.injEq] at h
      exact absurd (h.1 ▸ List.mem_cons_self a l1) h1
    | cons b l2 =>
      simp only [List.cons_append, List.cons.injEq] at h
      have := ih l2 (fun hm => h1 (List.mem_cons_of_mem _ hm))
        (fun hm => h2 (List.mem_cons_of_mem _ hm)) h.2
      exact ⟨by rw [h.1, this.1], this.2⟩

/-! ## Object keys -/

/-- C5. Same file name plus same nanosecond timestamp is the only way for two generated keys
to collide: when the date components of two calls of `generateObjectKey` are 10 characters
long (the `YYYY_MM_DD` text) and the generated keys are equal, then the two nanosecond
timestamps are equal and the two caller-supplied names are equal (and so are the dates). In
particular the key is injective in the file name for a fixed clock. -/
theorem generateObjectKey_collision (rt rt' : Runtime) (w w' : World) (f1 f2 : String)
    (hdate : (rt.Format (rt.now w.ticks) "2006_01_02").length = 10)
    (hdate' : (rt'.Format (rt'.now w'.ticks) "2006_01_02").length = 10)
    (hkey : (generateObjectKey rt f1 w).1 = (generateObjectKey rt' f2 w').1) :
    (rt.now (w.ticks + 1)).UnixNano = (rt'.now (w'.ticks + 1)).UnixNano ∧ f1 = f2 ∧
      rt.Format (rt.now w.ticks) "2006_01_02" = rt'.Format (rt'.now w'.ticks) "2006_01_02" := by
  simp only [generateObjectKey, Now] at hkey
  have hdata := congrArg String.data hkey
  simp only [String.data_append, List.append_assoc] at hdata
  have h1 := List.append_cancel_left hdata
  have hlen : (rt.Format (rt.now w.ticks) "2006_01_02").data.length
      = (rt'.Format (rt'.now w'.ticks) "2006_01_02").data.length := by
    have e1 : (rt.Format (rt.now w.ticks) "2006_01_02").data.length = 10 := hdate
    have e2 : (rt'.Format (rt'.now w'.ticks) "2006_01_02").data.length = 10 := hdate'
    rw [e1, e2]
  obtain ⟨hd, h2⟩ := List.append_inj h1 hlen
  have h3 := List.append_cancel_left h2
  have h4 : (Itoa (rt.now (w.ticks + 1)).UnixNano).data ++ '_' :: f1.data
      = (Itoa (rt'.now (w'.ticks + 1)).UnixNano).data ++ '_' :: f2.data := h3
  obtain ⟨hn, hf⟩ := append_sep_inj '_' _ _ _ _ (Itoa_no_underscore _) (Itoa_no_underscore _) h4
  refine ⟨?_, ?_, ?_⟩
  · exact Itoa_injective _ _ (String.ext hn)
  · exact String.ext hf
  · exact String.ext hd

/-- C5 at two concrete calls that generate the same key: the first call starts at a fresh
request, the second after one earlier clock reading on a clock set one microsecond back. -/
theorem generateObjectKey_collision_witness :
    (generateObjectKey (utcRuntime 1700000025000000000) "a_b.txt" World.init).1
        = "uploads/2023_11_14/1700000025000001000_a_b.txt" ∧
      (((utcRuntime 1700000025000000000).now (World.init.ticks + 1)).UnixNano
          = ((utcRuntime 1700000024999999000).now ((⟨1, []⟩ : World).ticks + 1)).UnixNano ∧
        "a_b.txt" = "a_b.txt" ∧
        (utcRuntime 1700000025000000000).Format
            ((utcRuntime 1700000025000000000).now World.init.ticks) "2006_01_02"
          = (utcRuntime 1700000024999999000).Format
            ((utcRuntime 1700000024999999000).now (⟨1, []⟩ : World).ticks) "2006_01_02") :=
  ⟨by decide,
    generateObjectKey_collision (utcRuntime 1700000025000000000)
      (utcRuntime 1700000024999999000) World.init ⟨1, []⟩ "a_b.txt" "a_b.txt"
      (by decide) (by decide) (by decide)⟩

/-! ## The commit call of `CompleteMultipartUpload` -/

/-- The calls `GeneratePublicURL` adds to the log contain no commit call. -/
theorem GeneratePublicURL_committed (o : OSSClient) (rt : Runtime) (objectKey : String)
    (exp : Duration) (w : World) :
    committed (o.GeneratePublicURL rt objectKey exp w).2.calls = committed w.calls := by
  unfold OSSClient.GeneratePublicURL
  simp only [Now, World.record]
  split <;> simp [committed, commitParts]

/-- The commit call of `CompleteMultipartUpload`: exactly one, and its part list is the
sorted input with every part converted. -/
theorem CompleteMultipartUpload_committed (o : OSSClient) (rt : Runtime)
    (uploadID objectKey : String) (parts : List oss.UploadPart) (w : World) :
    committed (o.CompleteMultipartUpload rt uploadID objectKey parts w).2.calls
      = committed w.calls ++ [((sort.Slice rt.xorshift less parts).getD parts).map convertPart] := by
  unfold OSSClient.CompleteMultipartUpload
  simp only
  split
  · simp [committed, commitParts, World.record]
  · split
    · rename_i err w2 heq
      have h := GeneratePublicURL_committed o rt objectKey (Second * 10)
        (w.record (oss.Call.CompleteMultipartUpload
          { Bucket := o.config.BucketName, Key := objectKey, UploadID := uploadID }
          (((sort.Slice rt.xorshift less parts).getD parts).map convertPart)))
      rw [heq] at h
      simp only at h
      rw [h]
      simp [committed, commitParts, World.record]
    · rename_i publicURL w2 heq
      have h := GeneratePublicURL_committed o rt objectKey (Second * 10)
        (w.record (oss.Call.CompleteMultipartUpload
          { Bucket := o.config.BucketName, Key := objectKey, UploadID := uploadID }
          (((sort.Slice rt.xorshift less parts).getD parts).map convertPart)))
      rw [heq] at h
      simp only at h
      rw [h]
      simp [committed, commitParts, World.record]

/-- The standard library's `sort.Slice` keeps its promise on every list of parts, with the
comparison of `CompleteMultipartUpload` and whatever the generator. -/
theorem Slice_post (next : Nat → Nat) (x : List oss.UploadPart) :
    SortSlicePost less x ((sort.Slice next less x).getD x) := by
  obtain ⟨out, h1, h2, h3⟩ := sort.Slice_sorts next (fun p : oss.UploadPart => p.PartNumber) x
  have hless : sort.keyLess (fun p : oss.UploadPart => p.PartNumber) = less := rfl
  rw [hless] at h1 h3
  rw [h1]
  exact ⟨h2, h3⟩

/-- C1. For every upload id, object key and list of parts given to
`OSSClient.CompleteMultipartUpload`, the part list handed to the provider's commit call has
the length of the input, is ordered by non-decreasing part number, and is a permutation of
the input parts in which each part keeps its part number and has its ETag replaced by
`strings.Trim(eTag, "\"")`. -/
theorem CompleteMultipartUpload_commits_sorted_parts (o : OSSClient) (rt : Runtime)
    (uploadID objectKey : String) (parts : List oss.UploadPart) (w : World) :
    ∃ ps : List oss.UploadPart,
      committed (o.CompleteMultipartUpload rt uploadID objectKey parts w).2.calls
        = committed w.calls ++ [ps] ∧
      ps.length = parts.length ∧
      ps.Pairwise (fun p q => p.PartNumber ≤ q.PartNumber) ∧
      ps.Perm (parts.map (fun p => { PartNumber := p.PartNumber, ETag := Trim p.ETag "\"" })) := by
  have hsort := Slice_post rt.xorshift parts
  refine ⟨((sort.Slice rt.xorshift less parts).getD parts).map convertPart,
    CompleteMultipartUpload_committed o rt uploadID objectKey parts w, ?_, ?_, ?_⟩
  · rw [List.length_map]
    exact hsort.1.length_eq
  · rw [List.pairwise_map]
    refine hsort.2.imp ?_
    intro p q h
    simp only [less, decide_eq_false_iff_not, not_lt] at h
    exact h
  · exact hsort.1.map convertPart

/-- The handler `CompleteUpload` hands the parts of the decoded body, with their fields
copied, to `CompleteMultipartUpload`: the commit call receives them sorted and converted. A
body that does not decode is answered 400 without any provider call. -/
theorem CompleteUpload_committed (h : UploadHandler) (rt : Runtime) (c : Context) (w : World) :
    (∀ req : CompleteUploadRequest, c.bindJSON = .ok req →
      committed (h.CompleteUpload rt c w).2.calls
        = committed w.calls ++ [((sort.Slice rt.xorshift less
            (req.Parts.map (fun p => { PartNumber := p.PartNumber, ETag := p.ETag }))).getD
              (req.Parts.map (fun p => { PartNumber := p.PartNumber, ETag := p.ETag }))).map
              convertPart]) ∧
    (∀ err : String, c.bindJSON = .error err →
      h.CompleteUpload rt c w = (⟨400, Body.error err⟩, w)) := by
  constructor
  · intro req hreq
    have hc := CompleteMultipartUpload_committed h.ossClient rt req.UploadID req.ObjectKey
      (req.Parts.map (fun p => { PartNumber := p.PartNumber, ETag := p.ETag })) w
    unfold UploadHandler.CompleteUpload
    simp only [hreq]
    split <;> rename_i heq <;> rw [heq] at hc <;> exact hc
  · intro err herr
    unfold UploadHandler.CompleteUpload
    simp only [herr, StatusBadRequest]

/-! ## Order independence and ties -/

/-- Two sorted rearrangements of lists that are rearrangements of each other, with pairwise
distinct part numbers, are the same list. -/
theorem sorted_unique (l l' s s' : List oss.UploadPart)
    (hnodup : (l.map (fun p => p.PartNumber)).Nodup) (hperm : l'.Perm l)
    (hs : SortSlicePost less l s) (hs' : SortSlicePost less l' s') : s = s' := by
  have hss' : s.Perm s' := hs.1.trans (hperm.symm.trans hs'.1.symm)
  have hnd : (s.map (fun p => p.PartNumber)).Nodup :=
    ((hs.1.map (fun p => p.PartNumber)).nodup_iff).2 hnodup
  have hnd' : (s'.map (fun p => p.PartNumber)).Nodup :=
    ((hss'.map (fun p => p.PartNumber)).nodup_iff).1 hnd
  have strict : ∀ t : List oss.UploadPart, (t.map (fun p => p.PartNumber)).Nodup →
      t.Pairwise (fun p q => less q p = false) →
      t.Pairwise (fun p q => p.PartNumber < q.PartNumber) := by
    intro t ht hp
    have hne : t.Pairwise (fun p q => p.PartNumber ≠ q.PartNumber) := by
      have := ht
      rw [List.Nodup, List.pairwise_map] at this
      exact this
    refine (hp.and hne).imp ?_
    intro p q h
    have hle : p.PartNumber ≤ q.PartNumber := by
      have := h.1
      simp only [less, decide_eq_false_iff_not, not_lt] at this
      exact this
    exact lt_of_le_of_ne hle h.2
  have hanti : IsAntisymm oss.UploadPart (fun p q => p.PartNumber < q.PartNumber) :=
    ⟨fun p q h1 h2 => absurd h1 (not_lt_of_gt h2)⟩
  exact @List.eq_of_perm_of_sorted _ _ hanti _ _ hss' (strict s hnd hs.2) (strict s' hnd' hs'.2)

/-- C2. `CompleteMultipartUpload` is order-independent in its input parts: for every list of
parts with pairwise distinct part numbers and every permutation of it, the sequence of parts
passed to the provider's commit call is the same for the list and for its permutation, and
so is the whole outcome of the call. -/
theorem CompleteMultipartUpload_order_independent (o : OSSClient) (rt : Runtime)
    (uploadID objectKey : String) (l l' : List oss.UploadPart) (w : World)
    (hnodup : (l.map (fun p => p.PartNumber)).Nodup) (hperm : l'.Perm l) :
    committed (o.CompleteMultipartUpload rt uploadID objectKey l w).2.calls
        = committed (o.CompleteMultipartUpload rt uploadID objectKey l' w).2.calls ∧
      o.CompleteMultipartUpload rt uploadID objectKey l w
        = o.CompleteMultipartUpload rt uploadID objectKey l' w := by
  have heq : (sort.Slice rt.xorshift less l).getD l = (sort.Slice rt.xorshift less l').getD l' :=
    sorted_unique l l' _ _ hnodup hperm (Slice_post rt.xorshift l) (Slice_post rt.xorshift l')
  have hall : o.CompleteMultipartUpload rt uploadID objectKey l w
      = o.CompleteMultipartUpload rt uploadID objectKey l' w := by
    unfold OSSClient.CompleteMultipartUpload
    simp only [heq]
  exact ⟨by rw [hall], hall⟩

/-- A rearrangement of a list with pairwise distinct part numbers shows, for every part
number, the same parts in the same order. -/
theorem filter_eq_of_perm_of_nodup (ps qs : List oss.UploadPart) (n : Int)
    (hnodup : (qs.map (fun p => p.PartNumber)).Nodup) (hperm : ps.Perm qs) :
    ps.filter (fun p => decide (p.PartNumber = n)) = qs.filter (fun p => decide (p.PartNumber = n)) := by
  have hpf := hperm.filter (fun p => decide (p.PartNumber = n))
  have short : ∀ t : List oss.UploadPart, (t.map (fun p => p.PartNumber)).Nodup →
      (t.filter (fun p => decide (p.PartNumber = n))).length ≤ 1 := by
    intro t ht
    induction t with
    | nil => simp
    | cons a t ih =>
      rw [List.map_cons, List.nodup_cons] at ht
      by_cases ha : a.PartNumber = n
      · have hnone : t.filter (fun p => decide (p.PartNumber = n)) = [] := by
          rw [List.filter_eq_nil_iff]
          intro b hb hbn
          simp only [decide_eq_true_eq] at hbn
          apply ht.1
          rw [ha, ← hbn]
          exact List.mem_map_of_mem _ hb
        simp [List.filter_cons, ha, hnone]
      · simp only [List.filter_cons, ha, decide_False]
        exact ih ht.2
  have h2 := short qs hnodup
  have h1 : (ps.filter (fun p => decide (p.PartNumber = n))).length ≤ 1 := by
    rw [hpf.length_eq]
    exact h2
  generalize ps.filter (fun p => decide (p.PartNumber = n)) = x at hpf h1
  generalize qs.filter (fun p => decide (p.PartNumber = n)) = y at hpf h2
  match x, y, hpf, h1, h2 with
  | [], _, hpf, _, _ => exact (List.nil_perm.1 hpf).symm
  | [a], _, hpf, _, _ => exact List.singleton_perm.1 hpf
  | _ :: _ :: _, _, _, h1, _ => simp at h1

/-- The function `convertPart` commutes with the selection of the parts of one part number. -/
theorem filter_map_convertPart (l : List oss.UploadPart) (n : Int) :
    (l.map convertPart).filter (fun p => decide (p.PartNumber = n))
      = (l.filter (fun p => decide (p.PartNumber = n))).map convertPart := by
  induction l with
  | nil => rfl
  | cons x t ih =>
    have hx : (convertPart x).PartNumber = x.PartNumber := rfl
    simp only [List.map_cons, List.filter_cons, hx, ih]
    split <;> rfl

/-- C10, as amended. The sort performed by `CompleteMultipartUpload` orders the parts by part
number: for every input list, the sequence handed to the commit call is non-decreasing in
part number and is a rearrangement of the input parts (ETags trimmed). The sort is stable on
every list of at most twelve parts, lists with repeated part numbers included, and on
every list with pairwise distinct part numbers: there, the parts bearing any given part
number appear in the sequence handed to the commit call in the same relative order as in
the input. -/
theorem CompleteMultipartUpload_stable_on_short_lists (o : OSSClient) (rt : Runtime)
    (uploadID objectKey : String) (parts : List oss.UploadPart) (w : World) :
    ∃ ps : List oss.UploadPart,
      committed (o.CompleteMultipartUpload rt uploadID objectKey parts w).2.calls
        = committed w.calls ++ [ps] ∧
      ps.Pairwise (fun p q => p.PartNumber ≤ q.PartNumber) ∧
      ps.Perm (parts.map convertPart) ∧
      ((parts.length ≤ 12 ∨ (parts.map (fun p => p.PartNumber)).Nodup) →
        ∀ n : Int, ps.filter (fun p => decide (p.PartNumber = n))
          = (parts.map convertPart).filter (fun p => decide (p.PartNumber = n))) := by
  have hsort := Slice_post rt.xorshift parts
  refine ⟨((sort.Slice rt.xorshift less parts).getD parts).map convertPart,
    CompleteMultipartUpload_committed o rt uploadID objectKey parts w, ?_, ?_, ?_⟩
  · rw [List.pairwise_map]
    refine hsort.2.imp ?_
    intro p q h
    simp only [less, decide_eq_false_iff_not, not_lt] at h
    exact h
  · exact hsort.1.map convertPart
  · intro hcase n
    rcases hcase with hshort | hnodup
    · have hless : less = sort.keyLess (fun p : oss.UploadPart => p.PartNumber) := rfl
      rw [sort.Slice_short rt.xorshift less parts hshort, Option.getD_some,
        filter_map_convertPart, filter_map_convertPart, hless,
        sort.insertionSort_func_filter (fun p : oss.UploadPart => p.PartNumber) parts 0
          parts.length n]
    · apply filter_eq_of_perm_of_nodup
      · rw [List.map_map]
        exact hnodup
      · exact hsort.1.map convertPart

/-- C1 at a concrete input: two parts out of order, one ETag quoted. -/
theorem CompleteMultipartUpload_commits_sorted_parts_witness :
    committed (okClient.CompleteMultipartUpload (utcRuntime 1700000025000000000) "u" "k"
        [⟨2, "\"x\""⟩, ⟨1, "y"⟩] World.init).2.calls = [[⟨1, "y"⟩, ⟨2, "x"⟩]] ∧
      ∃ ps : List oss.UploadPart,
        committed (okClient.CompleteMultipartUpload (utcRuntime 1700000025000000000) "u" "k"
          [⟨2, "\"x\""⟩, ⟨1, "y"⟩] World.init).2.calls = committed World.init.calls ++ [ps] ∧
        ps.length = [(⟨2, "\"x\""⟩ : oss.UploadPart), ⟨1, "y"⟩].length ∧
        ps.Pairwise (fun p q => p.PartNumber ≤ q.PartNumber) ∧
        ps.Perm ([(⟨2, "\"x\""⟩ : oss.UploadPart), ⟨1, "y"⟩].map
          (fun p => { PartNumber := p.PartNumber, ETag := Trim p.ETag "\"" })) :=
  ⟨by decide,
    CompleteMultipartUpload_commits_sorted_parts okClient (utcRuntime 1700000025000000000)
      "u" "k" [⟨2, "\"x\""⟩, ⟨1, "y"⟩] World.init⟩

/-- C2 at a concrete input: three parts and a rotation of them. -/
theorem CompleteMultipartUpload_order_independent_witness :
    committed (okClient.CompleteMultipartUpload (utcRuntime 1700000025000000000) "u" "k"
        [⟨2, "b"⟩, ⟨1, "a"⟩, ⟨3, "c"⟩] World.init).2.calls = [[⟨1, "a"⟩, ⟨2, "b"⟩, ⟨3, "c"⟩]] ∧
      (committed (okClient.CompleteMultipartUpload (utcRuntime 1700000025000000000) "u" "k"
          [⟨2, "b"⟩, ⟨1, "a"⟩, ⟨3, "c"⟩] World.init).2.calls
        = committed (okClient.CompleteMultipartUpload (utcRuntime 1700000025000000000) "u" "k"
          [⟨3, "c"⟩, ⟨2, "b"⟩, ⟨1, "a"⟩] World.init).2.calls ∧
      okClient.CompleteMultipartUpload (utcRuntime 1700000025000000000) "u" "k"
          [⟨2, "b"⟩, ⟨1, "a"⟩, ⟨3, "c"⟩] World.init
        = okClient.CompleteMultipartUpload (utcRuntime 1700000025000000000) "u" "k"
          [⟨3, "c"⟩, ⟨2, "b"⟩, ⟨1, "a"⟩] World.init) :=
  ⟨by decide,
    CompleteMultipartUpload_order_independent okClient (utcRuntime 1700000025000000000)
      "u" "k" [⟨2, "b"⟩, ⟨1, "a"⟩, ⟨3, "c"⟩] [⟨3, "c"⟩, ⟨2, "b"⟩, ⟨1, "a"⟩] World.init
      (by decide) (by decide)⟩

/-- The run of `sort.Slice` on the thirteen parts of `repeatedParts`: the pivot is the part at
index 6, the partition puts it at index 7, and the two sides, of seven and five parts, are
sorted by insertion; the generator is never asked for a number. -/
theorem Slice_repeatedParts (next : Nat → Nat) :
    sort.Slice next less repeatedParts
      = some [⟨0, "m"⟩, ⟨1, "b"⟩, ⟨1, "c"⟩, ⟨1, "d"⟩, ⟨1, "e"⟩, ⟨1, "f"⟩, ⟨1, "a"⟩, ⟨2, "g"⟩,
              ⟨3, "i"⟩, ⟨3, "j"⟩, ⟨3, "k"⟩, ⟨3, "l"⟩, ⟨3, "h"⟩] := by
  have hph : sort.choosePivot_func less repeatedParts 0 13
      = (6, sort.sortedHint.increasingHint) := by decide
  have htry : sort.partialInsertionSort_func less repeatedParts 0 13
      = (repeatedParts, false) := by decide
  have hpart : (sort.partition_func less repeatedParts 0 13 6).2 = (7, false) := by decide
  have hfin : sort.insertionSort_func less
      (sort.insertionSort_func less (sort.partition_func less repeatedParts 0 13 6).1 8 13) 0 7
        = [⟨0, "m"⟩, ⟨1, "b"⟩, ⟨1, "c"⟩, ⟨1, "d"⟩, ⟨1, "e"⟩, ⟨1, "f"⟩, ⟨1, "a"⟩, ⟨2, "g"⟩,
            ⟨3, "i"⟩, ⟨3, "j"⟩, ⟨3, "k"⟩, ⟨3, "l"⟩, ⟨3, "h"⟩] := by decide
  have hlim : sort.bitsLen 13 ≠ 0 := by
    unfold sort.bitsLen
    rw [if_neg (by decide)]
    exact Nat.succ_ne_zero _
  unfold sort.Slice
  rw [show repeatedParts.length = 13 from rfl]
  rw [sort.pdqsort_func]
  simp only [Bool.not_true, Bool.false_eq_true, if_false, hph]
  simp [htry, hpart]
  rw [sort.pdqsort_func_short next less 12 _ 8 13 _ true true (by decide)]
  simp only []
  rw [sort.pdqsort_func_short next less 12 _ 0 7 _ _ false (by decide), hfin,
    if_neg hlim]

/-- C10 as stated fails: on thirteen parts with repeated part numbers `sort.Slice` returns,
whatever the generator, a sorted rearrangement in which the six parts numbered 1 come in the
order b, c, d, e, f, a and the five parts numbered 3 in the order i, j, k, l, h; that is the
sequence handed to the commit call, so no sequence handed to it keeps the parts of every
part number in their order of arrival. -/
theorem CompleteMultipartUpload_reorders_equal_parts :
    (∀ next : Nat → Nat, sort.Slice next less repeatedParts
        = some [⟨0, "m"⟩, ⟨1, "b"⟩, ⟨1, "c"⟩, ⟨1, "d"⟩, ⟨1, "e"⟩, ⟨1, "f"⟩, ⟨1, "a"⟩, ⟨2, "g"⟩,
                ⟨3, "i"⟩, ⟨3, "j"⟩, ⟨3, "k"⟩, ⟨3, "l"⟩, ⟨3, "h"⟩]) ∧
      committed (okClient.CompleteMultipartUpload (utcRuntime 1700000025000000000) "u" "k"
          repeatedParts World.init).2.calls
        = [[⟨0, "m"⟩, ⟨1, "b"⟩, ⟨1, "c"⟩, ⟨1, "d"⟩, ⟨1, "e"⟩, ⟨1, "f"⟩, ⟨1, "a"⟩, ⟨2, "g"⟩,
            ⟨3, "i"⟩, ⟨3, "j"⟩, ⟨3, "k"⟩, ⟨3, "l"⟩, ⟨3, "h"⟩]] ∧
      (repeatedParts.map convertPart).filter (fun p => decide (p.PartNumber = 1))
        = [⟨1, "a"⟩, ⟨1, "b"⟩, ⟨1, "c"⟩, ⟨1, "d"⟩, ⟨1, "e"⟩, ⟨1, "f"⟩] ∧
      ¬ ∃ ps : List oss.UploadPart,
        committed (okClient.CompleteMultipartUpload (utcRuntime 1700000025000000000) "u" "k"
          repeatedParts World.init).2.calls = committed World.init.calls ++ [ps] ∧
        ∀ n : Int, ps.filter (fun p => decide (p.PartNumber = n))
          = (repeatedParts.map convertPart).filter (fun p => decide (p.PartNumber = n)) := by
  have hcalls : committed (okClient.CompleteMultipartUpload (utcRuntime 1700000025000000000)
      "u" "k" repeatedParts World.init).2.calls
        = [[⟨0, "m"⟩, ⟨1, "b"⟩, ⟨1, "c"⟩, ⟨1, "d"⟩, ⟨1, "e"⟩, ⟨1, "f"⟩, ⟨1, "a"⟩, ⟨2, "g"⟩,
            ⟨3, "i"⟩, ⟨3, "j"⟩, ⟨3, "k"⟩, ⟨3, "l"⟩, ⟨3, "h"⟩]] := by decide
  refine ⟨Slice_repeatedParts, hcalls, by decide, ?_⟩
  rintro ⟨ps, hps, hfilter⟩
  rw [hcalls] at hps
  have hps' : ps = [⟨0, "m"⟩, ⟨1, "b"⟩, ⟨1, "c"⟩, ⟨1, "d"⟩, ⟨1, "e"⟩, ⟨1, "f"⟩, ⟨1, "a"⟩,
      ⟨2, "g"⟩, ⟨3, "i"⟩, ⟨3, "j"⟩, ⟨3, "k"⟩, ⟨3, "l"⟩, ⟨3, "h"⟩] := by
    have := hps
    simp only [committed, World.init, List.filterMap_nil, List.nil_append,
      List.cons.injEq, and_true] at this
    exact this.symm
  have h1 := hfilter 1
  rw [hps'] at h1
  revert h1
  decide

/-- C10 as amended, at a concrete input of five parts with repeated part numbers, one ETag
quoted: the commit call receives the parts sorted, those of part number 1 in the order a, b,
c of the input and those of part number 2 in the order x, y. -/
theorem CompleteMultipartUpload_stable_on_short_lists_witness :
    committed (okClient.CompleteMultipartUpload (utcRuntime 1700000025000000000) "u" "k"
        [⟨2, "x"⟩, ⟨1, "\"a\""⟩, ⟨1, "b"⟩, ⟨2, "y"⟩, ⟨1, "c"⟩] World.init).2.calls
      = [[⟨1, "a"⟩, ⟨1, "b"⟩, ⟨1, "c"⟩, ⟨2, "x"⟩, ⟨2, "y"⟩]] ∧
    ∃ ps : List oss.UploadPart,
      committed (okClient.CompleteMultipartUpload (utcRuntime 1700000025000000000) "u" "k"
        [⟨2, "x"⟩, ⟨1, "\"a\""⟩, ⟨1, "b"⟩, ⟨2, "y"⟩, ⟨1, "c"⟩] World.init).2.calls
          = committed World.init.calls ++ [ps] ∧
      ps.Pairwise (fun p q => p.PartNumber ≤ q.PartNumber) ∧
      ps.Perm ([(⟨2, "x"⟩ : oss.UploadPart), ⟨1, "\"a\""⟩, ⟨1, "b"⟩, ⟨2, "y"⟩, ⟨1, "c"⟩].map
        convertPart) ∧
      ∀ n : Int, ps.filter (fun p => decide (p.PartNumber = n))
        = ([(⟨2, "x"⟩ : oss.UploadPart), ⟨1, "\"a\""⟩, ⟨1, "b"⟩, ⟨2, "y"⟩, ⟨1, "c"⟩].map
            convertPart).filter (fun p => decide (p.PartNumber = n)) := by
  refine ⟨by decide, ?_⟩
  obtain ⟨ps, h1, h2, h3, h4⟩ := CompleteMultipartUpload_stable_on_short_lists okClient
    (utcRuntime 1700000025000000000) "u" "k"
    [⟨2, "x"⟩, ⟨1, "\"a\""⟩, ⟨1, "b"⟩, ⟨2, "y"⟩, ⟨1, "c"⟩] World.init
  exact ⟨ps, h1, h2, h3, h4 (Or.inl (by decide))⟩

set_option maxRecDepth 100000 in
/-- The expression `int64(time.Hour.Seconds())` is 3600. -/
theorem wholeSeconds_Hour : toInt64 (Duration.wholeSeconds Hour) = 3600 := by decide

set_option maxRecDepth 100000 in
/-- The seconds of a duration are a `float64`: one nanosecond short of 16777217 seconds
they round up to 16777217, and at five seconds and a half they are truncated to 5. -/
theorem wholeSeconds_rounds :
    Duration.wholeSeconds 16777216999999999 = 16777217 ∧
      Duration.wholeSeconds 16777216000000000 = 16777216 ∧
      Duration.wholeSeconds 5500000000 = 5 ∧ Duration.wholeSeconds (-5500000000) = -5 := by
  decide

/-! ## The handlers -/

/-- `strconv.Atoi` rejects the empty string. -/
theorem Atoi_empty : Atoi "" = none := by decide

/-- C7. For every PartURL request whose `partNumber` query value is absent or is not
parseable as an integer (`strconv.Atoi` fails), `UploadHandler.GenerateUploadPartURL`
responds with status 400 and body `{"error": "invalid partNumber"}`, and no URL signing is
performed: the world, call log included, is as before the request. -/
theorem GenerateUploadPartURL_rejects_unparseable_partNumber (h : UploadHandler)
    (rt : Runtime) (c : Context) (w : World)
    (hbad : c.query.lookup "partNumber" = none ∨ Atoi (c.Query "partNumber") = none) :
    h.GenerateUploadPartURL rt c w = (⟨400, Body.error "invalid partNumber"⟩, w) ∧
      (h.GenerateUploadPartURL rt c w).2.calls = w.calls := by
  have hnone : Atoi (c.Query "partNumber") = none := by
    rcases hbad with hb | hb
    · have : c.Query "partNumber" = "" := by simp [Context.Query, hb]
      rw [this]
      exact Atoi_empty
    · exact hb
  have hres : h.GenerateUploadPartURL rt c w = (⟨400, Body.error "invalid partNumber"⟩, w) := by
    unfold UploadHandler.GenerateUploadPartURL
    simp only [hnone, StatusBadRequest]
  exact ⟨hres, by rw [hres]⟩

/-- C7 at concrete requests: one without `partNumber`, one with the value `1x`. -/
theorem GenerateUploadPartURL_rejects_unparseable_partNumber_witness :
    (okHandler.GenerateUploadPartURL (utcRuntime 1700000025000000000)
        ⟨[("uploadId", "u"), ("objectKey", "k")], .error "EOF"⟩ World.init
          = (⟨400, Body.error "invalid partNumber"⟩, World.init) ∧
      (okHandler.GenerateUploadPartURL (utcRuntime 1700000025000000000)
        ⟨[("uploadId", "u"), ("objectKey", "k")], .error "EOF"⟩ World.init).2.calls
          = World.init.calls) ∧
    (okHandler.GenerateUploadPartURL (utcRuntime 1700000025000000000)
        ⟨[("uploadId", "u"), ("objectKey", "k"), ("partNumber", "1x")], .error "EOF"⟩ World.init
          = (⟨400, Body.error "invalid partNumber"⟩, World.init) ∧
      (okHandler.GenerateUploadPartURL (utcRuntime 1700000025000000000)
        ⟨[("uploadId", "u"), ("objectKey", "k"), ("partNumber", "1x")], .error "EOF"⟩
          World.init).2.calls = World.init.calls) :=
  ⟨GenerateUploadPartURL_rejects_unparseable_partNumber okHandler
      (utcRuntime 1700000025000000000) ⟨[("uploadId", "u"), ("objectKey", "k")], .error "EOF"⟩
      World.init (Or.inl (by decide)),
    GenerateUploadPartURL_rejects_unparseable_partNumber okHandler
      (utcRuntime 1700000025000000000)
      ⟨[("uploadId", "u"), ("objectKey", "k"), ("partNumber", "1x")], .error "EOF"⟩
      World.init (Or.inr (by decide))⟩

/-- The outcome of the PartURL handler on a parseable part number: the signer is called
once, with the part number as parsed. -/
theorem GenerateUploadPartURL_calls (h : UploadHandler) (rt : Runtime) (c : Context)
    (w : World) (n : Int) (hn : Atoi (c.Query "partNumber") = some n) :
    (h.GenerateUploadPartURL rt c w).2.calls
        = w.calls ++ [oss.Call.SignURL (c.Query "objectKey") oss.HTTPMethod.HTTPPut 3600
            (uploadPartOptions (c.Query "uploadId") n
              ((rt.now w.ticks).Add 3600000000000))] ∧
      (h.GenerateUploadPartURL rt c w).1.status ≠ 400 := by
  unfold UploadHandler.GenerateUploadPartURL
  simp only [hn]
  have hsec : toInt64 (Duration.wholeSeconds Hour) = 3600 := wholeSeconds_Hour
  have hns : toInt64 (3600 * Second) = 3600000000000 := by decide
  unfold OSSClient.GenerateUploadPartURL
  simp only [hsec, hns, Now, World.record]
  split <;> rename_i heq <;> split at heq <;> simp only [Prod.mk.injEq] at heq <;>
    obtain ⟨_, hw⟩ := heq <;> subst hw <;>
    simp [StatusInternalServerError, StatusOK]

set_option maxRecDepth 100000 in
/-- C6 as stated fails: a request with upload id `u`, object key `k` and the negative part
number `-1` is not answered with 400; the signer is invoked, for part number `-1`. -/
theorem GenerateUploadPartURL_accepts_negative_partNumber :
    Atoi "-1" = some (-1) ∧
    okHandler.GenerateUploadPartURL (utcRuntime 1700000025000000000)
        ⟨[("uploadId", "u"), ("objectKey", "k"), ("partNumber", "-1")], .error "EOF"⟩ World.init
      = (⟨200, Body.partInfo
            { UploadID := "u", BucketName := "demo", ObjectKey := "k", PartNumber := -1,
              UploadURL := "https://demo.oss.example.com/k",
              ExpirationTime := 1700003625 }⟩,
          ⟨2, [oss.Call.SignURL "k" oss.HTTPMethod.HTTPPut 3600
                (uploadPartOptions "u" (-1) ⟨1700003625000000000⟩)]⟩) := by
  decide

/-- C6, as amended. The PartURL handler requires a `partNumber` that `strconv.Atoi` parses
as an integer, of either sign: when parsing fails the response is 400 and the signer is not
invoked; when it succeeds on a request with non-empty `uploadId` and `objectKey` (negative
numbers such as `-1` included) the response is not 400 and the signer is invoked exactly
once, for the parsed part number with a one-hour expiry. -/
theorem GenerateUploadPartURL_requires_parseable_partNumber (h : UploadHandler)
    (rt : Runtime) (c : Context) (w : World) :
    (Atoi (c.Query "partNumber") = none →
      (h.GenerateUploadPartURL rt c w).1.status = 400 ∧
      (h.GenerateUploadPartURL rt c w).2.calls = w.calls) ∧
    (∀ n : Int, Atoi (c.Query "partNumber") = some n →
      c.Query "uploadId" ≠ "" → c.Query "objectKey" ≠ "" →
      (h.GenerateUploadPartURL rt c w).1.status ≠ 400 ∧
      (h.GenerateUploadPartURL rt c w).2.calls
        = w.calls ++ [oss.Call.SignURL (c.Query "objectKey") oss.HTTPMethod.HTTPPut 3600
            (uploadPartOptions (c.Query "uploadId") n
              ((rt.now w.ticks).Add 3600000000000))]) := by
  constructor
  · intro hnone
    unfold UploadHandler.GenerateUploadPartURL
    simp only [hnone, StatusBadRequest, and_self]
  · intro n hn _ _
    exact ⟨(GenerateUploadPartURL_calls h rt c w n hn).2,
      (GenerateUploadPartURL_calls h rt c w n hn).1⟩

/-- C6 as amended, at concrete requests: the value `x1` is refused without signing, the value
`-1` is signed. -/
theorem GenerateUploadPartURL_requires_parseable_partNumber_witness :
    ((okHandler.GenerateUploadPartURL (utcRuntime 1700000025000000000)
        ⟨[("uploadId", "u"), ("objectKey", "k"), ("partNumber", "x1")], .error "EOF"⟩
        World.init).1.status = 400 ∧
      (okHandler.GenerateUploadPartURL (utcRuntime 1700000025000000000)
        ⟨[("uploadId", "u"), ("objectKey", "k"), ("partNumber", "x1")], .error "EOF"⟩
        World.init).2.calls = World.init.calls) ∧
    (okHandler.GenerateUploadPartURL (utcRuntime 1700000025000000000)
        ⟨[("uploadId", "u"), ("objectKey", "k"), ("partNumber", "-1")], .error "EOF"⟩
        World.init).1.status ≠ 400 :=
  ⟨(GenerateUploadPartURL_requires_parseable_partNumber okHandler
      (utcRuntime 1700000025000000000)
      ⟨[("uploadId", "u"), ("objectKey", "k"), ("partNumber", "x1")], .error "EOF"⟩
      World.init).1 (by decide),
    ((GenerateUploadPartURL_requires_parseable_partNumber okHandler
      (utcRuntime 1700000025000000000)
      ⟨[("uploadId", "u"), ("objectKey", "k"), ("partNumber", "-1")], .error "EOF"⟩
      World.init).2 (-1) (by decide) (by decide) (by decide)).1⟩

/-- The function `generateObjectKey` reads the clock only: the call log is unchanged. -/
theorem generateObjectKey_calls (rt : Runtime) (originalName : String) (w : World) :
    (generateObjectKey rt originalName w).2.calls = w.calls := rfl

/-- C8. For every Init request whose `filename` query parameter is missing or empty (so that
`c.Query("filename")` is the empty string), `UploadHandler.InitUpload` responds with status
400 and an error body, and attempts no provider call; conversely, for every non-empty
`filename` the handler makes exactly one initiate call, against the key that
`generateObjectKey` derives from that file name. -/
theorem InitUpload_requires_filename (h : UploadHandler) (rt : Runtime) (c : Context)
    (w : World) :
    (c.Query "filename" = "" →
      h.InitUpload rt c w = (⟨400, Body.error "filename is required"⟩, w) ∧
      (h.InitUpload rt c w).2.calls = w.calls) ∧
    (c.Query "filename" ≠ "" →
      (h.InitUpload rt c w).2.calls
        = w.calls ++ [oss.Call.InitiateMultipartUpload
            (generateObjectKey rt (c.Query "filename") w).1]) := by
  constructor
  · intro hempty
    have hres : h.InitUpload rt c w = (⟨400, Body.error "filename is required"⟩, w) := by
      unfold UploadHandler.InitUpload
      simp only [hempty, if_true, StatusBadRequest]
    exact ⟨hres, by rw [hres]⟩
  · intro hne
    unfold UploadHandler.InitUpload
    simp only [hne, if_false]
    unfold OSSClient.InitiateMultipartUpload
    simp only [World.record, generateObjectKey, Now]
    split <;> rename_i heq <;> split at heq <;> simp only [Prod.mk.injEq] at heq <;>
      obtain ⟨_, hw⟩ := heq <;> subst hw <;> rfl

/-- C8 at concrete requests: one without `filename`, one with `filename=a.txt`. -/
theorem InitUpload_requires_filename_witness :
    (okHandler.InitUpload (utcRuntime 1700000025000000000) ⟨[], .error "EOF"⟩ World.init
        = (⟨400, Body.error "filename is required"⟩, World.init)) ∧
      (okHandler.InitUpload (utcRuntime 1700000025000000000)
          ⟨[("filename", "a.txt")], .error "EOF"⟩ World.init).2.calls
        = [oss.Call.InitiateMultipartUpload "uploads/2023_11_14/1700000025000001000_a.txt"] :=
  ⟨((InitUpload_requires_filename okHandler (utcRuntime 1700000025000000000)
      ⟨[], .error "EOF"⟩ World.init).1 (by decide)).1, by decide⟩

/-- C9 as stated fails for `CompleteUpload`: when the provider's commit call fails with the
text `boom`, the body of the 500 response is not `boom` but that text behind the prefix
`complete multipart upload failed: `; the commit call was attempted once. -/
theorem CompleteUpload_error_text_not_verbatim :
    (failingBucket "boom").CompleteMultipartUpload []
        { Bucket := "demo", Key := "k", UploadID := "u" } [⟨1, "x"⟩] = .error "boom" ∧
    (failingHandler "boom").CompleteUpload (utcRuntime 1700000025000000000)
        ⟨[], .ok ⟨"u", "k", [⟨1, "\"x\""⟩]⟩⟩ World.init
      = (⟨500, Body.error "complete multipart upload failed: boom"⟩,
          ⟨0, [oss.Call.CompleteMultipartUpload
                { Bucket := "demo", Key := "k", UploadID := "u" } [⟨1, "x"⟩]]⟩) ∧
    Body.error "complete multipart upload failed: boom" ≠ Body.error "boom" :=
  ⟨rfl, by decide, by decide⟩

/-- C9, as amended. For every request that passes validation, if the downstream provider
call fails with error text `e`, the response has status 500, the provider call was attempted
exactly once, and the body is `{"error": m}` where `m` is `e` verbatim for `InitUpload` and
`GenerateUploadPartURL`, and `e` behind the prefix `complete multipart upload failed: ` for
`CompleteUpload`. -/
theorem provider_failure_response (h : UploadHandler) (rt : Runtime) (c : Context) (w : World)
    (e : String) :
    (c.Query "filename" ≠ "" →
      h.ossClient.bucket.InitiateMultipartUpload w.calls
        (generateObjectKey rt (c.Query "filename") w).1 = .error e →
      (h.InitUpload rt c w).1 = ⟨500, Body.error e⟩ ∧
      (h.InitUpload rt c w).2.calls
        = w.calls ++ [oss.Call.InitiateMultipartUpload
            (generateObjectKey rt (c.Query "filename") w).1]) ∧
    (∀ n : Int, Atoi (c.Query "partNumber") = some n →
      h.ossClient.bucket.SignURL w.calls (c.Query "objectKey") oss.HTTPMethod.HTTPPut 3600
        (uploadPartOptions (c.Query "uploadId") n ((rt.now w.ticks).Add 3600000000000))
          = .error e →
      (h.GenerateUploadPartURL rt c w).1 = ⟨500, Body.error e⟩ ∧
      (h.GenerateUploadPartURL rt c w).2.calls
        = w.calls ++ [oss.Call.SignURL (c.Query "objectKey") oss.HTTPMethod.HTTPPut 3600
            (uploadPartOptions (c.Query "uploadId") n
              ((rt.now w.ticks).Add 3600000000000))]) ∧
    (∀ req : CompleteUploadRequest, c.bindJSON = .ok req →
      h.ossClient.bucket.CompleteMultipartUpload w.calls
        { Bucket := h.ossClient.config.BucketName, Key := req.ObjectKey,
          UploadID := req.UploadID }
        (((sort.Slice rt.xorshift less
          (req.Parts.map (fun p => { PartNumber := p.PartNumber, ETag := p.ETag }))).getD
            (req.Parts.map (fun p => { PartNumber := p.PartNumber, ETag := p.ETag }))).map
              convertPart) = .error e →
      (h.CompleteUpload rt c w).1
        = ⟨500, Body.error ("complete multipart upload failed: " ++ e)⟩ ∧
      (h.CompleteUpload rt c w).2.calls
        = w.calls ++ [oss.Call.CompleteMultipartUpload
            { Bucket := h.ossClient.config.BucketName, Key := req.ObjectKey,
              UploadID := req.UploadID }
            (((sort.Slice rt.xorshift less
              (req.Parts.map (fun p => { PartNumber := p.PartNumber, ETag := p.ETag }))).getD
                (req.Parts.map (fun p => { PartNumber := p.PartNumber, ETag := p.ETag }))).map
                  convertPart)]) := by
  refine ⟨?_, ?_, ?_⟩
  · intro hne herr
    unfold UploadHandler.InitUpload
    simp only [hne, if_false]
    unfold OSSClient.InitiateMultipartUpload
    simp only [generateObjectKey_calls, herr, World.record, StatusInternalServerError,
      and_self]
  · intro n hn herr
    unfold UploadHandler.GenerateUploadPartURL
    simp only [hn]
    have hsec : toInt64 (Duration.wholeSeconds Hour) = 3600 := wholeSeconds_Hour
    have hns : toInt64 (3600 * Second) = 3600000000000 := by decide
    unfold OSSClient.GenerateUploadPartURL
    simp only [hsec, hns, Now, World.record, herr, StatusInternalServerError, and_self]
  · intro req hreq herr
    unfold UploadHandler.CompleteUpload
    simp only [hreq]
    unfold OSSClient.CompleteMultipartUpload
    simp only [herr, World.record, StatusInternalServerError, and_self]

/-- C9 as amended, at concrete requests against a provider that fails with `boom`. -/
theorem provider_failure_response_witness :
    ((failingHandler "boom").InitUpload (utcRuntime 1700000025000000000)
        ⟨[("filename", "a.txt")], .error "EOF"⟩ World.init).1 = ⟨500, Body.error "boom"⟩ ∧
    ((failingHandler "boom").GenerateUploadPartURL (utcRuntime 1700000025000000000)
        ⟨[("uploadId", "u"), ("objectKey", "k"), ("partNumber", "1")], .error "EOF"⟩
        World.init).1 = ⟨500, Body.error "boom"⟩ ∧
    ((failingHandler "boom").CompleteUpload (utcRuntime 1700000025000000000)
        ⟨[], .ok ⟨"u", "k", [⟨1, "\"x\""⟩]⟩⟩ World.init).1
      = ⟨500, Body.error "complete multipart upload failed: boom"⟩ :=
  ⟨((provider_failure_response (failingHandler "boom") (utcRuntime 1700000025000000000)
      ⟨[("filename", "a.txt")], .error "EOF"⟩ World.init "boom").1 (by decide) rfl).1,
   ((provider_failure_response (failingHandler "boom") (utcRuntime 1700000025000000000)
      ⟨[("uploadId", "u"), ("objectKey", "k"), ("partNumber", "1")], .error "EOF"⟩
      World.init "boom").2.1 1 (by decide) rfl).1,
   ((provider_failure_response (failingHandler "boom") (utcRuntime 1700000025000000000)
      ⟨[], .ok ⟨"u", "k", [⟨1, "\"x\""⟩]⟩⟩ World.init "boom").2.2
        ⟨"u", "k", [⟨1, "\"x\""⟩]⟩ rfl rfl).1⟩

/-! ## The expiry of the public URL -/

/-- The expiry `GeneratePublicURL` hands to the signer is the second-of-the-minute of the
instant `time.Now().Add(exp)`, a number between 0 and 59 whatever `exp` is. -/
theorem GeneratePublicURL_expiry (o : OSSClient) (rt : Runtime) (objectKey : String)
    (exp : Duration) (w : World) :
    signedExpiries (o.GeneratePublicURL rt objectKey exp w).2.calls
        = signedExpiries w.calls ++ [Time.Second rt.zoneOffset ((rt.now w.ticks).Add exp)] ∧
      0 ≤ Time.Second rt.zoneOffset ((rt.now w.ticks).Add exp) ∧
      Time.Second rt.zoneOffset ((rt.now w.ticks).Add exp) < 60 := by
  refine ⟨?_, ?_, ?_⟩
  · unfold OSSClient.GeneratePublicURL
    simp only [Now, World.record]
    split <;> simp [signedExpiries]
  · exact Int.emod_nonneg _ (by norm_num)
  · exact Int.emod_lt_of_pos _ (by norm_num)

/-- C4 fails on the code: with the clock at 2023-11-14 22:13:45 UTC a successful
`CompleteMultipartUpload` hands the signer the expiry 55, the second-of-the-minute of the
instant ten seconds later, and with the clock at 22:13:50 it hands it the expiry 0; neither
is the 10 seconds of the requested time-to-live. -/
theorem CompleteMultipartUpload_public_expiry_is_clock_second :
    (okClient.CompleteMultipartUpload (utcRuntime 1700000025000000000) "u" "k"
        [⟨1, "\"x\""⟩] World.init).2.calls
      = [oss.Call.CompleteMultipartUpload { Bucket := "demo", Key := "k", UploadID := "u" }
            [⟨1, "x"⟩],
          oss.Call.SignURL "k" oss.HTTPMethod.HTTPGet 55
            [oss.Option.ResponseContentDisposition "attachment; filename=\"k\""]] ∧
    signedExpiries (okClient.CompleteMultipartUpload (utcRuntime 1700000025000000000) "u" "k"
        [⟨1, "\"x\""⟩] World.init).2.calls = [55] ∧
    signedExpiries (okClient.CompleteMultipartUpload (utcRuntime 1700000030000000000) "u" "k"
        [⟨1, "\"x\""⟩] World.init).2.calls = [0] := by
  decide

end OssUpload
